import Mathlib

/-!
# Verification of the simview hierarchy tree browser

A shallow embedding of `src/hierarchy.cc` (the lazy expandable tree browser
of the simview repository), together with proofs about its behaviour.

Machine integers of the source (`int`) stay well inside 31 bits in every
scenario considered here, so they are modelled as `Nat` where the source
keeps them non-negative, and as `Int` where the source can make them
negative (`ui_max_col_scroll_`, `scroll_row_` arithmetic).

The design model underneath the browser (UHDM) is modelled by a table of
nodes addressed by `Nat` identities (standing for the `const UHDM::any *`
pointers of the source); pointer equality becomes `Nat` equality.
-/

namespace SimView

/-! ## Stable sorting

`std::stable_sort(first, last, lt)` sorts by the strict weak order `lt`,
keeping the original relative order of equivalent elements.  It is modelled
by a stable insertion sort: `stInsert` places `x` after every element
strictly smaller than `x` and before the first element that is not, so an
element inserted from the head of the original list ends up before all
elements equivalent to it that came later. -/

def stInsert (lt : α → α → Bool) (x : α) : List α → List α
  | [] => [x]
  | y :: ys => if lt y x then y :: stInsert lt x ys else x :: y :: ys

def stableSortBy (lt : α → α → Bool) : List α → List α
  | [] => []
  | x :: xs => stInsert lt x (stableSortBy lt xs)

/-! ## Strings

`std::string::find(pat, 0)` and the worklib stripper used for display
names. -/

def hasPfx : List Char → List Char → Bool
  | _, [] => true
  | [], _ :: _ => false
  | c :: cs, p :: ps => c = p && hasPfx cs ps

def findSubAux (pat : List Char) : List Char → Nat → Option Nat
  | [], i => if hasPfx [] pat then some i else none
  | c :: cs, i => if hasPfx (c :: cs) pat then some i else findSubAux pat cs (i + 1)

/-- Models `std::string::find(pat, 0)`: the index of the first occurrence of
`pat` in `s`, `none` standing for `std::string::npos`. -/
def strFind (s pat : String) : Option Nat := findSubAux pat.data s.data 0

/-- Byte-lexicographic comparison, modelling `operator<` of `std::string`
(the test data is ASCII, where bytes and code points agree). -/
def charsLt : List Char → List Char → Bool
  | _, [] => false
  | [], _ :: _ => true
  | a :: as, b :: bs => if a < b then true else if b < a then false else charsLt as bs

def strLt (a b : String) : Bool := charsLt a.data b.data

def stripAux : List Char → Option (List Char)
  | [] => none
  | c :: cs => if c = '@' then some cs else stripAux cs

/-- Modelled from the spec: `StripWorklib` is declared in `utils.h`, which is
not among the sources; per the spec (§6) display names are obtained by
"stripping a library-qualifier prefix delimited by `@`" up to and including
the first `@`; a name with no `@` is returned unchanged. -/
def StripWorklib (s : String) : String :=
  match stripAux s.data with
  | some r => ⟨r⟩
  | none => s

/-! ## The UHDM design model

Only the parts of UHDM that `hierarchy.cc` reads.  `Option (List Nat)`
distinguishes a null collection pointer (`none`) from a present, possibly
empty, collection (`some l`) — `Hierarchy`'s constructor distinguishes the
two. -/

def vpiTask : Nat := 28
def vpiFunction : Nat := 29
def vpiModule : Nat := 32
def vpiGenScopeArray : Nat := 133
def vpiGenScope : Nat := 134

structure UhdmNode where
  vpiType : Nat := 0
  vpiName : String := ""
  vpiDefName : String := ""
  vpiLineNo : Nat := 0
  modules : Option (List Nat) := none
  genScopeArrays : Option (List Nat) := none
  taskFuncs : Option (List Nat) := none
  genScopes : Option (List Nat) := none

structure Design where
  node : Nat → UhdmNode
  tops : List Nat

def lineLt (d : Design) (a b : Nat) : Bool :=
  decide ((d.node a).vpiLineNo < (d.node b).vpiLineNo)

/-- `get_subs` from `hierarchy.cc`: children of a module are its submodule,
generate-scope-array and task/function collections; a generate-scope array
delegates to its first generate scope.  The result is stable-sorted by
source line number.  A generate-scope array whose `Gen_scopes()` collection
is null or empty is undefined behaviour in the source (acknowledged by the
`TODO` comment there); the model yields `[]` for it. -/
def get_subs (d : Design) (n : Nat) : List Nat :=
  let it := d.node n
  let subs : List Nat :=
    if it.vpiType = vpiModule then
      it.modules.getD [] ++ it.genScopeArrays.getD [] ++ it.taskFuncs.getD []
    else if it.vpiType = vpiGenScopeArray then
      match (it.genScopes.getD []).head? with
      | some g => (d.node g).modules.getD [] ++ (d.node g).genScopeArrays.getD []
      | none => []
    else []
  stableSortBy (lineLt d) subs

def is_expandable (d : Design) (n : Nat) : Bool := !(get_subs d n).isEmpty

/-! ## Node info cache

`hierarchy.h` is not among the sources; the `NodeInfo`-like struct is
modelled from the spec (§3): `depth` assigned at first materialization,
`expandable` cached, `expanded` initially false, a pagination cursor
(`more_idx`, `0` meaning "not a placeholder", as the source tests
`info.more_idx != 0`), and a parent back-reference.  Field defaults model
the value-initialization performed by `std::map::operator[]`. -/

structure NodeInfo where
  depth : Nat := 0
  expandable : Bool := false
  expanded : Bool := false
  more_idx : Nat := 0
  parent : Nat := 0
  deriving DecidableEq, Repr

instance : Inhabited NodeInfo := ⟨{}⟩

abbrev InfoMap := Nat → Option NodeInfo

def setInfo (m : InfoMap) (n : Nat) (v : NodeInfo) : InfoMap :=
  fun x => if x = n then some v else m x

def infoD (m : InfoMap) (n : Nat) : NodeInfo := (m n).getD default

/-- `entry_info_[n]` default-constructs an entry when the key is absent. -/
def ensureInfo (m : InfoMap) (n : Nat) : InfoMap :=
  if (m n).isSome then m else setInfo m n default

/-! ## Panel state

Fields of `Hierarchy` and of its `Panel` base class that `hierarchy.cc`
reads or writes.  The `Panel` base class is not among the sources; its
fields and their initial values are modelled from the spec (§3
`ViewportState`: reset to zero; §4.4: `-1` is the no-highlight sentinel of
the search column). -/

structure Hier where
  entries : List Nat
  info : InfoMap
  line_idx : Nat
  scroll_row : Int
  ui_col_scroll : Int
  ui_max_col_scroll : Int
  search_text : String
  search_preview : Bool
  search_start_col : Int
  win_h : Nat
  win_w : Nat
  load_instance : Bool
  load_definition : Bool

/-- Limit number of instances dumped into the UI at once
(`kMaxExpandInstances` in `hierarchy.cc`).  The operations below take the
limit as a parameter `k`; the source instantiates it with this constant. -/
def kMaxExpandInstances : Nat := 100

/-! ## ToggleExpand -/

/-- The loop body of `recurse_add_subs`: walk the `get_subs` list of `item`,
pushing every visited child; a child without a cache entry is materialized
at `item`'s depth plus one (becoming a pagination placeholder once
`sub_idx` reaches the limit `k`, which also stops the walk), a child that
is a placeholder stops the walk, and a child still flagged `expanded` is
recursed into via `recurse`. -/
def expLoop (d : Design) (k : Nat) (recurse : Nat → InfoMap → List Nat × InfoMap)
    (item : Nat) : List Nat → Nat → InfoMap → List Nat × InfoMap
  | [], _, m => ([], m)
  | sub :: rest, subIdx, m =>
    match m sub with
    | none =>
      let mi := if subIdx ≥ k then subIdx else 0
      let m1 := setInfo m sub
        { depth := (infoD m item).depth + 1, expandable := is_expandable d sub,
          expanded := false, more_idx := mi, parent := item }
      if mi ≠ 0 then ([sub], m1)
      else
        let r := expLoop d k recurse item rest (subIdx + 1) m1
        (sub :: r.1, r.2)
    | some si =>
      if si.more_idx ≠ 0 then ([sub], m)
      else if si.expanded then
        let r1 := recurse sub m
        let r2 := expLoop d k recurse item rest subIdx r1.2
        (sub :: (r1.1 ++ r2.1), r2.2)
      else
        let r2 := expLoop d k recurse item rest subIdx m
        (sub :: r2.1, r2.2)

/-- `recurse_add_subs` of `Hierarchy::ToggleExpand`.  The source recursion is
bounded only by the design's depth; the embedding makes the call stack
explicit as `fuel` (every theorem below holds for every sufficient fuel,
and the recursion of the source never exhausts it on an acyclic design). -/
def recAddSubs (d : Design) (k : Nat) : Nat → Nat → InfoMap → List Nat × InfoMap
  | 0, _, m => ([], m)
  | fuel + 1, item, m => expLoop d k (recAddSubs d k fuel) item (get_subs d item) 0 m

/-- The resume loop of the `"... more ..."` branch of `ToggleExpand`: starting
at index `i = stopped + 1` of the parent's child list, materialize children
at the placeholder's depth `dep`, flagging child `i` as the new placeholder
(and stopping) once `i - stopped` reaches the limit `k`. -/
def moreLoop (d : Design) (k : Nat) (dep par stopped : Nat) :
    List Nat → Nat → InfoMap → List Nat × InfoMap
  | [], _, m => ([], m)
  | sub :: rest, i, m =>
    let mi := if i - stopped ≥ k then i else 0
    let m1 := setInfo m sub
      { depth := dep, expandable := is_expandable d sub,
        expanded := false, more_idx := mi, parent := par }
    if mi ≠ 0 then ([sub], m1)
    else
      let r := moreLoop d k dep par stopped rest (i + 1) m1
      (sub :: r.1, r.2)

/-- `entries_.insert(entry_it + 1, new.cbegin(), new.cend())`. -/
def spliceAfter (l : List α) (i : Nat) (xs : List α) : List α :=
  l.take (i + 1) ++ xs ++ l.drop (i + 1)

/-- The deletion scan of the collapse branch: count rows after the toggled
one whose depth is strictly greater, reading each through
`entry_info_[...]` (which default-constructs an absent entry, hence the
threaded map). -/
def collapseScan (dep : Nat) : List Nat → InfoMap → Nat × InfoMap
  | [], m => (0, m)
  | e :: rest, m =>
    let m1 := ensureInfo m e
    if (infoD m1 e).depth > dep then
      let r := collapseScan dep rest m1
      (r.1 + 1, r.2)
    else (0, m1)

/-- `Hierarchy::ToggleExpand`.  `line_idx_` outside the visible list would
dereference past the end in the source; the `Panel` base class keeps the
selection clamped (spec §7), and the model returns the state unchanged in
that unreachable case. -/
def toggleExpand (d : Design) (k : Nat) (fuel : Nat) (st : Hier) : Hier :=
  if st.entries.isEmpty then st
  else if hl : st.line_idx < st.entries.length then
    let node := st.entries.get ⟨st.line_idx, hl⟩
    let m0 := ensureInfo st.info node
    let info0 := infoD m0 node
    if info0.more_idx ≠ 0 then
      let m1 := setInfo m0 node { info0 with more_idx := 0 }
      let parentSubs := get_subs d info0.parent
      let r := moreLoop d k info0.depth info0.parent info0.more_idx
        (parentSubs.drop (info0.more_idx + 1)) (info0.more_idx + 1) m1
      { st with entries := spliceAfter st.entries st.line_idx r.1, info := r.2 }
    else if !info0.expandable then { st with info := m0 }
    else if info0.expanded then
      let r := collapseScan info0.depth (st.entries.drop (st.line_idx + 1)) m0
      { st with
        entries := st.entries.take (st.line_idx + 1) ++
          st.entries.drop (st.line_idx + 1 + r.1),
        info := setInfo r.2 node { infoD r.2 node with expanded := false } }
    else
      let r := recAddSubs d k fuel node m0
      let entries1 := spliceAfter st.entries st.line_idx r.1
      let m2 := setInfo r.2 node { infoD r.2 node with expanded := true }
      let scroll1 : Int :=
        if (st.line_idx : Int) - st.scroll_row = (st.win_h : Int) - 1 then
          st.scroll_row +
            min ((entries1.length : Int) - st.scroll_row - (st.win_h : Int))
              ((st.win_h : Int) / 3)
        else st.scroll_row
      { st with entries := entries1, info := m2, scroll_row := scroll1 }
  else st

/-! ## Construction -/

/-- The constructor's population loop: push each top module and create its
cache entry via `entry_info_[top].expandable = is_expandable(top)`. -/
def initTops (d : Design) : List Nat → InfoMap → InfoMap
  | [], m => m
  | t :: ts, m =>
    let m1 := ensureInfo m t
    initTops d ts (setInfo m1 t { infoD m1 t with expandable := is_expandable d t })

/-- The root-ordering comparator of the constructor: tops whose module has a
non-null `Modules()` or `Gen_scope_arrays()` collection sort first; within
a group, lexical order of the raw `VpiName()` (which still carries the
worklib qualifier for top modules, per the comment in `Hierarchy::Draw`). -/
def top_sorter (d : Design) (a b : Nat) : Bool :=
  let ma := d.node a
  let mb := d.node b
  let aHasSubs := ma.modules.isSome || ma.genScopeArrays.isSome
  let bHasSubs := mb.modules.isSome || mb.genScopeArrays.isSome
  if aHasSubs = bHasSubs then strLt ma.vpiName mb.vpiName else aHasSubs

/-- `Hierarchy::Hierarchy`: populate the root set, sort it, and pre-expand
the single instance for usability if there is just one. -/
def mkHierarchy (d : Design) (k fuel winH winW : Nat) : Hier :=
  let m := initTops d d.tops fun _ => none
  let entries := stableSortBy (top_sorter d) d.tops
  let st : Hier :=
    { entries := entries, info := m, line_idx := 0, scroll_row := 0,
      ui_col_scroll := 0, ui_max_col_scroll := 0, search_text := "",
      search_preview := false, search_start_col := -1, win_h := winH,
      win_w := winW, load_instance := false, load_definition := false }
  if entries.length = 1 then toggleExpand d k fuel st else st

/-! ## Search -/

/-- One step of the search cursor: `idx += down ? 1 : -1` with wraparound at
both ends of the list. -/
def searchStep (n : Nat) (down : Bool) (i : Nat) : Nat :=
  if down then (if i + 1 ≥ n then 0 else i + 1)
  else (if i = 0 then n - 1 else i - 1)

/-- The `while (1)` loop of `Hierarchy::Search`: in non-preview mode step
first, then test whether the stripped label contains the search text; in
preview mode test the current row first, then step; stop with failure when
the cursor returns to the start index.  The loop of the source terminates
within `labels.length` iterations whenever `start` is in range; `fuel`
makes that bound explicit. -/
def searchGo (labels : List String) (text : String) (preview down : Bool) (start : Nat) :
    Nat → Nat → Option (Nat × Nat)
  | 0, _ => none
  | fuel + 1, idx =>
    let n := labels.length
    let i1 := if preview then idx else searchStep n down idx
    match strFind (StripWorklib (labels.getD i1 "")) text with
    | some pos => some (i1, pos)
    | none =>
      let i2 := if preview then searchStep n down i1 else i1
      if i2 = start then none else searchGo labels text preview down start fuel i2

/-- Modelled from the spec: `Panel::SetLineAndScroll` belongs to the panel
base class, which is not among the sources.  Per the spec (§4.3/§4.4) it
moves the selection to the given row and scrolls only when the selection
would otherwise leave the viewport. -/
def setLineAndScroll (st : Hier) (idx : Nat) : Hier :=
  let s : Int :=
    if (idx : Int) < st.scroll_row then (idx : Int)
    else if st.scroll_row + (st.win_h : Int) ≤ (idx : Int) then
      (idx : Int) - (st.win_h : Int) + 1
    else st.scroll_row
  { st with line_idx := idx, scroll_row := s }

def hierLabels (d : Design) (st : Hier) : List String :=
  st.entries.map fun e => (d.node e).vpiName

/-- `Hierarchy::Search`. -/
def Search (d : Design) (st : Hier) (searchDown : Bool) : Bool × Hier :=
  if st.entries.length < 2 then (false, st)
  else
    match searchGo (hierLabels d st) st.search_text st.search_preview searchDown
        st.line_idx (st.entries.length + 1) st.line_idx with
    | some (idx, pos) =>
      (true, setLineAndScroll { st with search_start_col := (pos : Int) } idx)
    | none => (false, { st with search_start_col := -1 })

/-! ## Draw -/

/-- The length of the string `indent + exp + inst_name + ' ' + def_name`
rendered for a non-placeholder row (`s.size()` in `Hierarchy::Draw`). -/
def rowStringLen (d : Design) (m : InfoMap) (e : Nat) : Nat :=
  let nd := d.node e
  let defName :=
    if nd.vpiType = vpiGenScopeArray then "[generate]"
    else if nd.vpiType = vpiFunction then "[function]"
    else if nd.vpiType = vpiTask then "[task]"
    else if nd.vpiType ≠ vpiModule then "[" ++ toString nd.vpiType ++ "]"
    else StripWorklib nd.vpiDefName
  let instName := StripWorklib nd.vpiName
  (infoD m e).depth + 1 + instName.length + 1 + defName.length

/-- The row loop of `Hierarchy::Draw`, reduced to its state effect: the
running maximum of rendered line lengths (placeholder rows print
`...more...` without updating it) and the `entry_info_` reads through
`operator[]`.  The loop breaks once `y + scroll_row_` leaves the list (a
negative index converts to a huge `size_t` in the source comparison, hence
the `ei < 0` disjunct). -/
def drawAux (d : Design) (entries : List Nat) (scroll : Int) :
    Nat → Nat → Nat → InfoMap → Nat × InfoMap
  | 0, _, acc, m => (acc, m)
  | r + 1, y, acc, m =>
    let ei : Int := (y : Int) + scroll
    if ei < 0 ∨ (entries.length : Int) ≤ ei then (acc, m)
    else
      let e := entries.getD ei.toNat 0
      let m1 := ensureInfo m e
      let acc1 := if (infoD m1 e).more_idx ≠ 0 then acc
        else max acc (rowStringLen d m1 e)
      drawAux d entries scroll r (y + 1) acc1 m1

/-- `Hierarchy::Draw`, reduced to its state effect:
`ui_max_col_scroll_ = max_string_len - win_w` (stored without clamping, so
it is negative whenever every rendered line fits in the window). -/
def Draw (d : Design) (st : Hier) : Hier :=
  let r := drawAux d st.entries st.scroll_row st.win_h 0 0 st.info
  { st with info := r.2, ui_max_col_scroll := (r.1 : Int) - (st.win_w : Int) }

/-! ## UIChar -/

/-- The `'u'` (up-scope) walk: decrement the selection while the row's depth
is at least the current depth.  The source would fall off the front of the
list on a malformed state; on well-formed states a strictly shallower row
exists above, and the model floors the walk at row `0`. -/
def upScopeWalk (m : InfoMap) (entries : List Nat) (cd : Nat) : Nat → Nat
  | 0 => 0
  | i + 1 =>
    if (infoD m (entries.getD (i + 1) 0)).depth ≥ cd then upScopeWalk m entries cd i
    else i + 1

/-- `Hierarchy::UIChar`.  The default branch delegates to `Panel::UIChar`
(generic navigation), which is not among the sources; the model leaves the
state unchanged there, and no theorem below concerns that branch. -/
def UIChar (d : Design) (k fuel : Nat) (st : Hier) (ch : Nat) : Hier :=
  if ch = 'i'.toNat then { st with load_instance := true }
  else if ch = 'd'.toNat then { st with load_definition := true }
  else if ch = 'u'.toNat then
    let cd := (infoD st.info (st.entries.getD st.line_idx 0)).depth
    if cd ≠ 0 ∧ st.line_idx ≠ 0 then
      let li := upScopeWalk st.info st.entries cd st.line_idx
      { st with
        line_idx := li
        scroll_row := (if (li : Int) - st.scroll_row < 0 then (li : Int) else st.scroll_row) }
    else st
  else if ch = 0x20 ∨ ch = 0xd then toggleExpand d k fuel st
  else if ch = 'h'.toNat ∨ ch = 0x104 then
    if 0 < st.ui_col_scroll then { st with ui_col_scroll := st.ui_col_scroll - 1 } else st
  else if ch = 'l'.toNat ∨ ch = 0x105 then
    if st.ui_col_scroll < st.ui_max_col_scroll then
      { st with ui_col_scroll := st.ui_col_scroll + 1 }
    else st
  else st

/-! ## Navigation

Selecting a row is handled by the `Panel` base class, which is not among
the sources; modelled from the spec (§4.3): the selection may be moved to
any row of the Visible List (the base class keeps it clamped into range). -/

def setLine (st : Hier) (i : Nat) : Hier := { st with line_idx := i }

/-! ## Well-formedness

The state invariants that every state reachable through the operations of
`hierarchy.cc` satisfies; they formalize the spec's flattening and cache
invariants (§3) for the embedding. -/

/-- The depth-adjacency invariant of the spec (§8): the depth of row `i+1`
never exceeds the depth of row `i` plus one. -/
def AdjOK (st : Hier) : Prop :=
  List.Chain' (fun a b => (infoD st.info b).depth ≤ (infoD st.info a).depth + 1) st.entries

/-- The design shapes the browser is used on: every node has at most one
parent, child lists carry no duplicates, and top modules appear in no
child list. -/
structure TreeLike (d : Design) : Prop where
  uniqueParent : ∀ p q c, c ∈ get_subs d p → c ∈ get_subs d q → p = q
  subsNodup : ∀ p, (get_subs d p).Nodup
  topsNotSub : ∀ c p, c ∈ d.tops → c ∉ get_subs d p

/-- Invariants of the node-info cache alone. `mm` in `pag` is the length of
the materialized prefix of a parent's child list: materialization always
proceeds left to right, stops either at the end or at a pagination
placeholder sitting at the end of the prefix, and only that last
materialized child can carry a placeholder flag (whose value is its index
in the child list). -/
structure MapWF (d : Design) (m : InfoMap) : Prop where
  cacheDepth : ∀ p c, (m p).isSome → (m c).isSome → c ∈ get_subs d p →
    (infoD m c).depth = (infoD m p).depth + 1
  parentUp : ∀ c, (m c).isSome → c ∈ d.tops ∨ ∃ p, (m p).isSome ∧ c ∈ get_subs d p
  morePar : ∀ c i, m c = some i → i.more_idx ≠ 0 →
    (m i.parent).isSome ∧ (get_subs d i.parent).get? i.more_idx = some c
  pag : ∀ p, (m p).isSome → ∃ mm, mm ≤ (get_subs d p).length ∧
    (∀ j c, j < mm → (get_subs d p).get? j = some c → (m c).isSome) ∧
    (∀ j c, mm ≤ j → (get_subs d p).get? j = some c → m c = none) ∧
    (∀ j c i, (get_subs d p).get? j = some c → m c = some i → i.more_idx ≠ 0 →
      j + 1 = mm ∧ i.more_idx = j ∧ 1 ≤ j) ∧
    (mm = (get_subs d p).length ∨ mm = 0 ∨
      ∃ c i, (get_subs d p).get? (mm - 1) = some c ∧ m c = some i ∧
        i.more_idx = mm - 1 ∧ 1 ≤ mm - 1)
  expMat : ∀ p i, m p = some i → i.expanded →
    ∃ c, (get_subs d p).get? 0 = some c ∧ (m c).isSome
  expOK : ∀ n i, m n = some i → i.expandable = is_expandable d n

/-- Well-formed browser state: every visible row has a cache entry, rows
satisfy the depth-adjacency invariant, and the cache is consistent. -/
structure WF (d : Design) (st : Hier) : Prop where
  entriesInfo : ∀ e ∈ st.entries, (st.info e).isSome
  adj : AdjOK st
  map : MapWF d st.info

/-- States reachable through the operations the claims concern:
construction, selecting a row, and toggle-expand (which covers expansion,
collapse and pagination resume). -/
inductive Reach (d : Design) (k : Nat) : Hier → Prop
  | init (fuel winH winW : Nat) (hf : 1 ≤ fuel) :
      Reach d k (mkHierarchy d k fuel winH winW)
  | select (st : Hier) (i : Nat) (hi : i < st.entries.length) :
      Reach d k st → Reach d k (setLine st i)
  | toggle (st : Hier) (fuel : Nat) (hf : 1 ≤ fuel) :
      Reach d k st → Reach d k (toggleExpand d k fuel st)

/-! ## Search bookkeeping -/

/-- The first label (by index) of `labels` whose worklib-stripped form
contains `text`, together with the match position. -/
def firstHit (labels : List String) (text : String) : List Nat → Option (Nat × Nat)
  | [] => none
  | i :: rest =>
    match strFind (StripWorklib (labels.getD i "")) text with
    | some pos => some (i, pos)
    | none => firstHit labels text rest

/-- The sequence of row indices the search loop visits: in preview mode the
current row first and then `n - 1` steps; otherwise `n` steps starting
with the first one.  (`n` being the length of the Visible List, both
sequences end just before the cursor would return to the start.) -/
def searchCands (n : Nat) (preview down : Bool) (start : Nat) : List Nat :=
  if preview then (List.range n).map fun t => (searchStep n down)^[t] start
  else (List.range n).map fun t => (searchStep n down)^[t + 1] start

/-! ## Rendering bookkeeping -/

/-- The longest rendered line among the viewport's worth of rows starting at
the scroll position (placeholder rows render as `...more...` and do not
participate), as `Hierarchy::Draw` accumulates it. -/
def visibleMaxLen (d : Design) (st : Hier) : Nat :=
  ((st.entries.drop st.scroll_row.toNat).take st.win_h).foldl
    (fun acc e => if (infoD st.info e).more_idx ≠ 0 then acc
      else max acc (rowStringLen d st.info e)) 0

/-! ## Concrete designs and states used by the theorems below -/

def leafNode (n : Nat) : UhdmNode :=
  { vpiType := vpiModule, vpiName := "c" ++ toString n, vpiDefName := "leaf",
    vpiLineNo := n }

/-- A fan design: node `0` is the only top module, with children `1 … N`
(declared in source order, one per line). -/
def dFan (N : Nat) : Design :=
  { node := fun n =>
      if n = 0 then
        { vpiType := vpiModule, vpiName := "work@top", vpiDefName := "work@topdef",
          vpiLineNo := 0, modules := some (List.range' 1 N) }
      else leafNode n
    tops := [0] }

/-- The fan's root shown alone and collapsed, selection on it. -/
def stFan : Hier :=
  { entries := [0]
    info := fun n => if n = 0 then some { depth := 0, expandable := true } else none
    line_idx := 0, scroll_row := 0, ui_col_scroll := 0, ui_max_col_scroll := 0
    search_text := "", search_preview := false, search_start_col := -1
    win_h := 20, win_w := 80, load_instance := false, load_definition := false }

/-- A design with a single childless top module. -/
def dLeaf : Design := { node := fun n => leafNode n, tops := [0] }

/-- Two top modules: top `1` has one task child (so at least one child via
`get_subs`) but null `Modules()`/`Gen_scope_arrays()` collections; top `2`
is childless.  Top `1`'s raw name sorts after top `2`'s. -/
def dTops : Design :=
  { node := fun n =>
      if n = 1 then { vpiType := vpiModule, vpiName := "w@b", taskFuncs := some [3] }
      else if n = 2 then { vpiType := vpiModule, vpiName := "w@a" }
      else if n = 3 then { vpiType := vpiTask, vpiName := "t", vpiLineNo := 1 }
      else {}
    tops := [1, 2] }

/-- Two childless top modules from different worklibs: the display names
order as `"a" < "z"` while the raw names order the other way. -/
def dTopsLib : Design :=
  { node := fun n =>
      if n = 1 then { vpiType := vpiModule, vpiName := "b@a" }
      else if n = 2 then { vpiType := vpiModule, vpiName := "a@z" }
      else {}
    tops := [1, 2] }

/-- Four top modules labelled `A`, `Bx`, `C`, `Dx` for the search claims. -/
def dRows : Design :=
  { node := fun n =>
      if n = 10 then { vpiType := vpiModule, vpiName := "A" }
      else if n = 11 then { vpiType := vpiModule, vpiName := "Bx" }
      else if n = 12 then { vpiType := vpiModule, vpiName := "C" }
      else if n = 13 then { vpiType := vpiModule, vpiName := "Dx" }
      else {}
    tops := [10, 11, 12, 13] }

/-- The rows `[A, Bx, C, Dx]` with the selection on row `0` and search text
`"x"`. -/
def stRows : Hier :=
  { entries := [10, 11, 12, 13]
    info := fun n => if 10 ≤ n ∧ n ≤ 13 then some { depth := 0 } else none
    line_idx := 0, scroll_row := 0, ui_col_scroll := 0, ui_max_col_scroll := 0
    search_text := "x", search_preview := false, search_start_col := -1
    win_h := 20, win_w := 80, load_instance := false, load_definition := false }

/-- The fan with `3 * kMaxExpandInstances + 1 = 301` children: expanded once
(`stPag1`), then with the pagination placeholder row activated once
(`stPag2`), twice (`stPag3`) and three times (`stPag4`); each activation
selects the placeholder row and toggles it. -/
def stPag1 : Hier := toggleExpand (dFan 301) kMaxExpandInstances 1 stFan

def stPag2 : Hier := toggleExpand (dFan 301) kMaxExpandInstances 1 (setLine stPag1 101)

def stPag3 : Hier := toggleExpand (dFan 301) kMaxExpandInstances 1 (setLine stPag2 201)

def stPag4 : Hier := toggleExpand (dFan 301) kMaxExpandInstances 1 (setLine stPag3 301)

/-- Two top modules for the round-trip and stability claims: root `0` has
two submodule children `1`, `2` and sorts first; root `5` is childless. -/
def dPair : Design :=
  { node := fun n =>
      if n = 0 then
        { vpiType := vpiModule, vpiName := "w@a", vpiDefName := "w@adef",
          vpiLineNo := 0, modules := some [1, 2] }
      else if n = 5 then { vpiType := vpiModule, vpiName := "w@b" }
      else leafNode n
    tops := [0, 5] }

/-- The cache shape of the `301`-fan browser after expanding the root and
resuming pagination up to child `B`: the root is expanded, children
`1 … B` are materialized at depth `1` with the pagination flag `f` on
child `B` (`0` once the placeholder has been cleared), and every other
node is absent. -/
def fanInfo (B f : Nat) : InfoMap := fun n =>
  if n = 0 then
    some { depth := 0, expandable := true, expanded := true, more_idx := 0,
           parent := 0 }
  else if n ≤ B then
    some { depth := 1, expandable := false, expanded := false,
           more_idx := if n = B then f else 0, parent := 0 }
  else none

/-- The full behavioural specification of `recurse_add_subs` on a
well-formed cache, proved below (`recAddSubs_spec`) by induction on the
fuel: existing entries survive byte-identically, new entries are only
direct children of the expanded node, cache well-formedness is preserved,
and the produced row block consists of cached rows strictly below the
expanded node's depth, starting exactly one level below it and never
dropping by more than one level between neighbours; when the node's first
child is already materialized the cache does not change at all. -/
def RecSpec (d : Design) (k fuel : Nat) : Prop :=
  ∀ (item : Nat) (m : InfoMap), MapWF d m → (m item).isSome →
    (∀ n, (m n).isSome → (recAddSubs d k fuel item m).2 n = m n) ∧
    (∀ n, ((recAddSubs d k fuel item m).2 n).isSome →
      (m n).isSome ∨ n ∈ get_subs d item) ∧
    MapWF d (recAddSubs d k fuel item m).2 ∧
    (∀ c ∈ (recAddSubs d k fuel item m).1,
      ((recAddSubs d k fuel item m).2 c).isSome) ∧
    (∀ c ∈ (recAddSubs d k fuel item m).1,
      (infoD m item).depth + 1 ≤ (infoD (recAddSubs d k fuel item m).2 c).depth) ∧
    (∀ c, (recAddSubs d k fuel item m).1.head? = some c →
      (infoD (recAddSubs d k fuel item m).2 c).depth = (infoD m item).depth + 1) ∧
    List.Chain' (fun a b => (infoD (recAddSubs d k fuel item m).2 b).depth ≤
      (infoD (recAddSubs d k fuel item m).2 a).depth + 1)
      (recAddSubs d k fuel item m).1 ∧
    ((∃ c, (get_subs d item).get? 0 = some c ∧ (m c).isSome) →
      (recAddSubs d k fuel item m).2 = m)

/-! # Theorems -/

/-! ## Basic cache-map lemmas -/

theorem ensureInfo_of_isSome (m : InfoMap) (n : Nat) (h : (m n).isSome) :
    ensureInfo m n = m := by
  unfold ensureInfo
  rw [if_pos h]

theorem infoD_of_some (m : InfoMap) (n : Nat) (v : NodeInfo) (h : m n = some v) :
    infoD m n = v := by
  unfold infoD
  rw [h]
  rfl

theorem setInfo_self (m : InfoMap) (n : Nat) (v : NodeInfo) :
    setInfo m n v n = some v := by
  unfold setInfo
  rw [if_pos rfl]

theorem setInfo_ne (m : InfoMap) (n x : Nat) (v : NodeInfo) (h : x ≠ n) :
    setInfo m n v x = m x := by
  unfold setInfo
  rw [if_neg h]

/-- `moreLoop` only writes entries for the (distinct, previously absent)
nodes of its list, so every existing cache entry survives unchanged. -/
theorem moreLoop_preserves (d : Design) (k dep par stopped : Nat) :
    ∀ (l : List Nat) (i : Nat) (m : InfoMap) (n : Nat) (v : NodeInfo),
      (∀ c ∈ l, m c = none) → l.Nodup → m n = some v →
      (moreLoop d k dep par stopped l i m).2 n = some v := by
  intro l
  induction l with
  | nil => intro i m n v _ _ hv; exact hv
  | cons sub rest ih =>
    intro i m n v hfresh hnd hv
    have hns : n ≠ sub := by
      intro h
      rw [h, hfresh sub (List.mem_cons_self _ _)] at hv
      cases hv
    have hset : ∀ w : NodeInfo, setInfo m sub w n = some v := by
      intro w
      rw [setInfo_ne _ _ _ _ hns]
      exact hv
    have hfreshSet : ∀ w : NodeInfo, ∀ c ∈ rest, setInfo m sub w c = none := by
      intro w c hc
      have hcs : c ≠ sub := by
        intro h
        subst h
        exact (List.nodup_cons.mp hnd).1 hc
      rw [setInfo_ne _ _ _ _ hcs]
      exact hfresh c (List.mem_cons_of_mem _ hc)
    simp only [moreLoop]
    split
    · split
      · exact hset _
      · exact ih _ _ _ _ (hfreshSet _) (List.nodup_cons.mp hnd).2 (hset _)
    · split
      · exact hset _
      · exact ih _ _ _ _ (hfreshSet _) (List.nodup_cons.mp hnd).2 (hset _)

/-- Activating a `...more...` placeholder whose pending siblings are not yet
materialized (the situation in every reachable state) preserves every
existing cache entry, except that the placeholder's own pagination cursor
is cleared; in particular the resume operation changes no node's
`expanded` flag, depth or expandability. -/
theorem toggle_more_preserves (d : Design) (k fuel : Nat) (st : Hier)
    (hl : st.line_idx < st.entries.length) (nd : Nat)
    (hget : st.entries.get ⟨st.line_idx, hl⟩ = nd)
    (i0 : NodeInfo) (hi0 : st.info nd = some i0) (hm : i0.more_idx ≠ 0)
    (hfresh : ∀ c ∈ (get_subs d i0.parent).drop (i0.more_idx + 1),
      st.info c = none ∧ c ≠ nd)
    (hnodup : ((get_subs d i0.parent).drop (i0.more_idx + 1)).Nodup) :
    ∀ n v, st.info n = some v → ∃ v2, (toggleExpand d k fuel st).info n = some v2 ∧
      v2.expanded = v.expanded ∧ v2.depth = v.depth ∧ v2.expandable = v.expandable := by
  intro n v hv
  have hne : ¬(st.entries.isEmpty = true) := by
    cases hE : st.entries with
    | nil => rw [hE] at hl; simp at hl
    | cons a l => simp [hE]
  unfold toggleExpand
  rw [if_neg hne, dif_pos hl]
  simp only [hget]
  rw [ensureInfo_of_isSome st.info nd (by rw [hi0]; rfl)]
  rw [infoD_of_some st.info nd i0 hi0]
  rw [if_pos hm]
  simp only
  have hfresh1 : ∀ c ∈ (get_subs d i0.parent).drop (i0.more_idx + 1),
      setInfo st.info nd { i0 with more_idx := 0 } c = none := by
    intro c hc
    rw [setInfo_ne _ _ _ _ (hfresh c hc).2]
    exact (hfresh c hc).1
  by_cases hn : n = nd
  · subst hn
    have hvv : v = i0 := by
      rw [hi0] at hv
      exact (Option.some.injEq _ _ ▸ hv).symm
    refine ⟨{ i0 with more_idx := 0 }, ?_, by rw [hvv], by rw [hvv], by rw [hvv]⟩
    exact moreLoop_preserves d k i0.depth i0.parent i0.more_idx _ _ _ _ _
      hfresh1 hnodup (setInfo_self _ _ _)
  · refine ⟨v, ?_, rfl, rfl, rfl⟩
    refine moreLoop_preserves d k i0.depth i0.parent i0.more_idx _ _ _ _ _
      hfresh1 hnodup ?_
    rw [setInfo_ne _ _ _ _ hn]
    exact hv

/-! ## C10 and C5: search degenerate and failure cases -/

/-- C10: with fewer than two rows `Hierarchy::Search` returns false
immediately, leaving the entire state — highlight column, selection and
scroll included — unchanged, regardless of preview mode and of whether the
single row's label matches. -/
theorem search_short_list_noop (d : Design) (st : Hier) (down : Bool)
    (h : st.entries.length < 2) : Search d st down = (false, st) := by
  unfold Search
  rw [if_pos h]

/-- Witness for `search_short_list_noop`: a single-row list in preview mode
whose only label does contain the search text, yet search fails and
changes nothing. -/
theorem search_short_list_noop_witness :
    ({ stRows with entries := [11], search_preview := true } : Hier).entries.length < 2 ∧
    strFind (StripWorklib (dRows.node 11).vpiName) stRows.search_text = some 1 ∧
    Search dRows { stRows with entries := [11], search_preview := true } true =
      (false, { stRows with entries := [11], search_preview := true }) :=
  ⟨by decide, by decide,
    search_short_list_noop dRows { stRows with entries := [11], search_preview := true }
      true (by decide)⟩

theorem searchStep_lt (n : Nat) (down : Bool) (i : Nat) (hn : 1 ≤ n) (hi : i < n) :
    searchStep n down i < n := by
  unfold searchStep
  split
  · split <;> omega
  · split <;> omega

theorem getD_mem_of_lt (l : List String) (i : Nat) (dft : String)
    (h : i < l.length) : l.getD i dft ∈ l := by
  rw [List.getD_eq_get?, List.get?_eq_get h]
  exact List.get_mem l i h

/-- When no label matches, the search loop terminates with failure for any
fuel, visiting rows without ever finding a hit. -/
theorem searchGo_none (labels : List String) (text : String) (preview down : Bool)
    (start : Nat)
    (hno : ∀ lb ∈ labels, strFind (StripWorklib lb) text = none) :
    ∀ fuel idx, idx < labels.length →
      searchGo labels text preview down start fuel idx = none := by
  intro fuel
  induction fuel with
  | zero => intro idx _; rfl
  | succ fuel ih =>
    intro idx hidx
    have hn : 1 ≤ labels.length := by omega
    have hi1 : (if preview then idx else searchStep labels.length down idx) <
        labels.length := by
      split
      · exact hidx
      · exact searchStep_lt _ _ _ hn hidx
    simp only [searchGo]
    rw [hno _ (getD_mem_of_lt _ _ _ hi1)]
    simp only
    split
    all_goals
      split
      · rfl
      · exact ih _ (searchStep_lt _ _ _ hn hidx)

/-- C5: when no row's label contains the search text, `Hierarchy::Search`
returns false and sets the highlight column to the `-1` no-highlight
sentinel; the selection index, scroll position and every other field stay
exactly as they were. -/
theorem search_no_match (d : Design) (st : Hier) (down : Bool)
    (h2 : 2 ≤ st.entries.length) (hl : st.line_idx < st.entries.length)
    (hno : ∀ e ∈ st.entries,
      strFind (StripWorklib (d.node e).vpiName) st.search_text = none) :
    Search d st down = (false, { st with search_start_col := -1 }) := by
  unfold Search
  rw [if_neg (by omega)]
  rw [searchGo_none (hierLabels d st) st.search_text st.search_preview down st.line_idx
    (by
      intro lb hlb
      obtain ⟨e, he, rfl⟩ := List.mem_map.mp hlb
      exact hno e he)
    (st.entries.length + 1) st.line_idx
    (by simpa [hierLabels] using hl)]

/-- Witness for `search_no_match`: searching `[A, Bx, C, Dx]` for `"zz"`. -/
theorem search_no_match_witness :
    (2 ≤ stRows.entries.length) ∧
    Search dRows { stRows with search_text := "zz" } true =
      (false, { stRows with search_text := "zz", search_start_col := -1 }) :=
  ⟨by decide,
    search_no_match dRows { stRows with search_text := "zz" } true (by decide) (by decide)
      (by decide)⟩

/-! ## C8 counterexample -/

/-- C8 counterexample: after a redraw of `[A, Bx, C, Dx]` in an 80-column
window the stored `ui_max_col_scroll_` is `-76`: `Hierarchy::Draw` stores
`max_string_len - win_w` without clamping it to `0` when the difference is
negative, contradicting the claim's "clamped to 0". -/
theorem colscroll_unclamped_counterexample :
    (Draw dRows stRows).ui_max_col_scroll = -76 ∧
    ¬ 0 ≤ (Draw dRows stRows).ui_max_col_scroll :=
  ⟨by decide, by decide⟩

/-! ## C9 counterexample -/

/-- C9 counterexample: a design with exactly one (childless) top module.
The constructor still calls `ToggleExpand`, but a non-expandable node is a
no-op, so the single root does *not* end up expanded, contradicting the
claim that the root of a one-root design is automatically expanded. -/
theorem single_root_childless_counterexample :
    dLeaf.tops.length = 1 ∧ is_expandable dLeaf 0 = false ∧
    (mkHierarchy dLeaf 100 1 20 80).entries = [0] ∧
    ((mkHierarchy dLeaf 100 1 20 80).info 0).map (fun i => i.expanded) = some false :=
  ⟨by decide, by decide, by decide, by decide⟩

/-! ## C7 counterexample -/

/-- C7 counterexample.  In `dTops`, top `1` has a child (a task, reachable
through `get_subs`) and top `2` is childless, yet the constructor orders
`2` before `1`: the "has subs" classification only tests the `Modules()`
and `Gen_scope_arrays()` pointers for null, not children.  In `dTopsLib`,
both tops are childless with display names `"a"` (top `1`) and `"z"`
(top `2`), yet the constructor orders `2` before `1`: the comparator uses
the raw worklib-qualified `VpiName()`, not the display name. -/
theorem root_order_counterexample :
    (mkHierarchy dTops 100 1 20 80).entries = [2, 1] ∧
    get_subs dTops 1 ≠ [] ∧ get_subs dTops 2 = [] ∧
    (mkHierarchy dTopsLib 100 1 20 80).entries = [2, 1] ∧
    StripWorklib (dTopsLib.node 1).vpiName = "a" ∧
    StripWorklib (dTopsLib.node 2).vpiName = "z" :=
  ⟨by decide, by decide, by decide, by decide, by decide, by decide⟩

/-! ## Stable-sort correctness -/

theorem stInsert_perm (lt : α → α → Bool) (x : α) (l : List α) :
    (stInsert lt x l).Perm (x :: l) := by
  induction l with
  | nil => exact List.Perm.refl _
  | cons y ys ih =>
    simp only [stInsert]
    split
    · exact (ih.cons y).trans (List.Perm.swap x y ys)
    · exact List.Perm.refl _

theorem stableSortBy_perm (lt : α → α → Bool) (l : List α) :
    (stableSortBy lt l).Perm l := by
  induction l with
  | nil => exact List.Perm.refl _
  | cons x xs ih => exact (stInsert_perm lt x _).trans (ih.cons x)

theorem stInsert_pairwise (lt : α → α → Bool)
    (hasym : ∀ a b, lt a b = true → lt b a = false)
    (htrans : ∀ a b c, lt b a = false → lt c b = false → lt c a = false)
    (x : α) (l : List α) (hl : l.Pairwise fun a b => lt b a = false) :
    (stInsert lt x l).Pairwise fun a b => lt b a = false := by
  induction l with
  | nil => simp [stInsert]
  | cons y ys ih =>
    rcases List.pairwise_cons.mp hl with ⟨hy, hys⟩
    simp only [stInsert]
    split
    · rename_i hlt
      refine List.pairwise_cons.mpr ⟨?_, ih hys⟩
      intro z hz
      rcases List.mem_cons.mp ((stInsert_perm lt x ys).mem_iff.mp hz) with rfl | hzys
      · exact hasym _ _ hlt
      · exact hy z hzys
    · rename_i hnlt
      have hxy : lt y x = false := by
        cases h : lt y x
        · rfl
        · exact absurd h hnlt
      refine List.pairwise_cons.mpr ⟨?_, hl⟩
      intro z hz
      rcases List.mem_cons.mp hz with rfl | hzys
      · exact hxy
      · exact htrans x y z hxy (hy z hzys)

theorem stableSortBy_pairwise (lt : α → α → Bool)
    (hasym : ∀ a b, lt a b = true → lt b a = false)
    (htrans : ∀ a b c, lt b a = false → lt c b = false → lt c a = false)
    (l : List α) :
    (stableSortBy lt l).Pairwise fun a b => lt b a = false := by
  induction l with
  | nil => simp [stableSortBy]
  | cons x xs ih => exact stInsert_pairwise lt hasym htrans x _ ih

theorem stInsert_filter_neg (lt : α → α → Bool) (p : α → Bool) (x : α) (l : List α)
    (hpx : p x = false) : (stInsert lt x l).filter p = l.filter p := by
  induction l with
  | nil => simp [stInsert, List.filter, hpx]
  | cons y ys ih =>
    simp only [stInsert]
    split
    · simp only [List.filter]
      rw [ih]
    · simp [List.filter, hpx]

theorem stInsert_filter_pos (lt : α → α → Bool) (p : α → Bool) (x : α) (l : List α)
    (hpx : p x = true)
    (hskip : ∀ y ∈ l, lt y x = true → p y = false) :
    (stInsert lt x l).filter p = x :: l.filter p := by
  induction l with
  | nil => simp [stInsert, List.filter, hpx]
  | cons y ys ih =>
    simp only [stInsert]
    split
    · rename_i hlt
      have hpy : p y = false := hskip y (List.mem_cons_self _ _) hlt
      simp only [List.filter, hpy]
      exact ih fun z hz => hskip z (List.mem_cons_of_mem _ hz)
    · simp [List.filter, hpx]

theorem stableSortBy_filter (lt : α → α → Bool) (p : α → Bool)
    (hequiv : ∀ a b, p a = true → p b = true → lt a b = false) :
    ∀ l : List α, (stableSortBy lt l).filter p = l.filter p := by
  intro l
  induction l with
  | nil => rfl
  | cons x xs ih =>
    simp only [stableSortBy]
    cases hpx : p x
    · rw [stInsert_filter_neg lt p x _ hpx, ih]
      simp [List.filter, hpx]
    · rw [stInsert_filter_pos lt p x _ hpx, ih]
      · simp [List.filter, hpx]
      · intro y hy hlt
        cases hpy : p y
        · rfl
        · rw [hequiv y x hpy hpx] at hlt
          cases hlt

theorem stableSortBy_length (lt : α → α → Bool) (l : List α) :
    (stableSortBy lt l).length = l.length :=
  (stableSortBy_perm lt l).length_eq

/-! ## The root comparator is a strict weak order -/

theorem charsLt_asymm : ∀ x y : List Char, charsLt x y = true → charsLt y x = false := by
  intro x
  induction x with
  | nil =>
    intro y _
    cases y <;> rfl
  | cons a as ih =>
    intro y h
    cases y with
    | nil => cases h
    | cons b bs =>
      simp only [charsLt] at h ⊢
      by_cases hab : a < b
      · rw [if_neg (lt_asymm hab), if_pos hab]
      · rw [if_neg hab] at h
        by_cases hba : b < a
        · rw [if_pos hba] at h
          cases h
        · rw [if_neg hba] at h ⊢
          rw [if_neg hab]
          exact ih bs h

theorem charsLt_negtrans :
    ∀ x y z : List Char, charsLt y x = false → charsLt z y = false →
      charsLt z x = false := by
  intro x
  induction x with
  | nil =>
    intro y z _ _
    cases z <;> rfl
  | cons a as ih =>
    intro y z h1 h2
    cases y with
    | nil => cases h1
    | cons b bs =>
      cases z with
      | nil => cases h2
      | cons c cs =>
        simp only [charsLt] at h1 h2 ⊢
        by_cases hba : b < a
        · rw [if_pos hba] at h1
          cases h1
        · rw [if_neg hba] at h1
          by_cases hcb : c < b
          · rw [if_pos hcb] at h2
            cases h2
          · rw [if_neg hcb] at h2
            have hca : ¬ c < a := fun hca =>
              hcb (lt_of_lt_of_le hca (le_of_not_lt hba))
            rw [if_neg hca]
            by_cases hac : a < c
            · rw [if_pos hac]
            · rw [if_neg hac]
              have hab : ¬ a < b := fun hab =>
                hac (lt_of_lt_of_le hab (le_of_not_lt hcb))
              have hbc : ¬ b < c := fun hbc =>
                hac (lt_of_le_of_lt (le_of_not_lt hba) hbc)
              rw [if_neg hab] at h1
              rw [if_neg hbc] at h2
              exact ih bs cs h1 h2

theorem strLt_asymm (a b : String) (h : strLt a b = true) : strLt b a = false :=
  charsLt_asymm _ _ h

theorem strLt_negtrans (a b c : String) (h1 : strLt b a = false)
    (h2 : strLt c b = false) : strLt c a = false :=
  charsLt_negtrans _ _ _ h1 h2

theorem top_sorter_asym (d : Design) :
    ∀ a b, top_sorter d a b = true → top_sorter d b a = false := by
  intro a b h
  simp only [top_sorter] at h ⊢
  by_cases hf : ((d.node a).modules.isSome || (d.node a).genScopeArrays.isSome) =
      ((d.node b).modules.isSome || (d.node b).genScopeArrays.isSome)
  · rw [if_pos hf] at h
    rw [if_pos hf.symm]
    exact strLt_asymm _ _ h
  · rw [if_neg hf] at h
    rw [if_neg fun hfe => hf hfe.symm]
    cases hbv : ((d.node b).modules.isSome || (d.node b).genScopeArrays.isSome)
    · rfl
    · exact absurd (h.trans hbv.symm) hf

theorem top_sorter_negtrans (d : Design) :
    ∀ a b c, top_sorter d b a = false → top_sorter d c b = false →
      top_sorter d c a = false := by
  intro a b c h1 h2
  simp only [top_sorter] at h1 h2 ⊢
  cases ha : ((d.node a).modules.isSome || (d.node a).genScopeArrays.isSome) <;>
    cases hb : ((d.node b).modules.isSome || (d.node b).genScopeArrays.isSome) <;>
      cases hc : ((d.node c).modules.isSome || (d.node c).genScopeArrays.isSome) <;>
        simp_all <;> exact strLt_negtrans _ _ _ h1 h2

/-- C7 (amended): at construction time the root rows are a permutation of
the design's top modules, ordered without inversions of the source
comparator `top_sorter` (tops with a non-null `Modules()` or
`Gen_scope_arrays()` collection first, then lexically by the raw
worklib-qualified `VpiName`), and stably so: the rows of any
comparator-equivalence class appear in their original relative order. -/
theorem root_order_properties (d : Design) (k fuel winH winW : Nat)
    (h2 : d.tops.length ≠ 1) :
    (mkHierarchy d k fuel winH winW).entries.Perm d.tops ∧
    (mkHierarchy d k fuel winH winW).entries.Pairwise
      (fun a b => top_sorter d b a = false) ∧
    ∀ x, (mkHierarchy d k fuel winH winW).entries.filter
        (fun y => !top_sorter d x y && !top_sorter d y x) =
      d.tops.filter (fun y => !top_sorter d x y && !top_sorter d y x) := by
  have hlen : (stableSortBy (top_sorter d) d.tops).length ≠ 1 := by
    rw [stableSortBy_length]
    exact h2
  have hentries : (mkHierarchy d k fuel winH winW).entries =
      stableSortBy (top_sorter d) d.tops := by
    unfold mkHierarchy
    rw [if_neg hlen]
  rw [hentries]
  refine ⟨stableSortBy_perm _ _,
    stableSortBy_pairwise _ (top_sorter_asym d) (top_sorter_negtrans d) _, ?_⟩
  intro x
  apply stableSortBy_filter
  intro a b ha hb
  simp only [Bool.and_eq_true, Bool.not_eq_true'] at ha hb
  exact top_sorter_negtrans d b x a hb.1 ha.2

/-- Witness for `root_order_properties` at the concrete two-top design. -/
theorem root_order_properties_witness :
    dTops.tops.length ≠ 1 ∧
    (mkHierarchy dTops 100 1 20 80).entries.Perm dTops.tops :=
  ⟨by decide, (root_order_properties dTops 100 1 20 80 (by decide)).1⟩

/-! ## Branch equations for ToggleExpand -/

theorem entries_not_isEmpty (st : Hier) (hl : st.line_idx < st.entries.length) :
    ¬(st.entries.isEmpty = true) := by
  cases hE : st.entries with
  | nil => rw [hE] at hl; simp at hl
  | cons a l => simp [hE]

/-- The `"... more ..."` (pagination-resume) branch of `ToggleExpand`. -/
theorem toggleExpand_more_eq (d : Design) (k fuel : Nat) (st : Hier)
    (hl : st.line_idx < st.entries.length) (nd : Nat)
    (hget : st.entries.get ⟨st.line_idx, hl⟩ = nd)
    (i0 : NodeInfo) (hi0 : st.info nd = some i0) (hmore : i0.more_idx ≠ 0) :
    toggleExpand d k fuel st =
      { st with
        entries := spliceAfter st.entries st.line_idx
          (moreLoop d k i0.depth i0.parent i0.more_idx
            ((get_subs d i0.parent).drop (i0.more_idx + 1)) (i0.more_idx + 1)
            (setInfo st.info nd { i0 with more_idx := 0 })).1
        info := (moreLoop d k i0.depth i0.parent i0.more_idx
            ((get_subs d i0.parent).drop (i0.more_idx + 1)) (i0.more_idx + 1)
            (setInfo st.info nd { i0 with more_idx := 0 })).2 } := by
  unfold toggleExpand
  rw [if_neg (entries_not_isEmpty st hl), dif_pos hl]
  simp only [hget]
  rw [ensureInfo_of_isSome st.info nd (by rw [hi0]; rfl),
    infoD_of_some st.info nd i0 hi0, if_pos hmore]

/-- The non-expandable branch of `ToggleExpand` is a no-op. -/
theorem toggleExpand_noexp_eq (d : Design) (k fuel : Nat) (st : Hier)
    (hl : st.line_idx < st.entries.length) (nd : Nat)
    (hget : st.entries.get ⟨st.line_idx, hl⟩ = nd)
    (i0 : NodeInfo) (hi0 : st.info nd = some i0) (hmore : i0.more_idx = 0)
    (hexp : i0.expandable = false) :
    toggleExpand d k fuel st = st := by
  unfold toggleExpand
  rw [if_neg (entries_not_isEmpty st hl), dif_pos hl]
  simp only [hget]
  rw [ensureInfo_of_isSome st.info nd (by rw [hi0]; rfl),
    infoD_of_some st.info nd i0 hi0, if_neg (by simp [hmore]),
    if_pos (by simp [hexp])]

/-- The collapse branch of `ToggleExpand`. -/
theorem toggleExpand_collapse_eq (d : Design) (k fuel : Nat) (st : Hier)
    (hl : st.line_idx < st.entries.length) (nd : Nat)
    (hget : st.entries.get ⟨st.line_idx, hl⟩ = nd)
    (i0 : NodeInfo) (hi0 : st.info nd = some i0) (hmore : i0.more_idx = 0)
    (hexp : i0.expandable = true) (hexpd : i0.expanded = true) :
    toggleExpand d k fuel st =
      { st with
        entries := st.entries.take (st.line_idx + 1) ++
          st.entries.drop (st.line_idx + 1 +
            (collapseScan i0.depth (st.entries.drop (st.line_idx + 1)) st.info).1)
        info := setInfo (collapseScan i0.depth (st.entries.drop (st.line_idx + 1))
            st.info).2 nd
          { infoD (collapseScan i0.depth (st.entries.drop (st.line_idx + 1))
              st.info).2 nd with expanded := false } } := by
  unfold toggleExpand
  rw [if_neg (entries_not_isEmpty st hl), dif_pos hl]
  simp only [hget]
  rw [ensureInfo_of_isSome st.info nd (by rw [hi0]; rfl),
    infoD_of_some st.info nd i0 hi0, if_neg (by simp [hmore]),
    if_neg (by simp [hexp]), if_pos hexpd]

/-- The expand branch of `ToggleExpand`. -/
theorem toggleExpand_expand_eq (d : Design) (k fuel : Nat) (st : Hier)
    (hl : st.line_idx < st.entries.length) (nd : Nat)
    (hget : st.entries.get ⟨st.line_idx, hl⟩ = nd)
    (i0 : NodeInfo) (hi0 : st.info nd = some i0) (hmore : i0.more_idx = 0)
    (hexp : i0.expandable = true) (hexpd : i0.expanded = false) :
    toggleExpand d k fuel st =
      { st with
        entries := spliceAfter st.entries st.line_idx (recAddSubs d k fuel nd st.info).1
        info := setInfo (recAddSubs d k fuel nd st.info).2 nd
          { infoD (recAddSubs d k fuel nd st.info).2 nd with expanded := true }
        scroll_row :=
          if (st.line_idx : Int) - st.scroll_row = (st.win_h : Int) - 1 then
            st.scroll_row +
              min (((spliceAfter st.entries st.line_idx
                    (recAddSubs d k fuel nd st.info).1).length : Int) -
                  st.scroll_row - (st.win_h : Int))
                ((st.win_h : Int) / 3)
          else st.scroll_row } := by
  unfold toggleExpand
  rw [if_neg (entries_not_isEmpty st hl), dif_pos hl]
  simp only [hget]
  rw [ensureInfo_of_isSome st.info nd (by rw [hi0]; rfl),
    infoD_of_some st.info nd i0 hi0, if_neg (by simp [hmore]),
    if_neg (by simp [hexp]), if_neg (by simp [hexpd])]

/-! ## The fresh-expansion loop -/

/-- Expanding a node none of whose children is cached yet materializes
exactly the first `k + 1 - j` children of the remaining list (starting
from running counter `j`), the last becoming a placeholder when the running
counter reaches `k`; no other cache entry changes and the recursion callback is
never invoked. -/
theorem expLoop_fresh (d : Design) (k : Nat)
    (rec1 : Nat → InfoMap → List Nat × InfoMap) (item : Nat) :
    ∀ (l : List Nat) (j : Nat) (m : InfoMap),
      1 ≤ k → j ≤ k → (∀ c ∈ l, m c = none) → l.Nodup → (m item).isSome →
      (expLoop d k rec1 item l j m).1 = l.take (k + 1 - j) ∧
      (∀ c, c ∉ l.take (k + 1 - j) → (expLoop d k rec1 item l j m).2 c = m c) ∧
      (∀ i (hi : i < l.length), i < k + 1 - j →
        (expLoop d k rec1 item l j m).2 (l.get ⟨i, hi⟩) =
          some { depth := (infoD m item).depth + 1,
                 expandable := is_expandable d (l.get ⟨i, hi⟩),
                 expanded := false,
                 more_idx := if j + i = k then k else 0,
                 parent := item }) := by
  intro l
  induction l with
  | nil =>
    intro j m hk hj hfresh hnd hitem
    refine ⟨?_, fun c _ => rfl, fun i hi _ => absurd hi (Nat.not_lt_zero i)⟩
    rw [List.take_nil]
    rfl
  | cons sub rest ih =>
    intro j m hk hj hfresh hnd hitem
    have hsub : m sub = none := hfresh sub (List.mem_cons_self _ _)
    have hsubitem : sub ≠ item := by
      intro h
      rw [← h, hsub] at hitem
      cases hitem
    have hrestfresh : ∀ w : NodeInfo, ∀ c ∈ rest, setInfo m sub w c = none := by
      intro w c hc
      have : c ≠ sub := fun h => (List.nodup_cons.mp hnd).1 (h ▸ hc)
      rw [setInfo_ne _ _ _ _ this]
      exact hfresh c (List.mem_cons_of_mem _ hc)
    by_cases hjk : j = k
    · subst hjk
      have hj0 : j ≠ 0 := by omega
      simp only [expLoop, hsub]
      rw [if_pos (le_refl j), if_pos hj0]
      have htake : (sub :: rest).take (j + 1 - j) = [sub] := by
        have : j + 1 - j = 1 := by omega
        rw [this]
        rfl
      refine ⟨htake.symm, ?_, ?_⟩
      · intro c hc
        rw [htake] at hc
        have : c ≠ sub := by simp at hc; exact hc
        exact setInfo_ne _ _ _ _ this
      · intro i hi hik
        have : i = 0 := by omega
        subst this
        simp only [List.get]
        rw [setInfo_self]
        simp
    · have hjlt : j < k := lt_of_le_of_ne hj hjk
      have hflag : ¬ j ≥ k := by omega
      simp only [expLoop, hsub, if_neg hflag]
      rw [if_neg (by simp)]
      obtain ⟨ho, hu, hv⟩ := ih (j + 1)
        (setInfo m sub
          { depth := (infoD m item).depth + 1, expandable := is_expandable d sub,
            expanded := false, more_idx := 0, parent := item })
        hk (by omega) (hrestfresh _) (List.nodup_cons.mp hnd).2
        (by rw [setInfo_ne _ _ _ _ (Ne.symm hsubitem)]; exact hitem)
      have hsucc : k + 1 - j = (k + 1 - (j + 1)) + 1 := by omega
      refine ⟨?_, ?_, ?_⟩
      · rw [hsucc, List.take_succ_cons, ho]
      · intro c hc
        rw [hsucc, List.take_succ_cons] at hc
        have hc1 : c ≠ sub := fun h => hc (h ▸ List.mem_cons_self _ _)
        have hc2 : c ∉ rest.take (k + 1 - (j + 1)) := fun h =>
          hc (List.mem_cons_of_mem _ h)
        rw [hu c hc2, setInfo_ne _ _ _ _ hc1]
      · intro i hi hik
        cases i with
        | zero =>
          simp only [List.get]
          have : sub ∉ rest.take (k + 1 - (j + 1)) := fun h =>
            (List.nodup_cons.mp hnd).1 (List.mem_of_mem_take h)
          rw [hu sub this, setInfo_self]
          have : ¬ j + 0 = k := by omega
          rw [if_neg this]
        | succ i =>
          have hi' : i < rest.length := by simpa using hi
          have hik' : i < k + 1 - (j + 1) := by omega
          have hgc : (sub :: rest).get ⟨i + 1, hi⟩ = rest.get ⟨i, hi'⟩ := rfl
          rw [hgc, hv i hi' hik']
          have hdep : infoD (setInfo m sub
              { depth := (infoD m item).depth + 1,
                expandable := is_expandable d sub, expanded := false,
                more_idx := 0, parent := item }) item = infoD m item := by
            unfold infoD
            rw [setInfo_ne _ _ _ _ (Ne.symm hsubitem)]
          rw [hdep]
          have harith : j + 1 + i = j + (i + 1) := by omega
          rw [harith]

/-! ## C9: single-root pre-expansion -/

theorem ensureInfo_ne (m : InfoMap) (t n : Nat) (h : n ≠ t) :
    ensureInfo m t n = m n := by
  unfold ensureInfo
  split
  · rfl
  · exact setInfo_ne _ _ _ _ h

theorem initTops_not_mem (d : Design) :
    ∀ (l : List Nat) (m : InfoMap) (c : Nat), c ∉ l → initTops d l m c = m c := by
  intro l
  induction l with
  | nil => intro m c _; rfl
  | cons t ts ih =>
    intro m c hc
    have hct : c ≠ t := fun h => hc (h ▸ List.mem_cons_self _ _)
    have hcts : c ∉ ts := fun h => hc (List.mem_cons_of_mem _ h)
    simp only [initTops]
    rw [ih _ c hcts, setInfo_ne _ _ _ _ hct, ensureInfo_ne _ _ _ hct]

theorem initTops_expanded_false (d : Design) :
    ∀ (l : List Nat) (m : InfoMap),
      (∀ n i, m n = some i → i.expanded = false) →
      ∀ n i, initTops d l m n = some i → i.expanded = false := by
  intro l
  induction l with
  | nil => intro m hm; exact hm
  | cons t ts ih =>
    intro m hm
    apply ih
    intro n i hn
    by_cases hnt : n = t
    · subst hnt
      rw [setInfo_self] at hn
      cases hn
      show (infoD (ensureInfo m n) n).expanded = false
      unfold ensureInfo
      split
      · rename_i hs
        obtain ⟨v, hv⟩ := Option.isSome_iff_exists.mp hs
        rw [infoD_of_some _ _ _ hv]
        exact hm n v hv
      · rw [infoD_of_some _ _ _ (setInfo_self _ _ _)]
        rfl
    · rw [setInfo_ne _ _ _ _ hnt, ensureInfo_ne _ _ _ hnt] at hn
      exact hm n i hn

theorem stableSortBy_singleton (lt : α → α → Bool) (x : α) :
    stableSortBy lt [x] = [x] := rfl

/-- C9 (amended): a design with exactly one top module *that has at least
one child* starts with that root expanded, the root's first batch of
children (the first `k + 1` entries of its child list, the last of which
is the placeholder when the list is longer) already spliced into the
Visible List; a design with two or more tops starts with every cached node
unexpanded.  (A childless single top also stays unexpanded, per the
counterexample.) -/
theorem single_root_preexpanded (d : Design) (k fuel winH winW t : Nat)
    (hk : 1 ≤ k) (hfuel : 1 ≤ fuel) :
    (d.tops = [t] → t ∉ get_subs d t → (get_subs d t).Nodup →
      is_expandable d t = true →
      (∃ i, (mkHierarchy d k fuel winH winW).info t = some i ∧ i.expanded = true) ∧
      (mkHierarchy d k fuel winH winW).entries = t :: (get_subs d t).take (k + 1)) ∧
    (2 ≤ d.tops.length →
      ∀ n i, (mkHierarchy d k fuel winH winW).info n = some i →
        i.expanded = false) := by
  constructor
  · intro htop hnself hnd hexp
    obtain ⟨f, rfl⟩ : ∃ f, fuel = f + 1 := ⟨fuel - 1, by omega⟩
    unfold mkHierarchy
    rw [htop, stableSortBy_singleton]
    simp only []
    rw [if_pos (show ([t] : List Nat).length = 1 from rfl)]
    set st0 : Hier :=
      { entries := [t], info := initTops d [t] fun _ => none, line_idx := 0,
        scroll_row := 0, ui_col_scroll := 0, ui_max_col_scroll := 0,
        search_text := "", search_preview := false, search_start_col := -1,
        win_h := winH, win_w := winW, load_instance := false,
        load_definition := false } with hst0
    have hens : ensureInfo (fun _ => none : InfoMap) t =
        setInfo (fun _ => none) t default := by
      unfold ensureInfo
      split
      · rename_i hs
        exact absurd hs (by simp)
      · rfl
    have hmTt : st0.info t =
        some { depth := 0, expandable := is_expandable d t, expanded := false,
               more_idx := 0, parent := 0 } := by
      show initTops d [t] (fun _ => none) t = _
      simp only [initTops]
      rw [hens, setInfo_self, infoD_of_some _ _ _ (setInfo_self _ _ _)]
      rfl
    have hmTc : ∀ c, c ≠ t → st0.info c = none := by
      intro c hc
      show initTops d [t] (fun _ => none) c = none
      rw [initTops_not_mem d [t] _ c (by simp [hc])]
    have hl : st0.line_idx < st0.entries.length := by
      show 0 < 1
      omega
    rw [toggleExpand_expand_eq d k (f + 1) st0 hl t rfl _ hmTt rfl
      (by rw [hexp]) rfl]
    have hrec : recAddSubs d k (f + 1) t st0.info =
        expLoop d k (recAddSubs d k f) t (get_subs d t) 0 st0.info := rfl
    obtain ⟨ho, hu, hv⟩ := expLoop_fresh d k (recAddSubs d k f) t (get_subs d t)
      0 st0.info hk (by omega)
      (fun c hc => hmTc c fun h => hnself (h ▸ hc)) hnd
      (by rw [hmTt]; rfl)
    constructor
    · exact ⟨{ infoD (recAddSubs d k (f + 1) t st0.info).2 t with expanded := true },
        setInfo_self _ _ _, rfl⟩
    · show spliceAfter [t] 0 (recAddSubs d k (f + 1) t st0.info).1 = _
      rw [hrec, ho]
      simp [spliceAfter]
  · intro h2 n i hi
    have hlen : (stableSortBy (top_sorter d) d.tops).length ≠ 1 := by
      rw [stableSortBy_length]
      omega
    unfold mkHierarchy at hi
    rw [if_neg hlen] at hi
    exact initTops_expanded_false d d.tops _ (fun n i h => by cases h) n i hi

/-- Witness for `single_root_preexpanded`: the fan design with three
children, with the source's pagination limit. -/
theorem single_root_preexpanded_witness :
    (1 ≤ kMaxExpandInstances) ∧
    (mkHierarchy (dFan 3) kMaxExpandInstances 1 20 80).entries =
      0 :: (get_subs (dFan 3) 0).take (kMaxExpandInstances + 1) :=
  ⟨by decide,
    ((single_root_preexpanded (dFan 3) kMaxExpandInstances 1 20 80 0 (by decide)
      (by decide)).1 (by decide) (by decide) (by decide) (by decide)).2⟩

/-! ## C8: horizontal scrolling and the redraw recomputation -/

theorem infoD_ensure (m : InfoMap) (n x : Nat) :
    infoD (ensureInfo m n) x = infoD m x := by
  unfold ensureInfo
  split
  · rfl
  · rename_i hs
    by_cases hx : x = n
    · subst hx
      have hnone : m x = none := by
        cases h : m x with
        | none => rfl
        | some v => rw [h] at hs; exact absurd rfl hs
      unfold infoD
      rw [setInfo_self, hnone]
      rfl
    · unfold infoD
      rw [setInfo_ne _ _ _ _ hx]

theorem rowStringLen_congr (d : Design) (m m2 : InfoMap) (e : Nat)
    (h : infoD m e = infoD m2 e) : rowStringLen d m e = rowStringLen d m2 e := by
  unfold rowStringLen
  rw [h]

/-- The row loop of `Draw` computes the running maximum of rendered line
lengths over one viewport's worth of rows from the scroll position,
skipping placeholder rows; the `operator[]` reads it performs never change
any depth, so the lengths may be read off the original cache. -/
theorem drawAux_spec (d : Design) (entries : List Nat) (scroll : Int)
    (m0 : InfoMap) (h0 : 0 ≤ scroll) :
    ∀ (r y acc : Nat) (m : InfoMap), (∀ x, infoD m x = infoD m0 x) →
      (drawAux d entries scroll r y acc m).1 =
        ((entries.drop (scroll.toNat + y)).take r).foldl
          (fun a e => if (infoD m0 e).more_idx ≠ 0 then a
            else max a (rowStringLen d m0 e)) acc := by
  intro r
  induction r with
  | zero =>
    intro y acc m hm
    simp [drawAux]
  | succ r ih =>
    intro y acc m hm
    simp only [drawAux]
    by_cases hbr : ((y : Int) + scroll < 0 ∨ (entries.length : Int) ≤ (y : Int) + scroll)
    · rw [if_pos hbr]
      have hlen : entries.length ≤ scroll.toNat + y := by omega
      rw [List.drop_eq_nil_of_le hlen]
      simp
    · rw [if_neg hbr]
      push_neg at hbr
      have hlt : scroll.toNat + y < entries.length := by omega
      have hei : ((y : Int) + scroll).toNat = scroll.toNat + y := by omega
      have hgd : entries.getD ((y : Int) + scroll).toNat 0 =
          entries.get ⟨scroll.toNat + y, hlt⟩ := by
        rw [hei, List.getD_eq_get?, List.get?_eq_get hlt]
        rfl
      rw [hgd]
      have hdrop : entries.drop (scroll.toNat + y) =
          entries.get ⟨scroll.toNat + y, hlt⟩ :: entries.drop (scroll.toNat + y + 1) :=
        (List.get_cons_drop entries ⟨scroll.toNat + y, hlt⟩).symm
      rw [hdrop, List.take_succ_cons, List.foldl_cons]
      set e := entries.get ⟨scroll.toNat + y, hlt⟩ with he
      have hinfo : infoD (ensureInfo m e) e = infoD m0 e :=
        (infoD_ensure m e e).trans (hm e)
      have hrow : rowStringLen d (ensureInfo m e) e = rowStringLen d m0 e :=
        rowStringLen_congr d _ _ e hinfo
      rw [hinfo, hrow]
      rw [ih (y + 1) _ _ fun x => (infoD_ensure m e x).trans (hm x)]
      rw [← Nat.add_assoc]

/-- C8 (amended): a redraw recomputes `ui_max_col_scroll_` as the longest
rendered visible line length minus the window width, stored *without*
clamping (so it is negative whenever every line fits); a horizontal-scroll
input then moves `ui_col_scroll_` by exactly one when strictly inside the
respective bound (left when the column is positive, right when it is below
`ui_max_col_scroll_`) and otherwise leaves it unchanged, so starting from
the reachable band `[0, max 0 ui_max_col_scroll_]` the column never leaves
that band. -/
theorem horizontal_scroll_behaviour (d : Design) (k fuel : Nat) (st : Hier)
    (h0 : 0 ≤ st.scroll_row) :
    ((Draw d st).ui_max_col_scroll =
      (visibleMaxLen d st : Int) - (st.win_w : Int)) ∧
    (∀ ch, ch = 'h'.toNat ∨ ch = 0x104 →
      (UIChar d k fuel st ch).ui_col_scroll =
        (if 0 < st.ui_col_scroll then st.ui_col_scroll - 1 else st.ui_col_scroll) ∧
      (UIChar d k fuel st ch).ui_max_col_scroll = st.ui_max_col_scroll) ∧
    (∀ ch, ch = 'l'.toNat ∨ ch = 0x105 →
      (UIChar d k fuel st ch).ui_col_scroll =
        (if st.ui_col_scroll < st.ui_max_col_scroll then st.ui_col_scroll + 1
          else st.ui_col_scroll) ∧
      (UIChar d k fuel st ch).ui_max_col_scroll = st.ui_max_col_scroll) ∧
    (0 ≤ st.ui_col_scroll →
      st.ui_col_scroll ≤ max 0 st.ui_max_col_scroll →
      ∀ ch, ch = 'h'.toNat ∨ ch = 0x104 ∨ ch = 'l'.toNat ∨ ch = 0x105 →
        0 ≤ (UIChar d k fuel st ch).ui_col_scroll ∧
        (UIChar d k fuel st ch).ui_col_scroll ≤ max 0 st.ui_max_col_scroll) := by
  have hdraw : (Draw d st).ui_max_col_scroll =
      (visibleMaxLen d st : Int) - (st.win_w : Int) := by
    unfold Draw
    simp only []
    rw [drawAux_spec d st.entries st.scroll_row st.info h0 st.win_h 0 0 st.info
      fun x => rfl]
    rw [Nat.add_zero]
    rfl
  have hh : ∀ ch, ch = 'h'.toNat ∨ ch = 0x104 →
      UIChar d k fuel st ch =
        (if 0 < st.ui_col_scroll then
          { st with ui_col_scroll := st.ui_col_scroll - 1 } else st) := by
    intro ch hch
    rcases hch with rfl | rfl <;>
      · unfold UIChar
        rw [if_neg (by decide), if_neg (by decide), if_neg (by decide),
          if_neg (by decide), if_pos (by decide)]
  have hl : ∀ ch, ch = 'l'.toNat ∨ ch = 0x105 →
      UIChar d k fuel st ch =
        (if st.ui_col_scroll < st.ui_max_col_scroll then
          { st with ui_col_scroll := st.ui_col_scroll + 1 } else st) := by
    intro ch hch
    rcases hch with rfl | rfl <;>
      · unfold UIChar
        rw [if_neg (by decide), if_neg (by decide), if_neg (by decide),
          if_neg (by decide), if_neg (by decide), if_pos (by decide)]
  refine ⟨hdraw, ?_, ?_, ?_⟩
  · intro ch hch
    rw [hh ch hch]
    constructor
    · by_cases h : 0 < st.ui_col_scroll
      · rw [if_pos h, if_pos h]
      · rw [if_neg h, if_neg h]
    · by_cases h : 0 < st.ui_col_scroll
      · rw [if_pos h]
      · rw [if_neg h]
  · intro ch hch
    rw [hl ch hch]
    constructor
    · by_cases h : st.ui_col_scroll < st.ui_max_col_scroll
      · rw [if_pos h, if_pos h]
      · rw [if_neg h, if_neg h]
    · by_cases h : st.ui_col_scroll < st.ui_max_col_scroll
      · rw [if_pos h]
      · rw [if_neg h]
  · intro hc0 hcM ch hch
    set M := max 0 st.ui_max_col_scroll with hMdef
    have hM0 : (0 : Int) ≤ M := le_max_left _ _
    have hMm : st.ui_max_col_scroll ≤ M := le_max_right _ _
    have hstep1 : ∀ hch2 : ch = 'h'.toNat ∨ ch = 0x104,
        0 ≤ (UIChar d k fuel st ch).ui_col_scroll ∧
          (UIChar d k fuel st ch).ui_col_scroll ≤ M := by
      intro hch2
      rw [hh ch hch2]
      by_cases h : 0 < st.ui_col_scroll
      · rw [if_pos h]
        refine ⟨?_, ?_⟩
        · show (0 : Int) ≤ st.ui_col_scroll - 1
          omega
        · show st.ui_col_scroll - 1 ≤ M
          omega
      · rw [if_neg h]
        exact ⟨hc0, hcM⟩
    have hstep2 : ∀ hch2 : ch = 'l'.toNat ∨ ch = 0x105,
        0 ≤ (UIChar d k fuel st ch).ui_col_scroll ∧
          (UIChar d k fuel st ch).ui_col_scroll ≤ M := by
      intro hch2
      rw [hl ch hch2]
      by_cases h : st.ui_col_scroll < st.ui_max_col_scroll
      · rw [if_pos h]
        refine ⟨?_, ?_⟩
        · show (0 : Int) ≤ st.ui_col_scroll + 1
          omega
        · show st.ui_col_scroll + 1 ≤ M
          omega
      · rw [if_neg h]
        exact ⟨hc0, hcM⟩
    rcases hch with hch | hch | hch | hch
    · exact hstep1 (Or.inl hch)
    · exact hstep1 (Or.inr hch)
    · exact hstep2 (Or.inl hch)
    · exact hstep2 (Or.inr hch)

/-- Witness for `horizontal_scroll_behaviour`: the negative recomputed bound
on the concrete four-row state. -/
theorem horizontal_scroll_behaviour_witness :
    (0 ≤ stRows.scroll_row) ∧
    (Draw dRows stRows).ui_max_col_scroll =
      (visibleMaxLen dRows stRows : Int) - (stRows.win_w : Int) :=
  ⟨by decide, (horizontal_scroll_behaviour dRows 100 1 stRows (by decide)).1⟩

/-! ## Cache well-formedness: helper lemmas -/

theorem getLastQ_mem : ∀ (l : List α) (a : α), l.getLast? = some a → a ∈ l := by
  intro l
  induction l with
  | nil => intro a h; cases h
  | cons x xs ih =>
    intro a h
    cases hxs : xs with
    | nil =>
      rw [hxs] at h
      cases h
      exact List.mem_cons_self _ _
    | cons y ys =>
      rw [hxs] at h ih
      rw [List.getLast?_cons_cons] at h
      exact List.mem_cons_of_mem _ (ih a h)

theorem infoD_congr (m m2 : InfoMap) (n : Nat) (h : m n = m2 n) :
    infoD m n = infoD m2 n := by
  unfold infoD
  rw [h]

/-- A cached node is never its own child: its depth would have to exceed
itself. -/
theorem mapwf_not_self_sub (d : Design) (m : InfoMap) (hWF : MapWF d m)
    (p : Nat) (hp : (m p).isSome) : p ∉ get_subs d p := by
  intro hmem
  have := hWF.cacheDepth p p hp hp hmem
  omega

/-- The cached-prefix case of the expansion loop: walking the children of a
node whose materialized prefix is non-empty splices only cached rows,
never touches the cache, and produces a depth-chain one level below the
node. -/
theorem expLoop_cached (d : Design) (k : Nat) (hT : TreeLike d) (hk : 1 ≤ k)
    (fuel : Nat) (hrec : RecSpec d k fuel) (item : Nat) (m : InfoMap)
    (hWF : MapWF d m) (hitem : (m item).isSome) (mm : Nat)
    (hpre : ∀ j c, j < mm → (get_subs d item).get? j = some c → (m c).isSome)
    (hfresh : ∀ j c, mm ≤ j → (get_subs d item).get? j = some c → m c = none)
    (hflag : ∀ j c i, (get_subs d item).get? j = some c → m c = some i →
      i.more_idx ≠ 0 → j + 1 = mm ∧ i.more_idx = j ∧ 1 ≤ j)
    (hlast : mm = (get_subs d item).length ∨ mm = 0 ∨
      ∃ cp ip, (get_subs d item).get? (mm - 1) = some cp ∧ m cp = some ip ∧
        ip.more_idx = mm - 1 ∧ 1 ≤ mm - 1) :
    ∀ (l : List Nat) (j sIdx : Nat), (get_subs d item).drop j = l →
      (j < mm ∨ l = []) →
      (expLoop d k (recAddSubs d k fuel) item l sIdx m).2 = m ∧
      (∀ c ∈ (expLoop d k (recAddSubs d k fuel) item l sIdx m).1, (m c).isSome) ∧
      (∀ c ∈ (expLoop d k (recAddSubs d k fuel) item l sIdx m).1,
        (infoD m item).depth + 1 ≤ (infoD m c).depth) ∧
      (∀ c, (expLoop d k (recAddSubs d k fuel) item l sIdx m).1.head? = some c →
        (infoD m c).depth = (infoD m item).depth + 1) ∧
      List.Chain' (fun a b => (infoD m b).depth ≤ (infoD m a).depth + 1)
        (expLoop d k (recAddSubs d k fuel) item l sIdx m).1 := by
  intro l
  induction l with
  | nil =>
    intro j sIdx hdrop hj
    refine ⟨rfl, ?_, ?_, ?_, ?_⟩
    · intro c hc
      exact absurd hc (List.not_mem_nil c)
    · intro c hc
      exact absurd hc (List.not_mem_nil c)
    · intro c hc
      simp only [expLoop, List.head?_nil] at hc
      cases hc
    · exact List.chain'_nil
  | cons c rest ihl =>
    intro j sIdx hdrop hj
    have hjmm : j < mm := by
      rcases hj with h | h
      · exact h
      · cases h
    have hget : (get_subs d item).get? j = some c := by
      have h0 : ((get_subs d item).drop j).get? 0 = some c := by
        rw [hdrop]
        rfl
      rwa [List.get?_drop, Nat.add_zero] at h0
    have hcm : c ∈ get_subs d item := List.get?_mem hget
    obtain ⟨ic, hic⟩ := Option.isSome_iff_exists.mp (hpre j c hjmm hget)
    have hcI : (m c).isSome := by rw [hic]; rfl
    have hdepc : (infoD m c).depth = (infoD m item).depth + 1 :=
      hWF.cacheDepth item c hitem hcI hcm
    have hdrop1 : (get_subs d item).drop (j + 1) = rest := by
      have h1 : (get_subs d item).drop (j + 1) =
          ((get_subs d item).drop j).drop 1 := by
        rw [List.drop_drop, Nat.add_comm]
      rw [h1, hdrop]
      rfl
    have hnext : ic.more_idx = 0 → (j + 1 < mm ∨ rest = []) := by
      intro hmi0
      cases hrest : rest with
      | nil => exact Or.inr rfl
      | cons c2 r2 =>
        left
        by_contra hge
        push_neg at hge
        have hget2 : (get_subs d item).get? (j + 1) = some c2 := by
          have h0 : ((get_subs d item).drop (j + 1)).get? 0 = some c2 := by
            rw [hdrop1, hrest]
            rfl
          rwa [List.get?_drop, Nat.add_zero] at h0
        have hlt2 : j + 1 < (get_subs d item).length := by
          obtain ⟨h2, -⟩ := List.get?_eq_some.mp hget2
          exact h2
        have hmmlen : mm < (get_subs d item).length := by omega
        rcases hlast with h | h | ⟨cp, ip, hcp1, hcp2, hcp3, hcp4⟩
        · omega
        · omega
        · have hj' : mm - 1 = j := by omega
          rw [hj', hget] at hcp1
          have hcpc : c = cp := Option.some.inj hcp1
          subst hcpc
          rw [hic] at hcp2
          have hip : ic = ip := Option.some.inj hcp2
          subst hip
          omega
    simp only [expLoop, hic]
    by_cases hmi : ic.more_idx ≠ 0
    · rw [if_pos hmi]
      refine ⟨rfl, ?_, ?_, ?_, List.chain'_singleton c⟩
      · intro x hx
        rw [List.mem_singleton] at hx
        subst hx
        exact hcI
      · intro x hx
        rw [List.mem_singleton] at hx
        subst hx
        rw [hdepc]
      · intro x hx
        cases hx
        rw [hdepc]
    · have hmi0 : ic.more_idx = 0 := not_not.mp (by simpa using hmi)
      rw [if_neg hmi]
      obtain ⟨Q1, Q2, Q3, Q4, Q5⟩ := ihl (j + 1) sIdx hdrop1 (hnext hmi0)
      by_cases hexp : ic.expanded = true
      · rw [if_pos hexp]
        obtain ⟨P2, P7, P1, P3, P4, P6, P5, P8⟩ := hrec c m hWF hcI
        have hr12 : (recAddSubs d k fuel c m).2 = m :=
          P8 (hWF.expMat c ic hic hexp)
        rw [hr12] at P3 P4 P6 P5 ⊢
        refine ⟨Q1, ?_, ?_, ?_, ?_⟩
        · intro x hx
          rcases List.mem_cons.mp hx with rfl | hx2
          · exact hcI
          · rcases List.mem_append.mp hx2 with hx3 | hx3
            · exact P3 x hx3
            · exact Q2 x hx3
        · intro x hx
          rcases List.mem_cons.mp hx with rfl | hx2
          · rw [hdepc]
          · rcases List.mem_append.mp hx2 with hx3 | hx3
            · have := P4 x hx3
              omega
            · exact Q3 x hx3
        · intro x hx
          rw [List.head?_cons] at hx
          cases hx
          rw [hdepc]
        · rw [List.chain'_cons']
          constructor
          · intro y hy
            cases hR1 : (recAddSubs d k fuel c m).1 with
            | nil =>
              rw [hR1, List.nil_append] at hy
              have := Q4 y hy
              omega
            | cons x xs =>
              rw [hR1, List.cons_append, List.head?_cons] at hy
              cases hy
              have := P6 y (by rw [hR1]; rfl)
              rw [this, hdepc]
          · rw [List.chain'_append]
            refine ⟨P5, Q5, ?_⟩
            intro x hx y hy
            have hxm : x ∈ (recAddSubs d k fuel c m).1 := getLastQ_mem _ _ hx
            have hx4 := P4 x hxm
            have hy4 := Q4 y hy
            omega
      · rw [if_neg hexp]
        refine ⟨Q1, ?_, ?_, ?_, ?_⟩
        · intro x hx
          rcases List.mem_cons.mp hx with rfl | hx2
          · exact hcI
          · exact Q2 x hx2
        · intro x hx
          rcases List.mem_cons.mp hx with rfl | hx2
          · rw [hdepc]
          · exact Q3 x hx2
        · intro x hx
          rw [List.head?_cons] at hx
          cases hx
          rw [hdepc]
        · rw [List.chain'_cons']
          refine ⟨?_, Q5⟩
          intro y hy
          have := Q4 y hy
          omega

/-- `recurse_add_subs` satisfies its full behavioural specification on
well-formed caches over tree-like designs: see `RecSpec`. -/
theorem recAddSubs_spec (d : Design) (k : Nat) (hT : TreeLike d) (hk : 1 ≤ k) :
    ∀ fuel, RecSpec d k fuel := by
  intro fuel
  induction fuel with
  | zero =>
    intro item m hWF hitem
    refine ⟨fun n _ => rfl, fun n h => Or.inl h, hWF, ?_, ?_, ?_,
      List.chain'_nil, fun _ => rfl⟩
    · intro c hc
      exact absurd hc (List.not_mem_nil c)
    · intro c hc
      exact absurd hc (List.not_mem_nil c)
    · intro c hc
      simp only [recAddSubs, List.head?_nil] at hc
      cases hc
  | succ fuel ih =>
    intro item m hWF hitem
    obtain ⟨mm, hmm, hpre, hfreshp, hflagp, hlastp⟩ := hWF.pag item hitem
    have heq : recAddSubs d k (fuel + 1) item m =
        expLoop d k (recAddSubs d k fuel) item (get_subs d item) 0 m := rfl
    by_cases hmm0 : 1 ≤ mm
    · obtain ⟨Q1, Q2, Q3, Q4, Q5⟩ := expLoop_cached d k hT hk fuel ih item m hWF
        hitem mm hpre hfreshp hflagp hlastp (get_subs d item) 0 0
        (List.drop_zero _) (Or.inl hmm0)
      rw [heq]
      refine ⟨?_, ?_, ?_, ?_, ?_, ?_, ?_, ?_⟩
      · intro n _
        rw [Q1]
      · intro n hn
        rw [Q1] at hn
        exact Or.inl hn
      · rw [Q1]
        exact hWF
      · intro c hc
        rw [Q1]
        exact Q2 c hc
      · intro c hc
        rw [Q1]
        exact Q3 c hc
      · intro c hc
        rw [Q1]
        exact Q4 c hc
      · rw [Q1]
        exact Q5
      · intro _
        exact Q1
    · have hmmz : mm = 0 := by omega
      subst hmmz
      have hfreshAll : ∀ c ∈ get_subs d item, m c = none := by
        intro c hc
        obtain ⟨⟨i, hi⟩, hg⟩ := List.mem_iff_get.mp hc
        exact hfreshp i c (Nat.zero_le i) (by rw [List.get?_eq_get hi, hg])
      obtain ⟨ho, hu, hv⟩ := expLoop_fresh d k (recAddSubs d k fuel) item
        (get_subs d item) 0 m hk (Nat.zero_le k) hfreshAll
        (hT.subsNodup item) hitem
      simp only [Nat.sub_zero] at ho hu
      simp only [Nat.sub_zero, Nat.zero_add] at hv
      rw [heq]
      set S := get_subs d item with hS
      set m2 := (expLoop d k (recAddSubs d k fuel) item (get_subs d item) 0 m).2
        with hm2
      set out := (expLoop d k (recAddSubs d k fuel) item (get_subs d item) 0 m).1
        with hout
      -- the produced block and the touched part of the cache
      have houtS : out ⊆ S := by
        rw [ho]
        exact List.take_subset _ _
      have hmemout : ∀ c, c ∈ out → ∃ i, ∃ hi : i < S.length, i < k + 1 ∧
          S.get ⟨i, hi⟩ = c := by
        intro c hc
        rw [ho] at hc
        obtain ⟨⟨i, hi⟩, hg⟩ := List.mem_iff_get.mp hc
        have hi1 : i < k + 1 := by
          have h2 := hi
          rw [List.length_take] at h2
          omega
        have hi2 : i < S.length := by
          have h2 := hi
          rw [List.length_take] at h2
          omega
        refine ⟨i, hi2, hi1, ?_⟩
        rw [← hg, List.get_take']
      have hfout : ∀ c ∈ out, m c = none := fun c hc => hfreshAll c (houtS hc)
      have hitemout : item ∉ out := by
        intro hcon
        rw [hfout item hcon] at hitem
        cases hitem
      have hF1 : ∀ c, c ∉ out → m2 c = m c := by
        intro c hc
        rw [← ho] at hu
        exact hu c hc
      have hF1some : ∀ c, (m c).isSome → m2 c = m c := by
        intro c hc
        apply hF1
        intro hcon
        rw [hfout c hcon] at hc
        cases hc
      have hvalm : ∀ i (hi : i < S.length), i < k + 1 →
          m2 (S.get ⟨i, hi⟩) =
            some { depth := (infoD m item).depth + 1,
                   expandable := is_expandable d (S.get ⟨i, hi⟩),
                   expanded := false,
                   more_idx := if i = k then k else 0,
                   parent := item } := by
        intro i hi hik
        exact hv i hi hik
      have hvalc : ∀ c ∈ out, ∃ i, ∃ hi : i < S.length, i < k + 1 ∧
          S.get ⟨i, hi⟩ = c ∧
          m2 c = some { depth := (infoD m item).depth + 1,
                        expandable := is_expandable d c,
                        expanded := false,
                        more_idx := if i = k then k else 0,
                        parent := item } := by
        intro c hc
        obtain ⟨i, hi, hik, hg⟩ := hmemout c hc
        refine ⟨i, hi, hik, hg, ?_⟩
        rw [← hg]
        exact hvalm i hi hik
      have hdep_out : ∀ c ∈ out, (infoD m2 c).depth = (infoD m item).depth + 1 := by
        intro c hc
        obtain ⟨i, hi, hik, hg, hval⟩ := hvalc c hc
        rw [infoD_of_some _ _ _ hval]
      have hsome_out : ∀ c ∈ out, (m2 c).isSome := by
        intro c hc
        obtain ⟨i, hi, hik, hg, hval⟩ := hvalc c hc
        rw [hval]
        rfl
      have hF6 : ∀ n, (m2 n).isSome → (m n).isSome ∨ n ∈ out := by
        intro n hn
        by_cases hno : n ∈ out
        · exact Or.inr hno
        · rw [hF1 n hno] at hn
          exact Or.inl hn
      have hsubdisj : ∀ p, (m p).isSome → p ≠ item → ∀ x ∈ get_subs d p, x ∉ out := by
        intro p hp hpi x hx hcon
        exact hpi (hT.uniqueParent p item x hx (houtS hcon))
      -- new nodes have no cached children at all
      have hnosub : ∀ p, p ∈ out → ∀ x ∈ get_subs d p, m2 x = none := by
        intro p hp x hx
        have hxout : x ∉ out := by
          intro hcon
          have : p = item := hT.uniqueParent p item x hx (houtS hcon)
          exact hitemout (this ▸ hp)
        rw [hF1 x hxout]
        cases hxm : m x with
        | none => rfl
        | some v =>
          exfalso
          have hxI : (m x).isSome := by rw [hxm]; rfl
          rcases hWF.parentUp x hxI with htop | ⟨q, hqI, hxq⟩
          · exact hT.topsNotSub x p htop hx
          · have : q = p := hT.uniqueParent q p x hxq hx
            subst this
            rw [hfout q hp] at hqI
            cases hqI
      constructor
      · exact fun n hn => hF1some n hn
      constructor
      · intro n hn
        rcases hF6 n hn with h | h
        · exact Or.inl h
        · exact Or.inr (houtS h)
      constructor
      · -- MapWF m2
        refine ⟨?_, ?_, ?_, ?_, ?_, ?_⟩
        · -- cacheDepth
          intro p c hp hc hcsub
          rcases hF6 p hp with hpo | hpo
          · rcases hF6 c hc with hco | hco
            · rw [infoD_congr m2 m p (hF1some p hpo),
                infoD_congr m2 m c (hF1some c hco)]
              exact hWF.cacheDepth p c hpo hco hcsub
            · have hpitem : p = item :=
                hT.uniqueParent p item c hcsub (houtS hco)
              subst hpitem
              rw [hdep_out c hco, infoD_congr m2 m p (hF1some p hpo)]
          · exfalso
            rw [hnosub p hpo c hcsub] at hc
            cases hc
        · -- parentUp
          intro c hc
          rcases hF6 c hc with hco | hco
          · rcases hWF.parentUp c hco with htop | ⟨q, hqI, hcq⟩
            · exact Or.inl htop
            · refine Or.inr ⟨q, ?_, hcq⟩
              rw [hF1some q hqI]
              exact hqI
          · refine Or.inr ⟨item, ?_, houtS hco⟩
            rw [hF1some item hitem]
            exact hitem
        · -- morePar
          intro c i2 hc2 hmi2
          by_cases hco : c ∈ out
          · obtain ⟨i, hi, hik, hg, hval⟩ := hvalc c hco
            rw [hval] at hc2
            have hival : i2 = { depth := (infoD m item).depth + 1,
                                expandable := is_expandable d c,
                                expanded := false,
                                more_idx := if i = k then k else 0,
                                parent := item } :=
              (Option.some.inj hc2).symm
            have hik2 : i = k := by
              by_contra hik3
              rw [hival] at hmi2
              simp only [if_neg hik3] at hmi2
              exact hmi2 rfl
            constructor
            · rw [hival]
              show (m2 item).isSome
              rw [hF1some item hitem]
              exact hitem
            · rw [hival]
              show S.get? (if i = k then k else 0) = some c
              rw [if_pos hik2, ← hik2, List.get?_eq_get hi, hg]
          · rw [hF1 c hco] at hc2
            have hcI : (m c).isSome := by rw [hc2]; rfl
            obtain ⟨hpar, hgp⟩ := hWF.morePar c i2 hc2 hmi2
            constructor
            · rw [hF1some _ hpar]
              exact hpar
            · exact hgp
        · -- pag
          intro p hp
          rcases hF6 p hp with hpo | hpo
          · by_cases hpitem : p = item
            · subst hpitem
              refine ⟨min (k + 1) S.length, Nat.min_le_right _ _, ?_, ?_, ?_, ?_⟩
              · intro j c hj hjg
                have hjl : j < S.length := (List.get?_eq_some.mp hjg).1
                have hjk : j < k + 1 := by omega
                have hcg : S.get ⟨j, hjl⟩ = c := by
                  rw [List.get?_eq_get hjl] at hjg
                  exact Option.some.inj hjg
                rw [← hcg]
                rw [hvalm j hjl hjk]
                rfl
              · intro j c hj hjg
                have hjl : j < S.length := (List.get?_eq_some.mp hjg).1
                have hjk : k + 1 ≤ j := by omega
                have hcg : S.get ⟨j, hjl⟩ = c := by
                  rw [List.get?_eq_get hjl] at hjg
                  exact Option.some.inj hjg
                have hcout : c ∉ out := by
                  intro hcon
                  obtain ⟨i, hi, hik, hg⟩ := hmemout c hcon
                  have hij : (⟨i, hi⟩ : Fin S.length) = ⟨j, hjl⟩ :=
                    (hT.subsNodup p).get_inj_iff.mp (hg.trans hcg.symm)
                  have : i = j := congrArg Fin.val hij
                  omega
                rw [hF1 c hcout]
                exact hfreshAll c (List.get?_mem hjg)
              · intro j c i2 hjg hc2 hmi2
                have hjl : j < S.length := (List.get?_eq_some.mp hjg).1
                have hcg : S.get ⟨j, hjl⟩ = c := by
                  rw [List.get?_eq_get hjl] at hjg
                  exact Option.some.inj hjg
                by_cases hjk : j < k + 1
                · rw [← hcg, hvalm j hjl hjk] at hc2
                  have hival := (Option.some.inj hc2).symm
                  have hik2 : j = k := by
                    by_contra hik3
                    rw [hival] at hmi2
                    simp only [if_neg hik3] at hmi2
                    exact hmi2 rfl
                  refine ⟨by omega, ?_, by omega⟩
                  rw [hival]
                  show (if j = k then k else 0) = j
                  rw [if_pos hik2]
                  exact hik2.symm
                · exfalso
                  have hcout : c ∉ out := by
                    intro hcon
                    obtain ⟨i, hi, hik, hg⟩ := hmemout c hcon
                    have : (⟨i, hi⟩ : Fin S.length) = ⟨j, hjl⟩ :=
                      (hT.subsNodup p).get_inj_iff.mp (hg.trans hcg.symm)
                    have : i = j := congrArg Fin.val this
                    omega
                  rw [hF1 c hcout, hfreshAll c (List.get?_mem hjg)] at hc2
                  cases hc2
              · by_cases hlen : S.length ≤ k + 1
                · left
                  have hSeq : (get_subs d p).length = S.length := rfl
                  omega
                · right
                  right
                  have hkl : k < S.length := by omega
                  have hmin : min (k + 1) S.length = k + 1 := by omega
                  refine ⟨S.get ⟨k, hkl⟩, _, ?_, hvalm k hkl (by omega), ?_, ?_⟩
                  · rw [hmin]
                    simp only [Nat.add_sub_cancel]
                    exact List.get?_eq_get hkl
                  · rw [hmin]
                    simp
                  · omega
            · obtain ⟨mp, hmp1, hmp2, hmp3, hmp4, hmp5⟩ := hWF.pag p hpo
              have hsame : ∀ x ∈ get_subs d p, m2 x = m x := fun x hx =>
                hF1 x (hsubdisj p hpo hpitem x hx)
              refine ⟨mp, hmp1, ?_, ?_, ?_, ?_⟩
              · intro j c hj hjg
                rw [hsame c (List.get?_mem hjg)]
                exact hmp2 j c hj hjg
              · intro j c hj hjg
                rw [hsame c (List.get?_mem hjg)]
                exact hmp3 j c hj hjg
              · intro j c i2 hjg hc2 hmi2
                rw [hsame c (List.get?_mem hjg)] at hc2
                exact hmp4 j c i2 hjg hc2 hmi2
              · rcases hmp5 with h | h | ⟨cp, ip, h1, h2, h3, h4⟩
                · exact Or.inl h
                · exact Or.inr (Or.inl h)
                · refine Or.inr (Or.inr ⟨cp, ip, h1, ?_, h3, h4⟩)
                  rw [hsame cp (List.get?_mem h1)]
                  exact h2
          · refine ⟨0, Nat.zero_le _, ?_, ?_, ?_, Or.inr (Or.inl rfl)⟩
            · intro j c hj _
              omega
            · intro j c _ hjg
              exact hnosub p hpo c (List.get?_mem hjg)
            · intro j c i2 hjg hc2 _
              rw [hnosub p hpo c (List.get?_mem hjg)] at hc2
              cases hc2
        · -- expMat
          intro p i2 hp2 hexp2
          by_cases hpo : p ∈ out
          · obtain ⟨i, hi, hik, hg, hval⟩ := hvalc p hpo
            rw [hval] at hp2
            have := (Option.some.inj hp2).symm
            rw [this] at hexp2
            cases hexp2
          · rw [hF1 p hpo] at hp2
            obtain ⟨c0, hc01, hc02⟩ := hWF.expMat p i2 hp2 hexp2
            refine ⟨c0, hc01, ?_⟩
            rw [hF1some c0 hc02]
            exact hc02
        · -- expOK
          intro n i2 hn2
          by_cases hno : n ∈ out
          · obtain ⟨i, hi, hik, hg, hval⟩ := hvalc n hno
            rw [hval] at hn2
            rw [(Option.some.inj hn2).symm]
          · rw [hF1 n hno] at hn2
            exact hWF.expOK n i2 hn2
      constructor
      · exact hsome_out
      constructor
      · intro c hc
        rw [hdep_out c hc]
      constructor
      · intro c hc
        apply hdep_out
        rw [ho] at hc ⊢
        have h0 : (S.take (k + 1)).get? 0 = some c := by
          rw [List.get?_zero]
          exact hc
        have h0' : S.get? 0 = some c := by
          rwa [List.get?_take (by omega)] at h0
        exact List.get?_mem h0
      constructor
      · rw [List.chain'_iff_get]
        intro i hchain
        have hm1 : out.get ⟨i, by omega⟩ ∈ out := List.get_mem _ _ _
        have hm2b : out.get ⟨i + 1, by omega⟩ ∈ out := List.get_mem _ _ _
        rw [hdep_out _ hm1, hdep_out _ hm2b]
        omega
      · intro ⟨c0, hc01, hc02⟩
        exfalso
        rw [hfreshAll c0 (List.get?_mem hc01)] at hc02
        cases hc02

/-! ## C4: the search cursor walk -/

theorem searchStep_down_mod (n idx : Nat) (hidx : idx < n) :
    searchStep n true idx = (idx + 1) % n := by
  unfold searchStep
  rw [if_pos rfl]
  split
  · rename_i h
    have he : idx + 1 = n := by omega
    rw [he, Nat.mod_self]
  · rename_i h
    rw [Nat.mod_eq_of_lt (by omega)]

theorem iter_down_formula (n : Nat) (hn : 1 ≤ n) :
    ∀ (t idx : Nat), idx < n → (searchStep n true)^[t] idx = (idx + t) % n := by
  intro t
  induction t with
  | zero =>
    intro idx hidx
    simp [Nat.mod_eq_of_lt hidx]
  | succ t ih =>
    intro idx hidx
    rw [Function.iterate_succ_apply, searchStep_down_mod n idx hidx,
      ih _ (Nat.mod_lt _ (by omega)), Nat.mod_add_mod]
    congr 1
    omega

theorem iter_step_lt (n : Nat) (hn : 1 ≤ n) (down : Bool) :
    ∀ (t idx : Nat), idx < n → (searchStep n down)^[t] idx < n := by
  intro t
  induction t with
  | zero => intro idx h; simpa using h
  | succ t ih =>
    intro idx h
    rw [Function.iterate_succ_apply]
    exact ih _ (searchStep_lt n down idx hn h)

theorem searchStep_down_up (n : Nat) (hn : 1 ≤ n) (idx : Nat) (hidx : idx < n) :
    searchStep n true (searchStep n false idx) = idx := by
  unfold searchStep
  simp only [eq_self_iff_true, if_true, Bool.false_eq_true, if_false]
  by_cases h0 : idx = 0
  · rw [if_pos h0, if_pos (by omega), h0]
  · rw [if_neg h0, if_neg (by omega)]
    omega

theorem iter_down_up (n : Nat) (hn : 1 ≤ n) :
    ∀ (t idx : Nat), idx < n →
      (searchStep n true)^[t] ((searchStep n false)^[t] idx) = idx := by
  intro t
  induction t with
  | zero => intro idx _; rfl
  | succ t ih =>
    intro idx hidx
    rw [Function.iterate_succ_apply (searchStep n false),
      Function.iterate_succ_apply' (searchStep n true)]
    rw [ih _ (searchStep_lt n false idx hn hidx)]
    exact searchStep_down_up n hn idx hidx

theorem iter_down_cycle (n : Nat) (hn : 1 ≤ n) (start : Nat) (hs : start < n) :
    (searchStep n true)^[n] start = start := by
  rw [iter_down_formula n hn n start hs, Nat.add_mod_right, Nat.mod_eq_of_lt hs]

theorem iter_down_ne (n : Nat) (hn : 1 ≤ n) (start : Nat) (hs : start < n)
    (t : Nat) (h1 : 1 ≤ t) (h2 : t < n) :
    (searchStep n true)^[t] start ≠ start := by
  rw [iter_down_formula n hn t start hs]
  by_cases h : start + t < n
  · rw [Nat.mod_eq_of_lt h]
    omega
  · have he : (start + t) % n = start + t - n := by
      rw [Nat.mod_eq_sub_mod (by omega), Nat.mod_eq_of_lt (by omega)]
    rw [he]
    omega

theorem iter_up_cycle (n : Nat) (hn : 1 ≤ n) (start : Nat) (hs : start < n) :
    (searchStep n false)^[n] start = start := by
  have hy : (searchStep n false)^[n] start < n := iter_step_lt n hn false n start hs
  have h1 := iter_down_up n hn n start hs
  rw [iter_down_formula n hn n _ hy, Nat.add_mod_right, Nat.mod_eq_of_lt hy] at h1
  exact h1

theorem iter_up_ne (n : Nat) (hn : 1 ≤ n) (start : Nat) (hs : start < n)
    (t : Nat) (h1 : 1 ≤ t) (h2 : t < n) :
    (searchStep n false)^[t] start ≠ start := by
  intro heq
  have h := iter_down_up n hn t start hs
  rw [heq] at h
  exact iter_down_ne n hn start hs t h1 h2 h

theorem iter_cycle (n : Nat) (hn : 1 ≤ n) (down : Bool) (start : Nat)
    (hs : start < n) :
    (searchStep n down)^[n] start = start ∧
    ∀ t, 1 ≤ t → t < n → (searchStep n down)^[t] start ≠ start := by
  cases down
  · exact ⟨iter_up_cycle n hn start hs, iter_up_ne n hn start hs⟩
  · exact ⟨iter_down_cycle n hn start hs, iter_down_ne n hn start hs⟩

/-- The non-preview search loop scans exactly the stepped index sequence
`step idx, step² idx, …`, ending with the start row, and reports the first
hit. -/
theorem searchGo_char (labels : List String) (text : String) (down : Bool)
    (start : Nat) :
    ∀ (r : Nat), 1 ≤ r → ∀ (idx fuel : Nat), r ≤ fuel → idx < labels.length →
      (searchStep labels.length down)^[r] idx = start →
      (∀ t, 1 ≤ t → t < r → (searchStep labels.length down)^[t] idx ≠ start) →
      searchGo labels text false down start fuel idx =
        firstHit labels text
          ((List.range r).map fun t => (searchStep labels.length down)^[t + 1] idx) := by
  intro r
  induction r with
  | zero => intro h1; exact absurd h1 (by omega)
  | succ r ih =>
    intro _ idx fuel hf hidx hstart hne
    obtain ⟨fuel2, rfl⟩ : ∃ f2, fuel = f2 + 1 := ⟨fuel - 1, by omega⟩
    have hn : 1 ≤ labels.length := by omega
    have hstep : searchStep labels.length down idx < labels.length :=
      searchStep_lt _ _ _ hn hidx
    simp only [searchGo, Bool.false_eq_true, if_false]
    rw [List.range_succ_eq_map, List.map_cons, List.map_map]
    simp only [Nat.zero_add, Function.iterate_one]
    have htail : List.map ((fun t => (searchStep labels.length down)^[t + 1] idx) ∘
          Nat.succ) (List.range r) =
        List.map (fun t => (searchStep labels.length down)^[t + 1]
          (searchStep labels.length down idx)) (List.range r) := by
      apply List.map_congr_left
      intro t _
      show (searchStep labels.length down)^[t + 1 + 1] idx = _
      rw [show t + 1 + 1 = (t + 1) + 1 from rfl, Function.iterate_succ_apply]
    rw [htail]
    simp only [firstHit]
    cases hfind : strFind (StripWorklib
        (labels.getD (searchStep labels.length down idx) "")) text with
    | some pos => rfl
    | none =>
      by_cases hr : r = 0
      · subst hr
        have hss : searchStep labels.length down idx = start := by
          have := hstart
          rwa [Function.iterate_one] at this
        rw [if_pos hss]
        rfl
      · have hss : ¬ searchStep labels.length down idx = start := by
          have := hne 1 (by omega) (by omega)
          rwa [Function.iterate_one] at this
        rw [if_neg hss]
        exact ih (by omega) (searchStep labels.length down idx) fuel2 (by omega)
          hstep (by rw [← Function.iterate_succ_apply]; exact hstart)
          (fun t h1t h2t => by
            rw [← Function.iterate_succ_apply]
            exact hne (t + 1) (by omega) (by omega))

/-- The preview search loop checks the current row first and then behaves
like the plain loop; it scans `idx, step idx, …` up to (excluding) the
return to the start row. -/
theorem searchGo_char_preview (labels : List String) (text : String) (down : Bool)
    (start : Nat) :
    ∀ (r : Nat), 1 ≤ r → ∀ (idx fuel : Nat), r ≤ fuel → idx < labels.length →
      (searchStep labels.length down)^[r] idx = start →
      (∀ t, 1 ≤ t → t < r → (searchStep labels.length down)^[t] idx ≠ start) →
      searchGo labels text true down start fuel idx =
        firstHit labels text
          ((List.range r).map fun t => (searchStep labels.length down)^[t] idx) := by
  intro r
  induction r with
  | zero => intro h1; exact absurd h1 (by omega)
  | succ r ih =>
    intro _ idx fuel hf hidx hstart hne
    obtain ⟨fuel2, rfl⟩ : ∃ f2, fuel = f2 + 1 := ⟨fuel - 1, by omega⟩
    have hn : 1 ≤ labels.length := by omega
    have hstep : searchStep labels.length down idx < labels.length :=
      searchStep_lt _ _ _ hn hidx
    simp only [searchGo, if_true]
    rw [List.range_succ_eq_map, List.map_cons, List.map_map]
    simp only [Function.iterate_zero_apply]
    have htail : List.map ((fun t => (searchStep labels.length down)^[t] idx) ∘
          Nat.succ) (List.range r) =
        List.map (fun t => (searchStep labels.length down)^[t]
          (searchStep labels.length down idx)) (List.range r) := by
      apply List.map_congr_left
      intro t _
      show (searchStep labels.length down)^[t + 1] idx = _
      rw [Function.iterate_succ_apply]
    rw [htail]
    simp only [firstHit]
    cases hfind : strFind (StripWorklib (labels.getD idx "")) text with
    | some pos => rfl
    | none =>
      by_cases hr : r = 0
      · subst hr
        have hss : searchStep labels.length down idx = start := by
          have := hstart
          rwa [Function.iterate_one] at this
        rw [if_pos hss]
        rfl
      · have hss : ¬ searchStep labels.length down idx = start := by
          have := hne 1 (by omega) (by omega)
          rwa [Function.iterate_one] at this
        rw [if_neg hss]
        exact ih (by omega) (searchStep labels.length down idx) fuel2 (by omega)
          hstep (by rw [← Function.iterate_succ_apply]; exact hstart)
          (fun t h1t h2t => by
            rw [← Function.iterate_succ_apply]
            exact hne (t + 1) (by omega) (by omega))

/-- C4: `Hierarchy::Search` steps one row at a time from the current
selection in the requested direction, wrapping around both ends of the
Visible List, and stops at the first row whose worklib-stripped label
contains the case-sensitive search text: it selects that row and records
the match column, and fails (clearing the highlight) only after one full
cycle.  In preview mode the current row is checked before stepping, with
the same termination condition.  `searchCands` lists the visited row
indices in order; `firstHit` picks the first matching one. -/
theorem search_first_match (d : Design) (st : Hier) (down : Bool)
    (h2 : 2 ≤ st.entries.length) (hl : st.line_idx < st.entries.length) :
    Search d st down =
      match firstHit (hierLabels d st) st.search_text
          (searchCands st.entries.length st.search_preview down st.line_idx) with
      | some (idx, pos) =>
        (true, setLineAndScroll { st with search_start_col := (pos : Int) } idx)
      | none => (false, { st with search_start_col := -1 }) := by
  have hlen : (hierLabels d st).length = st.entries.length := by
    simp [hierLabels]
  have hn1 : 1 ≤ st.entries.length := by omega
  obtain ⟨hcyc, hne⟩ := iter_cycle st.entries.length hn1 down st.line_idx hl
  unfold Search
  rw [if_neg (by omega)]
  unfold searchCands
  cases hp : st.search_preview
  · rw [if_neg (by simp)]
    rw [searchGo_char (hierLabels d st) st.search_text down st.line_idx
      st.entries.length hn1 st.line_idx (st.entries.length + 1)
      (by omega) (by omega)
      (by rw [hlen]; exact hcyc)
      (by rw [hlen]; exact hne)]
    rw [hlen]
  · rw [if_pos rfl]
    rw [searchGo_char_preview (hierLabels d st) st.search_text down st.line_idx
      st.entries.length hn1 st.line_idx (st.entries.length + 1)
      (by omega) (by omega)
      (by rw [hlen]; exact hcyc)
      (by rw [hlen]; exact hne)]
    rw [hlen]

/-- Witness for `search_first_match`: the `[A, Bx, C, Dx]` rows with
matches at indices 1 and 3: forward search from row 0 selects 1, then 3,
then wraps back to 1; backward search from row 0 selects 3 (recording the
match column 1 in `Dx`). -/
theorem search_first_match_witness :
    (2 ≤ stRows.entries.length ∧ stRows.line_idx < stRows.entries.length) ∧
    Search dRows stRows true =
      (match firstHit (hierLabels dRows stRows) stRows.search_text
          (searchCands stRows.entries.length stRows.search_preview true
            stRows.line_idx) with
      | some (idx, pos) =>
        (true, setLineAndScroll { stRows with search_start_col := (pos : Int) } idx)
      | none => (false, { stRows with search_start_col := -1 })) ∧
    (Search dRows stRows true).1 = true ∧
    (Search dRows stRows true).2.line_idx = 1 ∧
    (Search dRows (Search dRows stRows true).2 true).2.line_idx = 3 ∧
    (Search dRows (Search dRows (Search dRows stRows true).2 true).2 true).2.line_idx
      = 1 ∧
    (Search dRows stRows false).2.line_idx = 3 ∧
    (Search dRows stRows false).2.search_start_col = 1 :=
  ⟨⟨by decide, by decide⟩,
    search_first_match dRows stRows true (by decide) (by decide),
    by decide, by decide, by decide, by decide, by decide, by decide⟩

/-! ## Cache-surgery helpers for the well-formedness proofs -/

theorem setInfo_isSome (m : InfoMap) (n : Nat) (v : NodeInfo)
    (hn : (m n).isSome) :
    ∀ x, ((setInfo m n v) x).isSome = (m x).isSome := by
  intro x
  by_cases hx : x = n
  · subst hx
    rw [setInfo_self, hn]
    rfl
  · rw [setInfo_ne _ _ _ _ hx]

theorem infoD_set_depth (m : InfoMap) (n : Nat) (v : NodeInfo)
    (hd : v.depth = (infoD m n).depth) :
    ∀ x, (infoD (setInfo m n v) x).depth = (infoD m x).depth := by
  intro x
  by_cases hx : x = n
  · subst hx
    rw [infoD_of_some _ _ _ (setInfo_self m x v), hd]
  · rw [infoD_congr _ m x (setInfo_ne m n x v hx)]

/-- Overwriting a cached entry with a copy that differs only in its
`expanded` flag preserves the cache invariants, provided the entry carries
no pagination cursor and, when the flag is being set, the node's first
child is materialized. -/
theorem mapwf_set_expanded (d : Design) (m : InfoMap) (nd : Nat) (b : Bool)
    (hWF : MapWF d m) (hn : (m nd).isSome) (hmore : (infoD m nd).more_idx = 0)
    (hexp : b = true → ∃ c, (get_subs d nd).get? 0 = some c ∧ (m c).isSome) :
    MapWF d (setInfo m nd { infoD m nd with expanded := b }) := by
  set v : NodeInfo := { infoD m nd with expanded := b } with hv
  set m2 := setInfo m nd v with hm2
  have hstat : ∀ x, (m2 x).isSome = (m x).isSome := setInfo_isSome m nd v hn
  have hdep : ∀ x, (infoD m2 x).depth = (infoD m x).depth :=
    infoD_set_depth m nd v rfl
  have hval : ∀ x i2, m2 x = some i2 → (x = nd ∧ i2 = v) ∨ m x = some i2 := by
    intro x i2 hx
    by_cases hxn : x = nd
    · subst hxn
      rw [hm2, setInfo_self] at hx
      exact Or.inl ⟨rfl, (Option.some.inj hx).symm⟩
    · rw [hm2, setInfo_ne _ _ _ _ hxn] at hx
      exact Or.inr hx
  refine ⟨?_, ?_, ?_, ?_, ?_, ?_⟩
  · intro p c hp hc hsub
    rw [hdep, hdep]
    exact hWF.cacheDepth p c (hstat p ▸ hp) (hstat c ▸ hc) hsub
  · intro c hc
    rcases hWF.parentUp c (hstat c ▸ hc) with h | ⟨p, hpI, hcp⟩
    · exact Or.inl h
    · exact Or.inr ⟨p, by rw [hstat]; exact hpI, hcp⟩
  · intro c i2 hc2 hmi
    rcases hval c i2 hc2 with ⟨hcn, hiv⟩ | hold
    · exfalso
      rw [hiv] at hmi
      exact hmi hmore
    · obtain ⟨h1, h2⟩ := hWF.morePar c i2 hold hmi
      exact ⟨by rw [hstat]; exact h1, h2⟩
  · intro p hp
    obtain ⟨mm, h1, h2, h3, h4, h5⟩ := hWF.pag p (hstat p ▸ hp)
    refine ⟨mm, h1, ?_, ?_, ?_, ?_⟩
    · intro j c hj hjg
      rw [hstat]
      exact h2 j c hj hjg
    · intro j c hj hjg
      have hmc := h3 j c hj hjg
      have hcn : c ≠ nd := by
        intro h
        rw [h] at hmc
        rw [hmc] at hn
        cases hn
      rw [hm2, setInfo_ne _ _ _ _ hcn]
      exact hmc
    · intro j c i2 hjg hc2 hmi
      rcases hval c i2 hc2 with ⟨hcn, hiv⟩ | hold
      · exfalso
        rw [hiv] at hmi
        exact hmi hmore
      · exact h4 j c i2 hjg hold hmi
    · rcases h5 with h | h | ⟨c, i2, hg, hc2, hmi, hge⟩
      · exact Or.inl h
      · exact Or.inr (Or.inl h)
      · refine Or.inr (Or.inr ⟨c, i2, hg, ?_, hmi, hge⟩)
        have hcn : c ≠ nd := by
          intro hceq
          rw [hceq] at hc2
          have hi2 : i2.more_idx = 0 := by
            rw [← infoD_of_some m nd i2 hc2]
            exact hmore
          omega
        rw [hm2, setInfo_ne _ _ _ _ hcn]
        exact hc2
  · intro p i2 hp2 hpe
    rcases hval p i2 hp2 with ⟨hpn, hiv⟩ | hold
    · subst hpn
      rw [hiv] at hpe
      obtain ⟨c, hcg, hcI⟩ := hexp hpe
      exact ⟨c, hcg, by rw [hstat]; exact hcI⟩
    · obtain ⟨c, hcg, hcI⟩ := hWF.expMat p i2 hold hpe
      exact ⟨c, hcg, by rw [hstat]; exact hcI⟩
  · intro n i2 hn2
    rcases hval n i2 hn2 with ⟨hnn, hiv⟩ | hold
    · subst hnn
      rw [hiv]
      show ({ infoD m n with expanded := b } : NodeInfo).expandable =
        is_expandable d n
      obtain ⟨w, hw⟩ := Option.isSome_iff_exists.mp hn
      show (infoD m n).expandable = is_expandable d n
      rw [infoD_of_some m n w hw]
      exact hWF.expOK n w hw
    · exact hWF.expOK n i2 hold

/-! ## The collapse scan -/

/-- On a list of cached rows, the deletion scan leaves the cache alone,
deletes at most the whole scanned list, and stops at the first row that is
not strictly deeper than the toggled one. -/
theorem collapseScan_spec (dep : Nat) :
    ∀ (l : List Nat) (m : InfoMap), (∀ e ∈ l, (m e).isSome) →
      (collapseScan dep l m).2 = m ∧
      (collapseScan dep l m).1 ≤ l.length ∧
      (∀ c, l.get? (collapseScan dep l m).1 = some c →
        (infoD m c).depth ≤ dep) := by
  intro l
  induction l with
  | nil =>
    intro m _
    refine ⟨rfl, Nat.le_refl _, ?_⟩
    intro c hc
    cases hc
  | cons e rest ih =>
    intro m hm
    have he : (m e).isSome := hm e (List.mem_cons_self _ _)
    have hens : ensureInfo m e = m := ensureInfo_of_isSome m e he
    have hcons : collapseScan dep (e :: rest) m =
        if (infoD m e).depth > dep then
          ((collapseScan dep rest m).1 + 1, (collapseScan dep rest m).2)
        else (0, m) := by
      simp only [collapseScan, hens]
    rw [hcons]
    by_cases hd : (infoD m e).depth > dep
    · rw [if_pos hd]
      obtain ⟨h1, h2, h3⟩ := ih m (fun x hx => hm x (List.mem_cons_of_mem _ hx))
      refine ⟨h1, by simpa using Nat.succ_le_succ h2, ?_⟩
      intro c hc
      exact h3 c hc
    · rw [if_neg hd]
      refine ⟨rfl, Nat.zero_le _, ?_⟩
      intro c hc
      have hce : c = e := (Option.some.inj hc).symm
      subst hce
      omega

/-- When exactly the first `j` scanned rows are strictly deeper than the
toggled one, the scan deletes exactly those `j` rows. -/
theorem collapseScan_count (dep : Nat) :
    ∀ (l : List Nat) (m : InfoMap) (j : Nat),
      (∀ e ∈ l, (m e).isSome) →
      (∀ i c, i < j → l.get? i = some c → dep < (infoD m c).depth) →
      (∀ c, l.get? j = some c → (infoD m c).depth ≤ dep) →
      j ≤ l.length →
      collapseScan dep l m = (j, m) := by
  intro l
  induction l with
  | nil =>
    intro m j _ _ _ hj
    have hj0 : j = 0 := by simpa using hj
    subst hj0
    rfl
  | cons e rest ih =>
    intro m j hm hgt hle hj
    have he : (m e).isSome := hm e (List.mem_cons_self _ _)
    have hens : ensureInfo m e = m := ensureInfo_of_isSome m e he
    have hcons : collapseScan dep (e :: rest) m =
        if (infoD m e).depth > dep then
          ((collapseScan dep rest m).1 + 1, (collapseScan dep rest m).2)
        else (0, m) := by
      simp only [collapseScan, hens]
    rw [hcons]
    cases j with
    | zero =>
      have h0 : (infoD m e).depth ≤ dep := hle e rfl
      rw [if_neg (by omega)]
    | succ j' =>
      have h0 : dep < (infoD m e).depth := hgt 0 e (Nat.succ_pos _) rfl
      rw [if_pos h0]
      have hrec := ih m j' (fun x hx => hm x (List.mem_cons_of_mem _ hx))
        (fun i c hi hc => hgt (i + 1) c (Nat.succ_lt_succ hi) hc)
        (fun c hc => hle c hc)
        (by simpa using hj)
      rw [hrec]

/-! ## Chain-of-depths helpers -/

theorem chainDepth_congr (m m2 : InfoMap) (l : List Nat)
    (h : ∀ x ∈ l, (infoD m2 x).depth = (infoD m x).depth)
    (hc : List.Chain' (fun a b => (infoD m b).depth ≤ (infoD m a).depth + 1) l) :
    List.Chain' (fun a b => (infoD m2 b).depth ≤ (infoD m2 a).depth + 1) l := by
  rw [List.chain'_iff_get] at hc ⊢
  intro i hi
  rw [h _ (List.get_mem _ _ _), h _ (List.get_mem _ _ _)]
  exact hc i hi

theorem getLast_take_succ (l : List α) (i : Nat) (hi : i < l.length) :
    (l.take (i + 1)).getLast? = some (l.get ⟨i, hi⟩) := by
  rw [List.getLast?_eq_get?]
  have hlen : (l.take (i + 1)).length = i + 1 := by
    rw [List.length_take]
    omega
  rw [hlen]
  simp only [Nat.add_sub_cancel]
  rw [List.get?_take (Nat.lt_succ_self i), List.get?_eq_get hi]

/-! ## The pagination-resume loop on a fresh suffix -/

/-- The resume loop on a fresh suffix materializes exactly the next
`stopped + k + 1 - i` pending children at the placeholder's depth, the one
whose child index reaches `stopped + k` becoming the new placeholder; no
other cache entry changes. -/
theorem moreLoop_fresh (d : Design) (k dep par stopped : Nat) :
    ∀ (l : List Nat) (i : Nat) (m : InfoMap),
      stopped + 1 ≤ i → i ≤ stopped + k → (∀ c ∈ l, m c = none) → l.Nodup →
      (moreLoop d k dep par stopped l i m).1 = l.take (stopped + k + 1 - i) ∧
      (∀ c, c ∉ l.take (stopped + k + 1 - i) →
        (moreLoop d k dep par stopped l i m).2 c = m c) ∧
      (∀ jj (hjj : jj < l.length), jj < stopped + k + 1 - i →
        (moreLoop d k dep par stopped l i m).2 (l.get ⟨jj, hjj⟩) =
          some { depth := dep
                 expandable := is_expandable d (l.get ⟨jj, hjj⟩)
                 expanded := false
                 more_idx := if i + jj = stopped + k then i + jj else 0
                 parent := par }) := by
  intro l
  induction l with
  | nil =>
    intro i m _ _ _ _
    refine ⟨?_, ?_, ?_⟩
    · rw [List.take_nil]
      rfl
    · intro c _
      rfl
    · intro jj hjj _
      exact absurd hjj (Nat.not_lt_zero jj)
  | cons sub rest ih =>
    intro i m hi1 hi2 hfresh hnd
    by_cases hflag : i = stopped + k
    · have hmi : i - stopped ≥ k := by omega
      have htake : stopped + k + 1 - i = 1 := by omega
      have hienz : i ≠ 0 := by omega
      have hcons : moreLoop d k dep par stopped (sub :: rest) i m =
          ([sub], setInfo m sub
            { depth := dep
              expandable := is_expandable d sub
              expanded := false
              more_idx := i
              parent := par }) := by
        simp only [moreLoop]
        rw [if_pos hmi, if_pos hienz]
      rw [hcons, htake]
      refine ⟨rfl, ?_, ?_⟩
      · intro c hc
        simp only [List.take_succ_cons, List.take_zero] at hc
        have hcs : c ≠ sub := by
          intro h
          exact hc (h ▸ List.mem_singleton.mpr rfl)
        exact setInfo_ne _ _ _ _ hcs
      · intro jj hjj hjlt
        have hjz : jj = 0 := by omega
        subst hjz
        show setInfo m sub _ sub = _
        rw [setInfo_self]
        have hmv : (if i + 0 = stopped + k then i + 0 else 0) = i := by
          rw [if_pos (by omega)]
          omega
        rw [hmv]
        rfl
    · have hmi : ¬(i - stopped ≥ k) := by omega
      have hcons : moreLoop d k dep par stopped (sub :: rest) i m =
          (sub :: (moreLoop d k dep par stopped rest (i + 1)
              (setInfo m sub
                { depth := dep
                  expandable := is_expandable d sub
                  expanded := false
                  more_idx := 0
                  parent := par })).1,
            (moreLoop d k dep par stopped rest (i + 1)
              (setInfo m sub
                { depth := dep
                  expandable := is_expandable d sub
                  expanded := false
                  more_idx := 0
                  parent := par })).2) := by
        simp only [moreLoop]
        rw [if_neg hmi, if_neg (by simp)]
      obtain ⟨ho, hu, hv⟩ := ih (i + 1)
        (setInfo m sub
          { depth := dep
            expandable := is_expandable d sub
            expanded := false
            more_idx := 0
            parent := par })
        (by omega) (by omega)
        (fun c hc => by
          rw [setInfo_ne _ _ _ _
            (fun h => (List.nodup_cons.mp hnd).1 (by rw [← h]; exact hc))]
          exact hfresh c (List.mem_cons_of_mem _ hc))
        (List.nodup_cons.mp hnd).2
      have htake : stopped + k + 1 - i = (stopped + k + 1 - (i + 1)) + 1 := by
        omega
      rw [hcons, htake]
      refine ⟨?_, ?_, ?_⟩
      · rw [List.take_succ_cons, ho]
      · intro c hc
        rw [List.take_succ_cons] at hc
        have hcsub : c ≠ sub := fun h => hc (h ▸ List.mem_cons_self _ _)
        have hcrest : c ∉ rest.take (stopped + k + 1 - (i + 1)) := fun h =>
          hc (List.mem_cons_of_mem _ h)
        rw [hu c hcrest]
        exact setInfo_ne _ _ _ _ hcsub
      · intro jj hjj hjlt
        cases jj with
        | zero =>
          have hsub_nt : sub ∉ rest.take (stopped + k + 1 - (i + 1)) := fun h =>
            (List.nodup_cons.mp hnd).1 (List.take_subset _ _ h)
          show (moreLoop d k dep par stopped rest (i + 1) _).2 sub = _
          rw [hu sub hsub_nt, setInfo_self]
          have hmv : (if i + 0 = stopped + k then i + 0 else 0) = 0 := by
            rw [if_neg (by omega)]
          rw [hmv]
          rfl
        | succ j' =>
          have hj' : j' < rest.length := by simpa using hjj
          have hjlt' : j' < stopped + k + 1 - (i + 1) := by omega
          have hvj := hv j' hj' hjlt'
          show (moreLoop d k dep par stopped rest (i + 1) _).2
            (rest.get ⟨j', hj'⟩) = _
          rw [hvj]
          have harith : i + 1 + j' = i + (j' + 1) := by omega
          rw [harith]
          rfl

/-! ## The first child after an expansion -/

/-- With at least one level of recursion available, expanding a node whose
child list is nonempty leaves its first child materialized. -/
theorem recAddSubs_first (d : Design) (k : Nat) (hT : TreeLike d) (hk : 1 ≤ k)
    (fuel : Nat) (hf : 1 ≤ fuel) (item : Nat) (m : InfoMap) (hWF : MapWF d m)
    (hitem : (m item).isSome) (hne : get_subs d item ≠ []) :
    ∃ c, (get_subs d item).get? 0 = some c ∧
      ((recAddSubs d k fuel item m).2 c).isSome := by
  obtain ⟨fuel', rfl⟩ : ∃ f, fuel = f + 1 := ⟨fuel - 1, by omega⟩
  obtain ⟨mm, hmm, hpre, hfreshp, hflagp, hlastp⟩ := hWF.pag item hitem
  have hlen : 0 < (get_subs d item).length := List.length_pos.mpr hne
  obtain ⟨c0, hc0⟩ : ∃ c0, (get_subs d item).get? 0 = some c0 :=
    ⟨(get_subs d item).get ⟨0, hlen⟩, List.get?_eq_get hlen⟩
  by_cases hmm0 : 1 ≤ mm
  · have hc0I : (m c0).isSome := hpre 0 c0 (by omega) hc0
    refine ⟨c0, hc0, ?_⟩
    rw [(recAddSubs_spec d k hT hk (fuel' + 1) item m hWF hitem).1 c0 hc0I]
    exact hc0I
  · have hmmz : mm = 0 := by omega
    subst hmmz
    have hfreshAll : ∀ c ∈ get_subs d item, m c = none := by
      intro c hc
      obtain ⟨⟨i, hi⟩, hg⟩ := List.mem_iff_get.mp hc
      exact hfreshp i c (Nat.zero_le i) (by rw [List.get?_eq_get hi, hg])
    obtain ⟨ho, hu, hv⟩ := expLoop_fresh d k (recAddSubs d k fuel') item
      (get_subs d item) 0 m hk (Nat.zero_le k) hfreshAll
      (hT.subsNodup item) hitem
    refine ⟨c0, hc0, ?_⟩
    have hceq : (get_subs d item).get ⟨0, hlen⟩ = c0 := by
      rw [List.get?_eq_get hlen] at hc0
      exact Option.some.inj hc0
    have hv0 := hv 0 hlen (by omega)
    show ((expLoop d k (recAddSubs d k fuel') item (get_subs d item) 0 m).2
      c0).isSome
    rw [← hceq, hv0]
    rfl

theorem getq_inj_of_nodup (l : List α) (hnd : l.Nodup) (i j : Nat) (a : α)
    (hi : l.get? i = some a) (hj : l.get? j = some a) : i = j := by
  have hi1 : i < l.length := (List.get?_eq_some.mp hi).1
  have hj1 : j < l.length := (List.get?_eq_some.mp hj).1
  rw [List.get?_eq_get hi1] at hi
  rw [List.get?_eq_get hj1] at hj
  have hgg : l.get ⟨i, hi1⟩ = l.get ⟨j, hj1⟩ :=
    (Option.some.inj hi).trans (Option.some.inj hj).symm
  exact congrArg Fin.val (hnd.get_inj_iff.mp hgg)

/-- The pagination-resume branch of `ToggleExpand` preserves
well-formedness of the browser state. -/
theorem toggle_WF_more (d : Design) (k fuel : Nat) (st : Hier) (hT : TreeLike d)
    (hk : 1 ≤ k) (hWF : WF d st) (hl : st.line_idx < st.entries.length)
    (nd : Nat) (hnd : st.entries.get ⟨st.line_idx, hl⟩ = nd)
    (i0 : NodeInfo) (hi0 : st.info nd = some i0) (hmore : i0.more_idx ≠ 0) :
    WF d (toggleExpand d k fuel st) := by
  have hndI : (st.info nd).isSome := by rw [hi0]; rfl
  have hinfoD : infoD st.info nd = i0 := infoD_of_some _ _ _ hi0
  obtain ⟨hparI, hndidx⟩ := hWF.map.morePar nd i0 hi0 hmore
  obtain ⟨mm, hmmle, hpre, hfreshp, hflagp, hlastp⟩ :=
    hWF.map.pag i0.parent hparI
  obtain ⟨hmm_eq, _, hmore_ge⟩ := hflagp i0.more_idx nd i0 hndidx hi0 hmore
  have hndmem : nd ∈ get_subs d i0.parent := List.get?_mem hndidx
  have hparnd : i0.parent ≠ nd := by
    intro h
    rw [h] at hndmem
    exact mapwf_not_self_sub d st.info hWF.map nd hndI hndmem
  have hdpar : i0.depth = (infoD st.info i0.parent).depth + 1 := by
    have h := hWF.map.cacheDepth i0.parent nd hparI hndI hndmem
    rw [hinfoD] at h
    exact h
  have hfreshL : ∀ c ∈ (get_subs d i0.parent).drop (i0.more_idx + 1),
      st.info c = none := by
    intro c hc
    obtain ⟨⟨jj, hjj⟩, hg⟩ := List.mem_iff_get.mp hc
    have hgq : (get_subs d i0.parent).get? (i0.more_idx + 1 + jj) = some c := by
      rw [← List.get?_drop, List.get?_eq_get hjj, hg]
    exact hfreshp (i0.more_idx + 1 + jj) c (by omega) hgq
  have hndL : nd ∉ (get_subs d i0.parent).drop (i0.more_idx + 1) := by
    intro hc
    rw [hfreshL nd hc] at hi0
    cases hi0
  have hLnd : ((get_subs d i0.parent).drop (i0.more_idx + 1)).Nodup :=
    (hT.subsNodup i0.parent).sublist (List.drop_sublist _ _)
  rw [toggleExpand_more_eq d k fuel st hl nd hnd i0 hi0 hmore]
  set v1 : NodeInfo := { i0 with more_idx := 0 } with hv1
  set m1 := setInfo st.info nd v1 with hm1
  set L := (get_subs d i0.parent).drop (i0.more_idx + 1) with hL
  have hm1stat : ∀ x, (m1 x).isSome = (st.info x).isSome :=
    setInfo_isSome st.info nd v1 hndI
  have hm1dep : ∀ x, (infoD m1 x).depth = (infoD st.info x).depth :=
    infoD_set_depth st.info nd v1 (by rw [hv1, hinfoD])
  have hfresh1 : ∀ c ∈ L, m1 c = none := by
    intro c hc
    rw [hm1, setInfo_ne _ _ _ _ (fun h => hndL (by rw [← h]; exact hc))]
    exact hfreshL c hc
  obtain ⟨ho, hu, hv⟩ := moreLoop_fresh d k i0.depth i0.parent i0.more_idx L
    (i0.more_idx + 1) m1 (Nat.le_refl _) (by omega) hfresh1 hLnd
  have htk : i0.more_idx + k + 1 - (i0.more_idx + 1) = k := by omega
  rw [htk] at ho hu hv
  set out := (moreLoop d k i0.depth i0.parent i0.more_idx L
    (i0.more_idx + 1) m1).1 with hout
  set m2 := (moreLoop d k i0.depth i0.parent i0.more_idx L
    (i0.more_idx + 1) m1).2 with hm2
  have houtL : out ⊆ L := by
    rw [ho]
    exact List.take_subset _ _
  have houtS : ∀ c ∈ out, c ∈ get_subs d i0.parent := fun c hc =>
    List.drop_subset _ _ (houtL hc)
  have hfoutm : ∀ c ∈ out, st.info c = none := fun c hc => hfreshL c (houtL hc)
  have hndout : nd ∉ out := fun hc => hndL (houtL hc)
  have hparout : i0.parent ∉ out := by
    intro hc
    rw [hfoutm i0.parent hc] at hparI
    cases hparI
  have hF1 : ∀ c, c ∉ out → m2 c = m1 c := by
    intro c hc
    exact hu c (by rw [← ho]; exact hc)
  have hF1nd : m2 nd = some v1 := by
    rw [hF1 nd hndout, hm1, setInfo_self]
  have hnotout : ∀ x, (st.info x).isSome → x ∉ out := by
    intro x hx hc
    rw [hfoutm x hc] at hx
    cases hx
  have hF1some : ∀ c, (st.info c).isSome → m2 c = m1 c := fun c hc =>
    hF1 c (hnotout c hc)
  have hm2stat : ∀ x, (st.info x).isSome → (m2 x).isSome := by
    intro x hx
    rw [hF1some x hx, hm1stat]
    exact hx
  have hmemout : ∀ c ∈ out, ∃ jj, ∃ hjj : jj < L.length, jj < k ∧
      L.get ⟨jj, hjj⟩ = c := by
    intro c hc
    rw [ho] at hc
    obtain ⟨⟨jj, hjj⟩, hg⟩ := List.mem_iff_get.mp hc
    have hjj1 : jj < k := by
      have h2 := hjj
      rw [List.length_take] at h2
      omega
    have hjj2 : jj < L.length := by
      have h2 := hjj
      rw [List.length_take] at h2
      omega
    refine ⟨jj, hjj2, hjj1, ?_⟩
    rw [← hg, List.get_take']
  have hLget : ∀ jj (hjj : jj < L.length),
      (get_subs d i0.parent).get? (i0.more_idx + 1 + jj) =
        some (L.get ⟨jj, hjj⟩) := by
    intro jj hjj
    rw [← List.get?_drop]
    rw [show (get_subs d i0.parent).drop (i0.more_idx + 1) = L from rfl]
    rw [List.get?_eq_get hjj]
  have hvalm : ∀ jj (hjj : jj < L.length), jj < k →
      m2 (L.get ⟨jj, hjj⟩) =
        some { depth := i0.depth
               expandable := is_expandable d (L.get ⟨jj, hjj⟩)
               expanded := false
               more_idx := if i0.more_idx + 1 + jj = i0.more_idx + k
                 then i0.more_idx + 1 + jj else 0
               parent := i0.parent } := fun jj hjj hjk => hv jj hjj hjk
  have hvalc : ∀ c ∈ out, ∃ jj, ∃ hjj : jj < L.length, jj < k ∧
      L.get ⟨jj, hjj⟩ = c ∧
      m2 c = some { depth := i0.depth
                    expandable := is_expandable d c
                    expanded := false
                    more_idx := if i0.more_idx + 1 + jj = i0.more_idx + k
                      then i0.more_idx + 1 + jj else 0
                    parent := i0.parent } := by
    intro c hc
    obtain ⟨jj, hjj, hjk, hg⟩ := hmemout c hc
    refine ⟨jj, hjj, hjk, hg, ?_⟩
    rw [← hg]
    exact hvalm jj hjj hjk
  have hdepout : ∀ c ∈ out, (infoD m2 c).depth = i0.depth := by
    intro c hc
    obtain ⟨jj, hjj, hjk, hg, hval⟩ := hvalc c hc
    rw [infoD_of_some _ _ _ hval]
  have hsomeout : ∀ c ∈ out, (m2 c).isSome := by
    intro c hc
    obtain ⟨jj, hjj, hjk, hg, hval⟩ := hvalc c hc
    rw [hval]
    rfl
  have hF6 : ∀ n, (m2 n).isSome → (st.info n).isSome ∨ n ∈ out := by
    intro n hn
    by_cases hno : n ∈ out
    · exact Or.inr hno
    · rw [hF1 n hno, hm1stat] at hn
      exact Or.inl hn
  have hdep2 : ∀ x, x ∉ out → (infoD m2 x).depth = (infoD st.info x).depth := by
    intro x hx
    rw [infoD_congr _ m1 x (hF1 x hx), hm1dep]
  have hnosub : ∀ p ∈ out, ∀ x ∈ get_subs d p, m2 x = none := by
    intro p hp x hx
    have hxout : x ∉ out := by
      intro hcon
      have hpp : p = i0.parent := hT.uniqueParent p i0.parent x hx (houtS x hcon)
      rw [hpp] at hp
      exact hparout hp
    have hxnd : x ≠ nd := by
      intro h
      rw [h] at hx
      have hpp : p = i0.parent := hT.uniqueParent p i0.parent nd hx hndmem
      rw [hpp] at hp
      exact hparout hp
    rw [hF1 x hxout, hm1, setInfo_ne _ _ _ _ hxnd]
    cases hxm : st.info x with
    | none => rfl
    | some w =>
      exfalso
      have hxI : (st.info x).isSome := by rw [hxm]; rfl
      rcases hWF.map.parentUp x hxI with htop | ⟨q, hqI, hxq⟩
      · exact hT.topsNotSub x p htop hx
      · have hqp : q = p := hT.uniqueParent q p x hxq hx
        rw [hqp] at hqI
        rw [hfoutm p hp] at hqI
        cases hqI
  refine ⟨?_, ?_, ?_⟩
  · -- entriesInfo
    intro e he
    replace he : e ∈ st.entries.take (st.line_idx + 1) ++ out ++
        st.entries.drop (st.line_idx + 1) := he
    show (m2 e).isSome
    rcases List.mem_append.mp he with h | h
    · rcases List.mem_append.mp h with h1 | h1
      · exact hm2stat e (hWF.entriesInfo e (List.take_subset _ _ h1))
      · exact hsomeout e h1
    · exact hm2stat e (hWF.entriesInfo e (List.drop_subset _ _ h))
  · -- depth adjacency
    show List.Chain'
      (fun a b => (infoD m2 b).depth ≤ (infoD m2 a).depth + 1)
      (st.entries.take (st.line_idx + 1) ++ out ++
        st.entries.drop (st.line_idx + 1))
    have hOldBd : ∀ y, (st.entries.drop (st.line_idx + 1)).head? = some y →
        (infoD st.info y).depth ≤ (infoD st.info nd).depth + 1 := by
      have hAB : List.Chain'
          (fun a b => (infoD st.info b).depth ≤ (infoD st.info a).depth + 1)
          (st.entries.take (st.line_idx + 1) ++
            st.entries.drop (st.line_idx + 1)) := by
        rw [List.take_append_drop]
        exact hWF.adj
      have hbd := (List.chain'_append.mp hAB).2.2
      intro y hy
      refine hbd nd ?_ y ?_
      · rw [Option.mem_def, getLast_take_succ st.entries st.line_idx hl, hnd]
      · rw [Option.mem_def]
        exact hy
    rw [List.append_assoc]
    apply List.Chain'.append
    · exact chainDepth_congr st.info m2 _
        (fun x hx => hdep2 x
          (hnotout x (hWF.entriesInfo x (List.take_subset _ _ hx))))
        (List.Chain'.take hWF.adj _)
    · apply List.Chain'.append
      · rw [List.chain'_iff_get]
        intro i hi
        rw [hdepout _ (List.get_mem _ _ _), hdepout _ (List.get_mem _ _ _)]
        omega
      · exact chainDepth_congr st.info m2 _
          (fun x hx => hdep2 x
            (hnotout x (hWF.entriesInfo x (List.drop_subset _ _ hx))))
          (List.Chain'.drop hWF.adj _)
      · intro x hx y hy
        have hxout : x ∈ out := getLastQ_mem out x (Option.mem_def.mp hx)
        have hym : (st.entries.drop (st.line_idx + 1)).head? = some y :=
          Option.mem_def.mp hy
        have hyI : (st.info y).isSome :=
          hWF.entriesInfo y (List.drop_subset _ _ (List.mem_of_mem_head? hy))
        have hdy := hOldBd y hym
        rw [hinfoD] at hdy
        rw [hdep2 y (hnotout y hyI), hdepout x hxout]
        omega
    · intro x hx y hy
      have hxnd : x = nd := by
        rw [Option.mem_def, getLast_take_succ st.entries st.line_idx hl,
          hnd] at hx
        exact (Option.some.inj hx).symm
      rw [hxnd]
      have hdnd : (infoD m2 nd).depth = i0.depth := by
        rw [infoD_of_some _ _ _ hF1nd]
      rw [hdnd]
      cases hoc : out with
      | nil =>
        rw [hoc, List.nil_append] at hy
        have hym := Option.mem_def.mp hy
        have hyI : (st.info y).isSome :=
          hWF.entriesInfo y (List.drop_subset _ _ (List.mem_of_mem_head? hy))
        have hdy := hOldBd y hym
        rw [hinfoD] at hdy
        rw [hdep2 y (hnotout y hyI)]
        omega
      | cons o0 orest =>
        rw [hoc, List.cons_append, List.head?_cons, Option.mem_def] at hy
        have hdo : (infoD m2 y).depth = i0.depth := by
          rw [← Option.some.inj hy]
          exact hdepout o0 (by rw [hoc]; exact List.mem_cons_self _ _)
        rw [hdo]
        omega
  · -- MapWF
    show MapWF d m2
    refine ⟨?_, ?_, ?_, ?_, ?_, ?_⟩
    · intro p c hp hc hcsub
      rcases hF6 p hp with hpo | hpo
      · rcases hF6 c hc with hco | hco
        · rw [hdep2 p (hnotout p hpo), hdep2 c (hnotout c hco)]
          exact hWF.map.cacheDepth p c hpo hco hcsub
        · have hpp : p = i0.parent :=
            hT.uniqueParent p i0.parent c hcsub (houtS c hco)
          subst hpp
          rw [hdepout c hco, hdep2 i0.parent (hnotout i0.parent hpo)]
          exact hdpar
      · exfalso
        rw [hnosub p hpo c hcsub] at hc
        cases hc
    · intro c hc
      rcases hF6 c hc with hco | hco
      · rcases hWF.map.parentUp c hco with htop | ⟨q, hqI, hcq⟩
        · exact Or.inl htop
        · exact Or.inr ⟨q, hm2stat q hqI, hcq⟩
      · exact Or.inr ⟨i0.parent, hm2stat i0.parent hparI, houtS c hco⟩
    · intro c i2 hc2 hmi2
      by_cases hco : c ∈ out
      · obtain ⟨jj, hjj, hjk, hg, hval⟩ := hvalc c hco
        rw [hval] at hc2
        have hival := (Option.some.inj hc2).symm
        by_cases hfl : i0.more_idx + 1 + jj = i0.more_idx + k
        · rw [if_pos hfl] at hival
          constructor
          · rw [hival]
            show (m2 i0.parent).isSome
            exact hm2stat i0.parent hparI
          · rw [hival]
            show (get_subs d i0.parent).get? (i0.more_idx + 1 + jj) = some c
            rw [← hg]
            exact hLget jj hjj
        · exfalso
          rw [if_neg hfl] at hival
          rw [hival] at hmi2
          exact hmi2 rfl
      · rw [hF1 c hco] at hc2
        by_cases hcnd : c = nd
        · exfalso
          rw [hcnd, hm1, setInfo_self] at hc2
          rw [(Option.some.inj hc2).symm] at hmi2
          exact hmi2 rfl
        · rw [hm1, setInfo_ne _ _ _ _ hcnd] at hc2
          obtain ⟨hq, hgq⟩ := hWF.map.morePar c i2 hc2 hmi2
          exact ⟨hm2stat _ hq, hgq⟩
    · intro p hp
      rcases hF6 p hp with hpo | hpo
      · by_cases hppar : p = i0.parent
        · subst hppar
          refine ⟨min (i0.more_idx + 1 + k) (get_subs d i0.parent).length,
            Nat.min_le_right _ _, ?_, ?_, ?_, ?_⟩
          · intro j c hj hjg
            have hjlen : j < (get_subs d i0.parent).length :=
              (List.get?_eq_some.mp hjg).1
            by_cases hjmm : j < i0.more_idx + 1
            · exact hm2stat c (hpre j c (by omega) hjg)
            · have hjj2 : j - (i0.more_idx + 1) < L.length := by
                rw [hL, List.length_drop]
                omega
              have hjj1 : j - (i0.more_idx + 1) < k := by omega
              have hceq : L.get ⟨j - (i0.more_idx + 1), hjj2⟩ = c := by
                have hq := hLget (j - (i0.more_idx + 1)) hjj2
                rw [show i0.more_idx + 1 + (j - (i0.more_idx + 1)) = j from
                  by omega] at hq
                exact Option.some.inj (hq.symm.trans hjg)
              rw [← hceq, hvalm _ hjj2 hjj1]
              rfl
          · intro j c hj hjg
            have hjlen : j < (get_subs d i0.parent).length :=
              (List.get?_eq_some.mp hjg).1
            have hjge : i0.more_idx + 1 + k ≤ j := by omega
            have hcout : c ∉ out := by
              intro hcon
              obtain ⟨jj, hjj, hjk, hg⟩ := hmemout c hcon
              have hgq := hLget jj hjj
              rw [hg] at hgq
              have := getq_inj_of_nodup _ (hT.subsNodup i0.parent) _ _ _ hgq hjg
              omega
            have hcnd : c ≠ nd := by
              intro h
              rw [h] at hjg
              have := getq_inj_of_nodup _ (hT.subsNodup i0.parent) _ _ _
                hjg hndidx
              omega
            rw [hF1 c hcout, hm1, setInfo_ne _ _ _ _ hcnd]
            exact hfreshp j c (by omega) hjg
          · intro j c i2 hjg hc2 hmi2
            by_cases hco : c ∈ out
            · obtain ⟨jj, hjj, hjk, hg, hval⟩ := hvalc c hco
              rw [hval] at hc2
              have hival := (Option.some.inj hc2).symm
              by_cases hfl : i0.more_idx + 1 + jj = i0.more_idx + k
              · have hgq := hLget jj hjj
                rw [hg] at hgq
                have hj_eq : j = i0.more_idx + 1 + jj :=
                  getq_inj_of_nodup _ (hT.subsNodup i0.parent) _ _ _ hjg hgq
                rw [if_pos hfl] at hival
                have hjlen : j < (get_subs d i0.parent).length :=
                  (List.get?_eq_some.mp hjg).1
                refine ⟨by omega, ?_, by omega⟩
                rw [hival]
                show i0.more_idx + 1 + jj = j
                omega
              · exfalso
                rw [if_neg hfl] at hival
                rw [hival] at hmi2
                exact hmi2 rfl
            · rw [hF1 c hco] at hc2
              by_cases hcnd : c = nd
              · exfalso
                rw [hcnd, hm1, setInfo_self] at hc2
                rw [(Option.some.inj hc2).symm] at hmi2
                exact hmi2 rfl
              · rw [hm1, setInfo_ne _ _ _ _ hcnd] at hc2
                obtain ⟨hj1, hj2, hj3⟩ := hflagp j c i2 hjg hc2 hmi2
                exfalso
                have hj0 : j = i0.more_idx := by omega
                rw [hj0] at hjg
                exact hcnd (Option.some.inj (hjg.symm.trans hndidx))
          · by_cases hlen2 : (get_subs d i0.parent).length ≤ i0.more_idx + 1 + k
            · left
              omega
            · right
              right
              have hjj2 : k - 1 < L.length := by
                rw [hL, List.length_drop]
                omega
              have hval := hvalm (k - 1) hjj2 (by omega)
              rw [if_pos (show i0.more_idx + 1 + (k - 1) = i0.more_idx + k from
                by omega)] at hval
              rw [show i0.more_idx + 1 + (k - 1) = i0.more_idx + k from
                by omega] at hval
              have hgq := hLget (k - 1) hjj2
              rw [show i0.more_idx + 1 + (k - 1) = i0.more_idx + k from
                by omega] at hgq
              refine ⟨L.get ⟨k - 1, hjj2⟩, _, ?_, hval, ?_, ?_⟩
              · rw [show min (i0.more_idx + 1 + k)
                  (get_subs d i0.parent).length - 1 = i0.more_idx + k from
                  by omega]
                exact hgq
              · show i0.more_idx + k = min (i0.more_idx + 1 + k)
                  (get_subs d i0.parent).length - 1
                omega
              · omega
        · obtain ⟨mp, hp1, hp2s, hp3s, hp4s, hp5s⟩ := hWF.map.pag p hpo
          have hsame : ∀ x ∈ get_subs d p, m2 x = st.info x := by
            intro x hx
            have hxout : x ∉ out := fun hcon =>
              hppar (hT.uniqueParent p i0.parent x hx (houtS x hcon))
            have hxnd : x ≠ nd := fun h =>
              hppar (hT.uniqueParent p i0.parent nd
                (by rw [← h]; exact hx) hndmem)
            rw [hF1 x hxout, hm1, setInfo_ne _ _ _ _ hxnd]
          refine ⟨mp, hp1, ?_, ?_, ?_, ?_⟩
          · intro j c hj hjg
            rw [hsame c (List.get?_mem hjg)]
            exact hp2s j c hj hjg
          · intro j c hj hjg
            rw [hsame c (List.get?_mem hjg)]
            exact hp3s j c hj hjg
          · intro j c i2 hjg hc2 hmi2
            rw [hsame c (List.get?_mem hjg)] at hc2
            exact hp4s j c i2 hjg hc2 hmi2
          · rcases hp5s with h | h | ⟨cp, ip, h1, h2, h3, h4⟩
            · exact Or.inl h
            · exact Or.inr (Or.inl h)
            · refine Or.inr (Or.inr ⟨cp, ip, h1, ?_, h3, h4⟩)
              rw [hsame cp (List.get?_mem h1)]
              exact h2
      · refine ⟨0, Nat.zero_le _, ?_, ?_, ?_, Or.inr (Or.inl rfl)⟩
        · intro j c hj _
          omega
        · intro j c _ hjg
          exact hnosub p hpo c (List.get?_mem hjg)
        · intro j c i2 hjg hc2 _
          rw [hnosub p hpo c (List.get?_mem hjg)] at hc2
          cases hc2
    · intro p i2 hp2 hpe
      by_cases hpo : p ∈ out
      · obtain ⟨jj, hjj, hjk, hg, hval⟩ := hvalc p hpo
        rw [hval] at hp2
        rw [(Option.some.inj hp2).symm] at hpe
        cases hpe
      · rw [hF1 p hpo] at hp2
        by_cases hpnd : p = nd
        · rw [hpnd, hm1, setInfo_self] at hp2
          have hiv : i2 = v1 := (Option.some.inj hp2).symm
          rw [hiv] at hpe
          rw [hpnd]
          obtain ⟨c0, hg0, hI0⟩ := hWF.map.expMat nd i0 hi0 hpe
          exact ⟨c0, hg0, hm2stat c0 hI0⟩
        · rw [hm1, setInfo_ne _ _ _ _ hpnd] at hp2
          obtain ⟨c0, hg0, hI0⟩ := hWF.map.expMat p i2 hp2 hpe
          exact ⟨c0, hg0, hm2stat c0 hI0⟩
    · intro n i2 hn2
      by_cases hno : n ∈ out
      · obtain ⟨jj, hjj, hjk, hg, hval⟩ := hvalc n hno
        rw [hval] at hn2
        rw [(Option.some.inj hn2).symm]
      · rw [hF1 n hno] at hn2
        by_cases hnnd : n = nd
        · rw [hnnd, hm1, setInfo_self] at hn2
          rw [(Option.some.inj hn2).symm, hnnd]
          show i0.expandable = is_expandable d nd
          exact hWF.map.expOK nd i0 hi0
        · rw [hm1, setInfo_ne _ _ _ _ hnnd] at hn2
          exact hWF.map.expOK n i2 hn2

/-- The collapse branch of `ToggleExpand` preserves well-formedness. -/
theorem toggle_WF_collapse (d : Design) (k fuel : Nat) (st : Hier)
    (hWF : WF d st) (hl : st.line_idx < st.entries.length)
    (nd : Nat) (hnd : st.entries.get ⟨st.line_idx, hl⟩ = nd)
    (i0 : NodeInfo) (hi0 : st.info nd = some i0) (hm0 : i0.more_idx = 0)
    (hexp : i0.expandable = true) (hexpd : i0.expanded = true) :
    WF d (toggleExpand d k fuel st) := by
  have hndI : (st.info nd).isSome := by rw [hi0]; rfl
  have hinfoD : infoD st.info nd = i0 := infoD_of_some _ _ _ hi0
  obtain ⟨hcs2, hcntle, hstop⟩ := collapseScan_spec i0.depth
    (st.entries.drop (st.line_idx + 1)) st.info
    (fun e he => hWF.entriesInfo e (List.drop_subset _ _ he))
  rw [toggleExpand_collapse_eq d k fuel st hl nd hnd i0 hi0 hm0 hexp hexpd]
  rw [hcs2]
  set cnt := (collapseScan i0.depth (st.entries.drop (st.line_idx + 1))
    st.info).1 with hcnt_def
  set v1 : NodeInfo := { infoD st.info nd with expanded := false } with hv1
  set m2 := setInfo st.info nd v1 with hm2
  have hm2stat : ∀ x, (m2 x).isSome = (st.info x).isSome :=
    setInfo_isSome st.info nd v1 hndI
  have hm2dep : ∀ x, (infoD m2 x).depth = (infoD st.info x).depth :=
    infoD_set_depth st.info nd v1 rfl
  refine ⟨?_, ?_, ?_⟩
  · intro e he
    replace he : e ∈ st.entries.take (st.line_idx + 1) ++
        st.entries.drop (st.line_idx + 1 + cnt) := he
    show (m2 e).isSome
    rw [hm2stat e]
    rcases List.mem_append.mp he with h | h
    · exact hWF.entriesInfo e (List.take_subset _ _ h)
    · exact hWF.entriesInfo e (List.drop_subset _ _ h)
  · show List.Chain' (fun a b => (infoD m2 b).depth ≤ (infoD m2 a).depth + 1)
      (st.entries.take (st.line_idx + 1) ++
        st.entries.drop (st.line_idx + 1 + cnt))
    apply chainDepth_congr st.info m2 _ (fun x _ => hm2dep x)
    apply List.Chain'.append (List.Chain'.take hWF.adj _)
      (List.Chain'.drop hWF.adj _)
    intro x hx y hy
    have hxnd : x = nd := by
      rw [Option.mem_def, getLast_take_succ st.entries st.line_idx hl,
        hnd] at hx
      exact (Option.some.inj hx).symm
    rw [hxnd, hinfoD]
    have hym := Option.mem_def.mp hy
    have hyq : (st.entries.drop (st.line_idx + 1)).get? cnt = some y := by
      rw [List.get?_drop]
      rw [← List.get?_zero, List.get?_drop] at hym
      simpa using hym
    have hdy := hstop y hyq
    omega
  · show MapWF d m2
    have hmore0 : (infoD st.info nd).more_idx = 0 := by
      rw [hinfoD]
      exact hm0
    exact mapwf_set_expanded d st.info nd false hWF.map hndI hmore0
      (fun h => nomatch h)

/-- The expand branch of `ToggleExpand` preserves well-formedness. -/
theorem toggle_WF_expand (d : Design) (k fuel : Nat) (st : Hier)
    (hT : TreeLike d) (hk : 1 ≤ k) (hf : 1 ≤ fuel) (hWF : WF d st)
    (hl : st.line_idx < st.entries.length)
    (nd : Nat) (hnd : st.entries.get ⟨st.line_idx, hl⟩ = nd)
    (i0 : NodeInfo) (hi0 : st.info nd = some i0) (hm0 : i0.more_idx = 0)
    (hexp : i0.expandable = true) (hexpd : i0.expanded = false) :
    WF d (toggleExpand d k fuel st) := by
  have hndI : (st.info nd).isSome := by rw [hi0]; rfl
  have hinfoD : infoD st.info nd = i0 := infoD_of_some _ _ _ hi0
  obtain ⟨P2, P7, P1, P3, P4, P6, P5, P8⟩ :=
    recAddSubs_spec d k hT hk fuel nd st.info hWF.map hndI
  have hsubne : get_subs d nd ≠ [] := by
    have h := hWF.map.expOK nd i0 hi0
    rw [hexp] at h
    intro hnil
    unfold is_expandable at h
    rw [hnil] at h
    simp at h
  obtain ⟨c0, hc0g, hc0I⟩ := recAddSubs_first d k hT hk fuel hf nd st.info
    hWF.map hndI hsubne
  rw [toggleExpand_expand_eq d k fuel st hl nd hnd i0 hi0 hm0 hexp hexpd]
  set R1 := (recAddSubs d k fuel nd st.info).1 with hR1
  set R2 := (recAddSubs d k fuel nd st.info).2 with hR2
  set v1 : NodeInfo := { infoD R2 nd with expanded := true } with hv1
  set m2 := setInfo R2 nd v1 with hm2
  have hRnd : R2 nd = st.info nd := P2 nd hndI
  have hRndI : (R2 nd).isSome := by
    rw [hRnd]
    exact hndI
  have hiR : infoD R2 nd = i0 := by
    rw [infoD_congr R2 st.info nd hRnd, hinfoD]
  have hm2stat : ∀ x, (m2 x).isSome = (R2 x).isSome :=
    setInfo_isSome R2 nd v1 hRndI
  have hm2dep : ∀ x, (infoD m2 x).depth = (infoD R2 x).depth :=
    infoD_set_depth R2 nd v1 rfl
  have holdR : ∀ x, (st.info x).isSome →
      (infoD R2 x).depth = (infoD st.info x).depth :=
    fun x hx => by rw [infoD_congr R2 st.info x (P2 x hx)]
  refine ⟨?_, ?_, ?_⟩
  · intro e he
    replace he : e ∈ st.entries.take (st.line_idx + 1) ++ R1 ++
        st.entries.drop (st.line_idx + 1) := he
    show (m2 e).isSome
    rw [hm2stat e]
    rcases List.mem_append.mp he with h | h
    · rcases List.mem_append.mp h with h1 | h1
      · have hx := hWF.entriesInfo e (List.take_subset _ _ h1)
        rw [P2 e hx]
        exact hx
      · exact P3 e h1
    · have hx := hWF.entriesInfo e (List.drop_subset _ _ h)
      rw [P2 e hx]
      exact hx
  · show List.Chain' (fun a b => (infoD m2 b).depth ≤ (infoD m2 a).depth + 1)
      (st.entries.take (st.line_idx + 1) ++ R1 ++
        st.entries.drop (st.line_idx + 1))
    apply chainDepth_congr R2 m2 _ (fun x _ => hm2dep x)
    have hOldBd : ∀ y, (st.entries.drop (st.line_idx + 1)).head? = some y →
        (infoD st.info y).depth ≤ i0.depth + 1 := by
      have hAB : List.Chain'
          (fun a b => (infoD st.info b).depth ≤ (infoD st.info a).depth + 1)
          (st.entries.take (st.line_idx + 1) ++
            st.entries.drop (st.line_idx + 1)) := by
        rw [List.take_append_drop]
        exact hWF.adj
      have hbd := (List.chain'_append.mp hAB).2.2
      intro y hy
      have h := hbd nd
        (by rw [Option.mem_def, getLast_take_succ st.entries st.line_idx hl,
          hnd])
        y (by rw [Option.mem_def]; exact hy)
      rw [hinfoD] at h
      exact h
    rw [List.append_assoc]
    apply List.Chain'.append
    · exact chainDepth_congr st.info R2 _
        (fun x hx => holdR x (hWF.entriesInfo x (List.take_subset _ _ hx)))
        (List.Chain'.take hWF.adj _)
    · apply List.Chain'.append P5
      · exact chainDepth_congr st.info R2 _
          (fun x hx => holdR x (hWF.entriesInfo x (List.drop_subset _ _ hx)))
          (List.Chain'.drop hWF.adj _)
      · intro x hx y hy
        have hxR : x ∈ R1 := getLastQ_mem R1 x (Option.mem_def.mp hx)
        have h4 := P4 x hxR
        rw [hinfoD] at h4
        have hyI : (st.info y).isSome :=
          hWF.entriesInfo y (List.drop_subset _ _ (List.mem_of_mem_head? hy))
        have hdy := hOldBd y (Option.mem_def.mp hy)
        rw [holdR y hyI]
        omega
    · intro x hx y hy
      have hxnd : x = nd := by
        rw [Option.mem_def, getLast_take_succ st.entries st.line_idx hl,
          hnd] at hx
        exact (Option.some.inj hx).symm
      rw [hxnd, hiR]
      cases hoc : R1 with
      | nil =>
        rw [hoc, List.nil_append] at hy
        have hyI : (st.info y).isSome :=
          hWF.entriesInfo y (List.drop_subset _ _ (List.mem_of_mem_head? hy))
        have hdy := hOldBd y (Option.mem_def.mp hy)
        rw [holdR y hyI]
        omega
      | cons o0 orest =>
        rw [hoc, List.cons_append, List.head?_cons, Option.mem_def] at hy
        have hyd := P6 o0 (by rw [hoc]; rfl)
        rw [hinfoD] at hyd
        rw [← Option.some.inj hy]
        omega
  · show MapWF d m2
    have hmoreR : (infoD R2 nd).more_idx = 0 := by
      rw [hiR]
      exact hm0
    exact mapwf_set_expanded d R2 nd true P1 hRndI hmoreR
      (fun _ => ⟨c0, hc0g, hc0I⟩)

/-- `ToggleExpand` preserves well-formedness of the browser state. -/
theorem toggle_WF (d : Design) (k fuel : Nat) (st : Hier) (hT : TreeLike d)
    (hk : 1 ≤ k) (hf : 1 ≤ fuel) (hWF : WF d st) :
    WF d (toggleExpand d k fuel st) := by
  by_cases hE : st.entries.isEmpty
  · unfold toggleExpand
    rw [if_pos hE]
    exact hWF
  by_cases hl : st.line_idx < st.entries.length
  case neg =>
    unfold toggleExpand
    rw [if_neg hE, dif_neg hl]
    exact hWF
  case pos =>
    obtain ⟨i0, hi0⟩ := Option.isSome_iff_exists.mp
      (hWF.entriesInfo _ (List.get_mem st.entries st.line_idx hl))
    by_cases hmore : i0.more_idx ≠ 0
    · exact toggle_WF_more d k fuel st hT hk hWF hl _ rfl i0 hi0 hmore
    · have hm0 : i0.more_idx = 0 := by omega
      by_cases hexp : i0.expandable = true
      · by_cases hexpd : i0.expanded = true
        · exact toggle_WF_collapse d k fuel st hWF hl _ rfl i0 hi0 hm0
            hexp hexpd
        · exact toggle_WF_expand d k fuel st hT hk hf hWF hl _ rfl i0 hi0 hm0
            hexp (by simpa using hexpd)
      · rw [toggleExpand_noexp_eq d k fuel st hl _ rfl i0 hi0 hm0
          (by simpa using hexp)]
        exact hWF

/-! ## Construction produces a well-formed state -/

theorem initTops_mono (d : Design) :
    ∀ (ts : List Nat) (m : InfoMap) (n : Nat),
      (m n).isSome → ((initTops d ts m) n).isSome := by
  intro ts
  induction ts with
  | nil =>
    intro m n h
    exact h
  | cons t ts ih =>
    intro m n h
    simp only [initTops]
    apply ih
    by_cases hnt : n = t
    · subst hnt
      rw [setInfo_self]
      rfl
    · rw [setInfo_ne _ _ _ _ hnt, ensureInfo_ne _ _ _ hnt]
      exact h

theorem initTops_mem (d : Design) :
    ∀ (ts : List Nat) (m : InfoMap) (n : Nat),
      n ∈ ts → ((initTops d ts m) n).isSome := by
  intro ts
  induction ts with
  | nil =>
    intro m n h
    cases h
  | cons t ts ih =>
    intro m n h
    simp only [initTops]
    rcases List.mem_cons.mp h with h1 | h1
    · subst h1
      apply initTops_mono
      rw [setInfo_self]
      rfl
    · exact ih _ n h1

theorem initTops_depth (d : Design) :
    ∀ (ts : List Nat) (m : InfoMap) (n : Nat),
      (infoD (initTops d ts m) n).depth = (infoD m n).depth := by
  intro ts
  induction ts with
  | nil =>
    intro m n
    rfl
  | cons t ts ih =>
    intro m n
    simp only [initTops]
    rw [ih]
    by_cases hnt : n = t
    · subst hnt
      rw [infoD_of_some _ _ _ (setInfo_self _ _ _)]
      show (infoD (ensureInfo m n) n).depth = (infoD m n).depth
      rw [infoD_ensure]
    · rw [infoD_congr _ (ensureInfo m t) n (setInfo_ne _ _ _ _ hnt),
        infoD_ensure]

theorem initTops_more (d : Design) :
    ∀ (ts : List Nat) (m : InfoMap) (n : Nat),
      (infoD (initTops d ts m) n).more_idx = (infoD m n).more_idx := by
  intro ts
  induction ts with
  | nil =>
    intro m n
    rfl
  | cons t ts ih =>
    intro m n
    simp only [initTops]
    rw [ih]
    by_cases hnt : n = t
    · subst hnt
      rw [infoD_of_some _ _ _ (setInfo_self _ _ _)]
      show (infoD (ensureInfo m n) n).more_idx = (infoD m n).more_idx
      rw [infoD_ensure]
    · rw [infoD_congr _ (ensureInfo m t) n (setInfo_ne _ _ _ _ hnt),
        infoD_ensure]

theorem initTops_expOK (d : Design) :
    ∀ (ts : List Nat) (m : InfoMap),
      (∀ n i, m n = some i → i.expandable = is_expandable d n) →
      ∀ n i, initTops d ts m n = some i → i.expandable = is_expandable d n := by
  intro ts
  induction ts with
  | nil =>
    intro m hm
    exact hm
  | cons t ts ih =>
    intro m hm
    apply ih
    intro n i hn
    by_cases hnt : n = t
    · subst hnt
      rw [setInfo_self] at hn
      cases hn
      rfl
    · rw [setInfo_ne _ _ _ _ hnt, ensureInfo_ne _ _ _ hnt] at hn
      exact hm n i hn

theorem initTops_dom (d : Design) (ts : List Nat) (n : Nat)
    (h : ((initTops d ts (fun _ => none)) n).isSome) : n ∈ ts := by
  by_contra hn
  rw [initTops_not_mem d ts _ n hn] at h
  cases h

/-- The constructor produces a well-formed state. -/
theorem mkHierarchy_WF (d : Design) (k fuel winH winW : Nat) (hT : TreeLike d)
    (hk : 1 ≤ k) (hf : 1 ≤ fuel) :
    WF d (mkHierarchy d k fuel winH winW) := by
  have hdom : ∀ n, ((initTops d d.tops (fun _ => none)) n).isSome →
      n ∈ d.tops := fun n h => initTops_dom d d.tops n h
  have hdep0 : ∀ n, (infoD (initTops d d.tops (fun _ => none)) n).depth = 0 := by
    intro n
    rw [initTops_depth]
    rfl
  have hmore0 : ∀ n,
      (infoD (initTops d d.tops (fun _ => none)) n).more_idx = 0 := by
    intro n
    rw [initTops_more]
    rfl
  have hexpd0 : ∀ n i, initTops d d.tops (fun _ => none) n = some i →
      i.expanded = false :=
    initTops_expanded_false d d.tops (fun _ => none) (fun n i h => by cases h)
  have hexpok : ∀ n i, initTops d d.tops (fun _ => none) n = some i →
      i.expandable = is_expandable d n :=
    initTops_expOK d d.tops (fun _ => none) (fun n i h => by cases h)
  have hmap : MapWF d (initTops d d.tops (fun _ => none)) := by
    refine ⟨?_, ?_, ?_, ?_, ?_, ?_⟩
    · intro p c hp hc hcsub
      exact absurd hcsub (hT.topsNotSub c p (hdom c hc))
    · intro c hc
      exact Or.inl (hdom c hc)
    · intro c i hc hmi
      exfalso
      apply hmi
      rw [← infoD_of_some _ _ _ hc]
      exact hmore0 c
    · intro p hp
      refine ⟨0, Nat.zero_le _, ?_, ?_, ?_, Or.inr (Or.inl rfl)⟩
      · intro j c hj _
        omega
      · intro j c _ hjg
        cases hmc : initTops d d.tops (fun _ => none) c with
        | none => rfl
        | some w =>
          exfalso
          have hct : c ∈ d.tops := hdom c (by rw [hmc]; rfl)
          exact hT.topsNotSub c p hct (List.get?_mem hjg)
      · intro j c i hjg hc hmi
        exfalso
        have hct : c ∈ d.tops := hdom c (by rw [hc]; rfl)
        exact hT.topsNotSub c p hct (List.get?_mem hjg)
    · intro p i hp hpe
      rw [hexpd0 p i hp] at hpe
      cases hpe
    · exact hexpok
  have hWF0 : WF d
      { entries := stableSortBy (top_sorter d) d.tops
        info := initTops d d.tops (fun _ => none)
        line_idx := 0
        scroll_row := 0
        ui_col_scroll := 0
        ui_max_col_scroll := 0
        search_text := ""
        search_preview := false
        search_start_col := -1
        win_h := winH
        win_w := winW
        load_instance := false
        load_definition := false } := by
    refine ⟨?_, ?_, hmap⟩
    · intro e he
      replace he : e ∈ stableSortBy (top_sorter d) d.tops := he
      exact initTops_mem d d.tops _ e
        ((stableSortBy_perm (top_sorter d) d.tops).subset he)
    · show List.Chain' _ (stableSortBy (top_sorter d) d.tops)
      rw [List.chain'_iff_get]
      intro i hi
      rw [hdep0, hdep0]
      omega
  show WF d (mkHierarchy d k fuel winH winW)
  unfold mkHierarchy
  simp only []
  by_cases hlen : (stableSortBy (top_sorter d) d.tops).length = 1
  · rw [if_pos hlen]
    exact toggle_WF d k fuel _ hT hk hf hWF0
  · rw [if_neg hlen]
    exact hWF0

theorem setLine_WF (d : Design) (st : Hier) (i : Nat) (h : WF d st) :
    WF d (setLine st i) := ⟨h.entriesInfo, h.adj, h.map⟩

/-- Every reachable state is well-formed. -/
theorem reach_WF (d : Design) (k : Nat) (st : Hier) (hT : TreeLike d)
    (hk : 1 ≤ k) (hR : Reach d k st) : WF d st := by
  induction hR with
  | init fuel winH winW hf => exact mkHierarchy_WF d k fuel winH winW hT hk hf
  | select st i hi hR ih => exact setLine_WF d st i ih
  | toggle st fuel hf hR ih => exact toggle_WF d k fuel st hT hk hf ih

/-! ## Stability of cached entries under ToggleExpand -/

/-- On a well-formed state, every cached entry survives `ToggleExpand` with
its depth and expandability intact. -/
theorem toggle_stable (d : Design) (k fuel : Nat) (st : Hier)
    (hT : TreeLike d) (hk : 1 ≤ k) (hWF : WF d st)
    (n : Nat) (v : NodeInfo) (hv : st.info n = some v) :
    ∃ v2, (toggleExpand d k fuel st).info n = some v2 ∧
      v2.depth = v.depth ∧ v2.expandable = v.expandable := by
  by_cases hE : st.entries.isEmpty
  · refine ⟨v, ?_, rfl, rfl⟩
    unfold toggleExpand
    rw [if_pos hE]
    exact hv
  by_cases hl : st.line_idx < st.entries.length
  case neg =>
    refine ⟨v, ?_, rfl, rfl⟩
    unfold toggleExpand
    rw [if_neg hE, dif_neg hl]
    exact hv
  case pos =>
    obtain ⟨i0, hi0⟩ := Option.isSome_iff_exists.mp
      (hWF.entriesInfo _ (List.get_mem st.entries st.line_idx hl))
    set nd := st.entries.get ⟨st.line_idx, hl⟩ with hnd
    by_cases hmore : i0.more_idx ≠ 0
    · obtain ⟨hparI, hndidx⟩ := hWF.map.morePar nd i0 hi0 hmore
      obtain ⟨mm, hmmle, hpre, hfreshp, hflagp, hlastp⟩ :=
        hWF.map.pag i0.parent hparI
      obtain ⟨hmm_eq, _, hmore_ge⟩ := hflagp i0.more_idx nd i0 hndidx hi0 hmore
      have hndI : (st.info nd).isSome := by rw [hi0]; rfl
      have hfreshL : ∀ c ∈ (get_subs d i0.parent).drop (i0.more_idx + 1),
          st.info c = none ∧ c ≠ nd := by
        intro c hc
        obtain ⟨⟨jj, hjj⟩, hg⟩ := List.mem_iff_get.mp hc
        have hgq : (get_subs d i0.parent).get? (i0.more_idx + 1 + jj) =
            some c := by
          rw [← List.get?_drop, List.get?_eq_get hjj, hg]
        have hcn : st.info c = none :=
          hfreshp (i0.more_idx + 1 + jj) c (by omega) hgq
        refine ⟨hcn, ?_⟩
        intro h
        rw [h] at hcn
        rw [hcn] at hndI
        cases hndI
      have hLnd : ((get_subs d i0.parent).drop (i0.more_idx + 1)).Nodup :=
        (hT.subsNodup i0.parent).sublist (List.drop_sublist _ _)
      obtain ⟨v2, hv2, he2, hd2, hx2⟩ := toggle_more_preserves d k fuel st hl
        nd hnd.symm i0 hi0 hmore hfreshL hLnd n v hv
      exact ⟨v2, hv2, hd2, hx2⟩
    · have hm0 : i0.more_idx = 0 := by omega
      by_cases hexp : i0.expandable = true
      · by_cases hexpd : i0.expanded = true
        · obtain ⟨hcs2, _, _⟩ := collapseScan_spec i0.depth
            (st.entries.drop (st.line_idx + 1)) st.info
            (fun e he => hWF.entriesInfo e (List.drop_subset _ _ he))
          rw [toggleExpand_collapse_eq d k fuel st hl nd hnd.symm i0 hi0 hm0
            hexp hexpd]
          rw [hcs2]
          show ∃ v2, setInfo st.info nd
            { infoD st.info nd with expanded := false } n = some v2 ∧ _ ∧ _
          by_cases hn : n = nd
          · rw [hn] at hv ⊢
            have hvv : infoD st.info nd = v := infoD_of_some _ _ _ hv
            refine ⟨{ infoD st.info nd with expanded := false },
              setInfo_self _ _ _, ?_, ?_⟩
            · show (infoD st.info nd).depth = v.depth
              rw [hvv]
            · show (infoD st.info nd).expandable = v.expandable
              rw [hvv]
          · refine ⟨v, ?_, rfl, rfl⟩
            rw [setInfo_ne _ _ _ _ hn]
            exact hv
        · obtain ⟨P2, _, _, _, _, _, _, _⟩ := recAddSubs_spec d k hT hk fuel
            nd st.info hWF.map (by rw [hi0]; rfl)
          rw [toggleExpand_expand_eq d k fuel st hl nd hnd.symm i0 hi0 hm0
            hexp (by simpa using hexpd)]
          show ∃ v2, setInfo (recAddSubs d k fuel nd st.info).2 nd
            { infoD (recAddSubs d k fuel nd st.info).2 nd with
              expanded := true } n = some v2 ∧ _ ∧ _
          have hRn : (recAddSubs d k fuel nd st.info).2 n = some v := by
            rw [P2 n (by rw [hv]; rfl)]
            exact hv
          by_cases hn : n = nd
          · rw [hn] at hRn ⊢
            have hvv : infoD (recAddSubs d k fuel nd st.info).2 nd = v :=
              infoD_of_some _ _ _ hRn
            refine ⟨{ infoD (recAddSubs d k fuel nd st.info).2 nd with
              expanded := true }, setInfo_self _ _ _, ?_, ?_⟩
            · show (infoD (recAddSubs d k fuel nd st.info).2 nd).depth = v.depth
              rw [hvv]
            · show (infoD (recAddSubs d k fuel nd st.info).2 nd).expandable =
                v.expandable
              rw [hvv]
          · refine ⟨v, ?_, rfl, rfl⟩
            rw [setInfo_ne _ _ _ _ hn]
            exact hRn
      · refine ⟨v, ?_, rfl, rfl⟩
        rw [toggleExpand_noexp_eq d k fuel st hl nd hnd.symm i0 hi0 hm0
          (by simpa using hexp)]
        exact hv

/-! ## Concrete designs are tree-like -/

theorem dFan_subs_ne (N n : Nat) (h : n ≠ 0) : get_subs (dFan N) n = [] := by
  have hnode : (dFan N).node n = leafNode n := by
    show (if n = 0 then _ else leafNode n) = leafNode n
    rw [if_neg h]
  unfold get_subs
  rw [hnode]
  rfl

theorem treeLike_dFan2 : TreeLike (dFan 2) := by
  have h0 : get_subs (dFan 2) 0 = [1, 2] := by decide
  have hne : ∀ n, n ≠ 0 → get_subs (dFan 2) n = [] := fun n h =>
    dFan_subs_ne 2 n h
  refine ⟨?_, ?_, ?_⟩
  · intro p q c hp hq
    by_cases hp0 : p = 0
    · by_cases hq0 : q = 0
      · rw [hp0, hq0]
      · rw [hne q hq0] at hq
        cases hq
    · rw [hne p hp0] at hp
      cases hp
  · intro p
    by_cases hp0 : p = 0
    · rw [hp0, h0]
      decide
    · rw [hne p hp0]
      exact List.nodup_nil
  · intro c p hc
    have hc' : c ∈ [0] := hc
    have hc0 : c = 0 := by
      cases hc' with
      | head => rfl
      | tail _ h => cases h
    subst hc0
    intro hmem
    by_cases hp0 : p = 0
    · rw [hp0, h0] at hmem
      simp at hmem
    · rw [hne p hp0] at hmem
      cases hmem

theorem dPair_subs_ne (n : Nat) (h0 : n ≠ 0) : get_subs dPair n = [] := by
  by_cases h5 : n = 5
  · subst h5
    decide
  · have hnode : dPair.node n = leafNode n := by
      show (if n = 0 then _ else if n = 5 then _ else leafNode n) = leafNode n
      rw [if_neg h0, if_neg h5]
    unfold get_subs
    rw [hnode]
    rfl

theorem treeLike_dPair : TreeLike dPair := by
  have h0 : get_subs dPair 0 = [1, 2] := by decide
  refine ⟨?_, ?_, ?_⟩
  · intro p q c hp hq
    by_cases hp0 : p = 0
    · by_cases hq0 : q = 0
      · rw [hp0, hq0]
      · rw [dPair_subs_ne q hq0] at hq
        cases hq
    · rw [dPair_subs_ne p hp0] at hp
      cases hp
  · intro p
    by_cases hp0 : p = 0
    · rw [hp0, h0]
      decide
    · rw [dPair_subs_ne p hp0]
      exact List.nodup_nil
  · intro c p hc
    have hc' : c ∈ [0, 5] := hc
    intro hmem
    by_cases hp0 : p = 0
    · rw [hp0, h0] at hmem
      have hm' : c = 1 ∨ c = 2 := by
        cases hmem with
        | head => exact Or.inl rfl
        | tail _ h =>
          cases h with
          | head => exact Or.inr rfl
          | tail _ h2 => cases h2
      have hc2 : c = 0 ∨ c = 5 := by
        cases hc' with
        | head => exact Or.inl rfl
        | tail _ h =>
          cases h with
          | head => exact Or.inr rfl
          | tail _ h2 => cases h2
      rcases hm' with h | h <;> rcases hc2 with h2 | h2 <;> omega
    · rw [dPair_subs_ne p hp0] at hmem
      cases hmem

/-! ## C3: the depth-adjacency invariant -/

/-- C3: after every operation the claims concern (construction, select,
expand, collapse, pagination resume), adjacent rows of the Visible List
satisfy the depth-adjacency invariant: the depth of row `i + 1` never
exceeds the depth of row `i` plus one. -/
theorem depth_adjacency (d : Design) (k : Nat) (st : Hier) (hT : TreeLike d)
    (hk : 1 ≤ k) (hR : Reach d k st) :
    ∀ i (h1 : i + 1 < st.entries.length),
      (infoD st.info (st.entries.get ⟨i + 1, h1⟩)).depth ≤
        (infoD st.info (st.entries.get ⟨i, Nat.lt_of_succ_lt h1⟩)).depth + 1 := by
  have hWF := reach_WF d k st hT hk hR
  have hadj : List.Chain'
      (fun a b => (infoD st.info b).depth ≤ (infoD st.info a).depth + 1)
      st.entries := hWF.adj
  rw [List.chain'_iff_get] at hadj
  intro i h1
  exact hadj i (by omega)

/-- Witness for `depth_adjacency`: the constructed browser over the fan
design with two children (whose single root is pre-expanded) satisfies the
invariant at the first adjacent pair. -/
theorem depth_adjacency_witness :
    (0 + 1 < (mkHierarchy (dFan 2) 1 1 20 80).entries.length) ∧
    (infoD (mkHierarchy (dFan 2) 1 1 20 80).info
        ((mkHierarchy (dFan 2) 1 1 20 80).entries.get ⟨0 + 1, by decide⟩)).depth ≤
      (infoD (mkHierarchy (dFan 2) 1 1 20 80).info
        ((mkHierarchy (dFan 2) 1 1 20 80).entries.get ⟨0, by decide⟩)).depth + 1 :=
  ⟨by decide, depth_adjacency (dFan 2) 1 _ treeLike_dFan2 (by decide)
    (@Reach.init (dFan 2) 1 1 20 80 (by decide)) 0 (by decide)⟩

/-! ## C6: cached node info is stable -/

/-- C6: the cache holds at most one entry per node (it is a map), looking
up an already-materialized node leaves the cache unchanged instead of
reinitializing the entry, and on every reachable state a toggle operation
(expand, collapse, pagination resume, re-expand) preserves the `depth` and
`expandable` fields of every existing entry. -/
theorem info_entry_stable (d : Design) (k fuel : Nat) (st : Hier)
    (hT : TreeLike d) (hk : 1 ≤ k) (hR : Reach d k st)
    (n : Nat) (v : NodeInfo) (hv : st.info n = some v) :
    ensureInfo st.info n = st.info ∧
    ∃ v2, (toggleExpand d k fuel st).info n = some v2 ∧
      v2.depth = v.depth ∧ v2.expandable = v.expandable := by
  have hWF := reach_WF d k st hT hk hR
  refine ⟨ensureInfo_of_isSome st.info n (by rw [hv]; rfl), ?_⟩
  exact toggle_stable d k fuel st hT hk hWF n v hv

/-- Witness for `info_entry_stable`: in the constructed fan browser, the
pre-expanded root keeps its depth `0` and expandability across a further
toggle (which collapses it). -/
theorem info_entry_stable_witness :
    ((mkHierarchy (dFan 2) 1 1 20 80).info 0 =
      some { depth := 0, expandable := true, expanded := true, more_idx := 0, parent := 0 }) ∧
    (ensureInfo (mkHierarchy (dFan 2) 1 1 20 80).info 0 =
      (mkHierarchy (dFan 2) 1 1 20 80).info ∧
    ∃ v2, (toggleExpand (dFan 2) 1 1 (mkHierarchy (dFan 2) 1 1 20 80)).info 0 =
        some v2 ∧
      v2.depth = ({ depth := 0, expandable := true, expanded := true, more_idx := 0, parent := 0 } : NodeInfo).depth ∧
      v2.expandable = ({ depth := 0, expandable := true, expanded := true, more_idx := 0, parent := 0 } : NodeInfo).expandable) :=
  ⟨by decide, info_entry_stable (dFan 2) 1 1 _ treeLike_dFan2 (by decide)
    (@Reach.init (dFan 2) 1 1 20 80 (by decide)) 0
    { depth := 0, expandable := true, expanded := true, more_idx := 0, parent := 0 }
    (by decide)⟩

/-! ## C2: expand followed by collapse restores the Visible List -/

/-- C2 (with the flattening invariant): toggling an expandable row that is
shown collapsed, and toggling it again, restores the Visible List to
byte-identical content.  The hypothesis `hnext` is the flattening
invariant for a collapsed row: the row below it (if any) is not part of
its subtree, i.e. not deeper than it. -/
theorem expand_collapse_roundtrip (d : Design) (k fuel : Nat) (st : Hier)
    (hT : TreeLike d) (hk : 1 ≤ k) (hf : 1 ≤ fuel) (hWF : WF d st)
    (hl : st.line_idx < st.entries.length)
    (nd : Nat) (hnd : st.entries.get ⟨st.line_idx, hl⟩ = nd)
    (i0 : NodeInfo) (hi0 : st.info nd = some i0) (hm0 : i0.more_idx = 0)
    (hexp : i0.expandable = true) (hexpd : i0.expanded = false)
    (hnext : ∀ f, (st.entries.drop (st.line_idx + 1)).head? = some f →
      (infoD st.info f).depth ≤ i0.depth) :
    (toggleExpand d k fuel (toggleExpand d k fuel st)).entries =
      st.entries := by
  have hndI : (st.info nd).isSome := by rw [hi0]; rfl
  have hinfoD : infoD st.info nd = i0 := infoD_of_some _ _ _ hi0
  obtain ⟨P2, P7, P1, P3, P4, P6, P5, P8⟩ :=
    recAddSubs_spec d k hT hk fuel nd st.info hWF.map hndI
  rw [toggleExpand_expand_eq d k fuel st hl nd hnd i0 hi0 hm0 hexp hexpd]
  set R1 := (recAddSubs d k fuel nd st.info).1 with hR1d
  set R2 := (recAddSubs d k fuel nd st.info).2 with hR2d
  set v1 : NodeInfo := { infoD R2 nd with expanded := true } with hv1
  set m1 := setInfo R2 nd v1 with hm1
  set E1 := spliceAfter st.entries st.line_idx R1 with hE1
  have hRnd : R2 nd = st.info nd := P2 nd hndI
  have hRndI : (R2 nd).isSome := by
    rw [hRnd]
    exact hndI
  have hiR : infoD R2 nd = i0 := by
    rw [infoD_congr R2 st.info nd hRnd, hinfoD]
  have hv1val : v1 = { i0 with expanded := true } := by
    rw [hv1, hiR]
  have hndR1 : nd ∉ R1 := by
    intro hmem
    have h4 := P4 nd hmem
    rw [hiR, hinfoD] at h4
    omega
  have hm1stat : ∀ x, (m1 x).isSome = (R2 x).isSome :=
    setInfo_isSome R2 nd v1 hRndI
  have hlen1 : st.line_idx < E1.length := by
    have h1 : E1.length = (st.entries.take (st.line_idx + 1)).length +
        R1.length + (st.entries.drop (st.line_idx + 1)).length := by
      rw [hE1]
      show (st.entries.take (st.line_idx + 1) ++ R1 ++
        st.entries.drop (st.line_idx + 1)).length = _
      rw [List.length_append, List.length_append]
    rw [h1, List.length_take, List.length_drop]
    omega
  have hget1 : E1.get ⟨st.line_idx, hlen1⟩ = nd := by
    have hq : E1.get? st.line_idx = some nd := by
      rw [hE1]
      show (st.entries.take (st.line_idx + 1) ++ R1 ++
        st.entries.drop (st.line_idx + 1)).get? st.line_idx = some nd
      rw [List.append_assoc]
      rw [List.get?_append (by rw [List.length_take]; omega)]
      rw [List.get?_take (Nat.lt_succ_self _), List.get?_eq_get hl, hnd]
    rw [List.get?_eq_get hlen1] at hq
    exact Option.some.inj hq
  have hm1nd : m1 nd = some { i0 with expanded := true } := by
    rw [hm1, setInfo_self, hv1val]
  have hdropE1 : E1.drop (st.line_idx + 1) =
      R1 ++ st.entries.drop (st.line_idx + 1) := by
    rw [hE1]
    show (st.entries.take (st.line_idx + 1) ++ R1 ++
      st.entries.drop (st.line_idx + 1)).drop (st.line_idx + 1) = _
    rw [List.append_assoc]
    have hA : (st.entries.take (st.line_idx + 1)).length = st.line_idx + 1 := by
      rw [List.length_take]
      omega
    nth_rewrite 1 [← hA]
    rw [List.drop_left]
  have hcount : collapseScan ({ i0 with expanded := true } : NodeInfo).depth
      (E1.drop (st.line_idx + 1)) m1 = (R1.length, m1) := by
    rw [hdropE1]
    apply collapseScan_count
    · intro e he
      rw [hm1stat e]
      rcases List.mem_append.mp he with h | h
      · exact P3 e h
      · have hx := hWF.entriesInfo e (List.drop_subset _ _ h)
        rw [P2 e hx]
        exact hx
    · intro i c hi hc
      rw [List.get?_append (by omega)] at hc
      have hcR : c ∈ R1 := List.get?_mem hc
      have hcnd : c ≠ nd := fun h => hndR1 (by rw [← h]; exact hcR)
      have h4 := P4 c hcR
      rw [hinfoD] at h4
      show ({ i0 with expanded := true } : NodeInfo).depth <
        (infoD m1 c).depth
      rw [infoD_congr m1 R2 c (by rw [hm1, setInfo_ne _ _ _ _ hcnd])]
      show i0.depth < (infoD R2 c).depth
      omega
    · intro c hc
      rw [List.get?_append_right (Nat.le_refl _)] at hc
      rw [Nat.sub_self, List.get?_zero] at hc
      show (infoD m1 c).depth ≤ ({ i0 with expanded := true } : NodeInfo).depth
      show (infoD m1 c).depth ≤ i0.depth
      by_cases hcnd : c = nd
      · rw [hcnd, infoD_of_some _ _ _ (by rw [hm1]; exact setInfo_self _ _ _)]
        show v1.depth ≤ i0.depth
        rw [hv1val]
      · have hcI : (st.info c).isSome :=
          hWF.entriesInfo c (List.drop_subset _ _ (List.mem_of_mem_head?
            (Option.mem_def.mpr hc)))
        rw [infoD_congr m1 R2 c (by rw [hm1, setInfo_ne _ _ _ _ hcnd]),
          infoD_congr R2 st.info c (P2 c hcI)]
        exact hnext c hc
    · rw [List.length_append]
      omega
  set st1 : Hier :=
    { st with
      entries := E1
      info := m1
      scroll_row :=
        if (st.line_idx : Int) - st.scroll_row = (st.win_h : Int) - 1 then
          st.scroll_row +
            min ((E1.length : Int) - st.scroll_row - (st.win_h : Int))
              ((st.win_h : Int) / 3)
        else st.scroll_row } with hst1
  have hst1e : st1.entries = E1 := by rw [hst1]
  have hst1i : st1.info = m1 := by rw [hst1]
  have hst1l : st1.line_idx = st.line_idx := by rw [hst1]
  have hlen1' : st1.line_idx < st1.entries.length := by
    rw [hst1l, hst1e]
    exact hlen1
  have hget1' : st1.entries.get ⟨st1.line_idx, hlen1'⟩ = nd := hget1
  have hm1nd' : st1.info nd = some { i0 with expanded := true } := hm1nd
  rw [toggleExpand_collapse_eq d k fuel st1 hlen1' nd hget1'
    ({ i0 with expanded := true }) hm1nd' hm0 hexp rfl]
  show st1.entries.take (st1.line_idx + 1) ++
    st1.entries.drop (st1.line_idx + 1 +
      (collapseScan ({ i0 with expanded := true } : NodeInfo).depth
        (st1.entries.drop (st1.line_idx + 1)) st1.info).1) = st.entries
  rw [hst1e, hst1i, hst1l, hcount]
  show E1.take (st.line_idx + 1) ++
    E1.drop (st.line_idx + 1 + R1.length) = st.entries
  have htakeE1 : E1.take (st.line_idx + 1) =
      st.entries.take (st.line_idx + 1) := by
    rw [hE1]
    show (st.entries.take (st.line_idx + 1) ++ R1 ++
      st.entries.drop (st.line_idx + 1)).take (st.line_idx + 1) = _
    rw [List.append_assoc]
    have hA : (st.entries.take (st.line_idx + 1)).length = st.line_idx + 1 := by
      rw [List.length_take]
      omega
    nth_rewrite 1 [← hA]
    rw [List.take_left]
  have hdrop2 : E1.drop (st.line_idx + 1 + R1.length) =
      st.entries.drop (st.line_idx + 1) := by
    rw [hE1]
    show (st.entries.take (st.line_idx + 1) ++ R1 ++
      st.entries.drop (st.line_idx + 1)).drop (st.line_idx + 1 + R1.length) = _
    have hA : (st.entries.take (st.line_idx + 1) ++ R1).length =
        st.line_idx + 1 + R1.length := by
      rw [List.length_append, List.length_take]
      omega
    rw [← hA, List.drop_left]
  rw [htakeE1, hdrop2]
  exact List.take_append_drop _ _

/-- Witness for `expand_collapse_roundtrip`: over the two-root design, the
collapsed expandable first root expands and collapses back, restoring the
Visible List `[0, 5]`. -/
theorem expand_collapse_roundtrip_witness :
    ((mkHierarchy dPair 1 1 20 80).entries = [0, 5] ∧
      (mkHierarchy dPair 1 1 20 80).info 0 =
        some { depth := 0, expandable := true, expanded := false, more_idx := 0, parent := 0 }) ∧
    (toggleExpand dPair 1 1 (toggleExpand dPair 1 1
        (mkHierarchy dPair 1 1 20 80))).entries =
      (mkHierarchy dPair 1 1 20 80).entries :=
  ⟨⟨by decide, by decide⟩,
    expand_collapse_roundtrip dPair 1 1 (mkHierarchy dPair 1 1 20 80)
      treeLike_dPair (by decide) (by decide)
      (reach_WF dPair 1 _ treeLike_dPair (by decide)
        (@Reach.init dPair 1 1 20 80 (by decide)))
      (by decide) 0 (by decide)
      { depth := 0, expandable := true, expanded := false, more_idx := 0, parent := 0 }
      (by decide) (by decide) (by decide) (by decide)
      (by
        intro f hf
        have h5 : (5 : Nat) = f := by
          have hdrop : (mkHierarchy dPair 1 1 20 80).entries.drop
              ((mkHierarchy dPair 1 1 20 80).line_idx + 1) = [5] := by decide
          rw [hdrop] at hf
          exact Option.some.inj hf
        rw [← h5]
        decide)⟩

/-! ## C1: pagination at the source limit, via the loop lemmas -/

theorem range'_take (s m n : Nat) (h : m ≤ n) :
    (List.range' s n).take m = List.range' s m := by
  have hsplit : List.range' s n = List.range' s m ++ List.range' (s + m) (n - m) := by
    have happ := List.range'_append_1 s m (n - m)
    rw [show n - m + m = n from by omega] at happ
    exact happ.symm
  rw [hsplit]
  have hlen : (List.range' s m).length = m := by simp
  nth_rewrite 1 [← hlen]
  rw [List.take_left]

theorem range'_drop (s m n : Nat) (h : m ≤ n) :
    (List.range' s n).drop m = List.range' (s + m) (n - m) := by
  have hsplit : List.range' s n = List.range' s m ++ List.range' (s + m) (n - m) := by
    have happ := List.range'_append_1 s m (n - m)
    rw [show n - m + m = n from by omega] at happ
    exact happ.symm
  rw [hsplit]
  have hlen : (List.range' s m).length = m := by simp
  nth_rewrite 1 [← hlen]
  rw [List.drop_left]

theorem range'_get? (s n i : Nat) (h : i < n) :
    (List.range' s n).get? i = some (s + i) := by
  rw [List.get?_range' s 1 h]
  exact congrArg some (by omega)

theorem stInsert_head_false (lt : α → α → Bool) (x y : α) (ys : List α)
    (h : lt y x = false) : stInsert lt x (y :: ys) = x :: y :: ys := by
  unfold stInsert
  rw [h]
  rfl

/-- The stable insertion sort is the identity on a list whose adjacent
elements are already in order. -/
theorem stableSortBy_chain_id (lt : α → α → Bool) :
    ∀ l : List α, List.Chain' (fun a b => lt b a = false) l →
      stableSortBy lt l = l := by
  intro l
  induction l with
  | nil =>
    intro _
    rfl
  | cons x xs ih =>
    intro hc
    show stInsert lt x (stableSortBy lt xs) = x :: xs
    rw [ih hc.tail]
    cases xs with
    | nil => rfl
    | cons y ys =>
      exact stInsert_head_false lt x y ys (List.chain'_cons.mp hc).1

theorem chain'_range' (R : Nat → Nat → Prop) :
    ∀ (n s : Nat), (∀ i, s ≤ i → R i (i + 1)) →
      List.Chain' R (List.range' s n) := by
  intro n
  induction n with
  | zero =>
    intro s _
    exact List.chain'_nil
  | succ n ih =>
    intro s h
    rw [List.range'_succ]
    cases n with
    | zero => exact List.chain'_singleton _
    | succ m =>
      rw [List.range'_succ]
      refine List.chain'_cons.mpr ⟨h s (Nat.le_refl s), ?_⟩
      rw [← List.range'_succ]
      exact ih (s + 1) (fun i hi => h i (by omega))

theorem dFan_node_ne (N n : Nat) (h : n ≠ 0) : (dFan N).node n = leafNode n := by
  show (if n = 0 then _ else leafNode n) = leafNode n
  rw [if_neg h]

theorem dFan_lineLt_false (N a : Nat) (ha : 1 ≤ a) :
    lineLt (dFan N) (a + 1) a = false := by
  unfold lineLt
  rw [dFan_node_ne N (a + 1) (by omega), dFan_node_ne N a (by omega)]
  show decide (a + 1 < a) = false
  exact decide_eq_false (by omega)

/-- The fan root's child list is the children in source order: they carry
ascending line numbers, so the stable sort leaves them alone. -/
theorem dFan_subs0 (N : Nat) : get_subs (dFan N) 0 = List.range' 1 N := by
  have h1 : get_subs (dFan N) 0 =
      stableSortBy (lineLt (dFan N)) (List.range' 1 N ++ [] ++ []) := rfl
  rw [h1, List.append_nil, List.append_nil]
  apply stableSortBy_chain_id
  apply chain'_range'
  intro i hi
  exact dFan_lineLt_false N i hi

theorem dFan_noexp (N n : Nat) (h : n ≠ 0) : is_expandable (dFan N) n = false := by
  unfold is_expandable
  rw [dFan_subs_ne N n h]
  rfl

/-- Clearing the placeholder's pagination cursor turns the fan cache with
flag `f` on child `B` into the unflagged one. -/
theorem fanClear (B f : Nat) (hB : 1 ≤ B) (st : Hier)
    (hi : st.info = fanInfo B f) :
    setInfo st.info B
      { depth := 1, expandable := false, expanded := false, more_idx := 0, parent := 0 }
      = fanInfo B 0 := by
  funext n
  by_cases hn : n = B
  · rw [hn, setInfo_self]
    unfold fanInfo
    rw [if_neg (by omega), if_pos (Nat.le_refl B), if_pos rfl]
  · rw [setInfo_ne _ _ _ _ hn, hi]
    unfold fanInfo
    by_cases hn0 : n = 0
    · rw [if_pos hn0, if_pos hn0]
    · rw [if_neg hn0, if_neg hn0]
      by_cases hnB : n ≤ B
      · rw [if_pos hnB, if_pos hnB, if_neg hn, if_neg hn]
      · rw [if_neg hnB, if_neg hnB]

/-- Extending the materialized prefix of the fan cache preserves every
entry's `expanded`, `depth` and `expandable` fields. -/
theorem fanInfo_mono (B1 f1 B2 f2 : Nat) (h : B1 ≤ B2) :
    ∀ n i, fanInfo B1 f1 n = some i →
      ∃ i2, fanInfo B2 f2 n = some i2 ∧ i2.expanded = i.expanded ∧
        i2.depth = i.depth ∧ i2.expandable = i.expandable := by
  intro n i hn
  unfold fanInfo at hn ⊢
  by_cases hn0 : n = 0
  · rw [if_pos hn0] at hn ⊢
    refine ⟨_, rfl, ?_, ?_, ?_⟩
    · rw [← Option.some.inj hn]
    · rw [← Option.some.inj hn]
    · rw [← Option.some.inj hn]
  · rw [if_neg hn0] at hn ⊢
    by_cases hnB : n ≤ B1
    · rw [if_pos hnB] at hn
      rw [if_pos (by omega)]
      refine ⟨_, rfl, ?_, ?_, ?_⟩
      · rw [← Option.some.inj hn]
      · rw [← Option.some.inj hn]
      · rw [← Option.some.inj hn]
    · rw [if_neg hnB] at hn
      cases hn

/-- Expanding the collapsed fan root materializes children `1 … 101`, the
last one flagged as the pagination placeholder. -/
theorem fanExpand :
    stPag1.entries = 0 :: List.range' 1 101 ∧
    stPag1.info = fanInfo 101 100 ∧
    stPag1.line_idx = 0 := by
  have hl : stFan.line_idx < stFan.entries.length := by decide
  have hget : stFan.entries.get ⟨stFan.line_idx, hl⟩ = 0 := rfl
  have hi0 : stFan.info 0 = some { depth := 0, expandable := true } := rfl
  have hsubs : get_subs (dFan 301) 0 = List.range' 1 301 := dFan_subs0 301
  have hfresh : ∀ c ∈ get_subs (dFan 301) 0, stFan.info c = none := by
    rw [hsubs]
    intro c hc
    have hcb := List.mem_range'_1.mp hc
    show (if c = 0 then some ({ depth := 0, expandable := true } : NodeInfo) else none) = none
    rw [if_neg (by omega)]
  have hnd : (get_subs (dFan 301) 0).Nodup := by
    rw [hsubs]
    exact List.nodup_range' 1 301
  obtain ⟨ho, hu, hv⟩ := expLoop_fresh (dFan 301) 100
    (recAddSubs (dFan 301) 100 0) 0 (get_subs (dFan 301) 0) 0 stFan.info
    (by omega) (Nat.zero_le _) hfresh hnd (by rw [hi0]; rfl)
  simp only [Nat.sub_zero] at ho hu
  simp only [Nat.sub_zero, Nat.zero_add] at hv
  have hR1 : stPag1 = toggleExpand (dFan 301) 100 1 stFan := rfl
  rw [hR1, toggleExpand_expand_eq (dFan 301) 100 1 stFan hl 0 hget
    ({ depth := 0, expandable := true }) hi0 rfl rfl rfl]
  have hE : recAddSubs (dFan 301) 100 1 0 stFan.info =
      expLoop (dFan 301) 100 (recAddSubs (dFan 301) 100 0) 0
        (get_subs (dFan 301) 0) 0 stFan.info := rfl
  rw [hE]
  refine ⟨?_, ?_, rfl⟩
  · show spliceAfter stFan.entries stFan.line_idx
      (expLoop (dFan 301) 100 (recAddSubs (dFan 301) 100 0) 0
        (get_subs (dFan 301) 0) 0 stFan.info).1 = 0 :: List.range' 1 101
    rw [ho, hsubs, range'_take 1 (100 + 1) 301 (by omega)]
    show [0] ++ List.range' 1 (100 + 1) ++ ([] : List Nat) =
      0 :: List.range' 1 101
    rw [List.append_nil]
    rfl
  · show setInfo (expLoop (dFan 301) 100 (recAddSubs (dFan 301) 100 0) 0
        (get_subs (dFan 301) 0) 0 stFan.info).2 0
      { infoD (expLoop (dFan 301) 100 (recAddSubs (dFan 301) 100 0) 0
          (get_subs (dFan 301) 0) 0 stFan.info).2 0 with expanded := true }
      = fanInfo 101 100
    have h0out : (0 : Nat) ∉ (get_subs (dFan 301) 0).take (100 + 1) := by
      intro hmem
      have hc := hfresh 0 (List.take_subset _ _ hmem)
      rw [hi0] at hc
      cases hc
    have hR0 : (expLoop (dFan 301) 100 (recAddSubs (dFan 301) 100 0) 0
        (get_subs (dFan 301) 0) 0 stFan.info).2 0 = stFan.info 0 := hu 0 h0out
    funext n
    by_cases hn0 : n = 0
    · rw [hn0, setInfo_self]
      rw [infoD_congr _ stFan.info 0 hR0, infoD_of_some _ _ _ hi0]
      unfold fanInfo
      rw [if_pos rfl]
    · rw [setInfo_ne _ _ _ _ hn0]
      by_cases hnB : n ≤ 101
      · have hi1 : n - 1 < (get_subs (dFan 301) 0).length := by
          rw [hsubs]
          simp only [List.length_range']
          omega
        have hgn : (get_subs (dFan 301) 0).get ⟨n - 1, hi1⟩ = n := by
          have hq : (get_subs (dFan 301) 0).get? (n - 1) = some n := by
            rw [hsubs, range'_get? 1 301 (n - 1) (by omega)]
            exact congrArg some (by omega)
          rw [List.get?_eq_get hi1] at hq
          exact Option.some.inj hq
        have hval := hv (n - 1) hi1 (by omega)
        rw [hgn] at hval
        rw [hval]
        unfold fanInfo
        rw [if_neg hn0, if_pos hnB]
        rw [infoD_of_some _ _ _ hi0, dFan_noexp 301 n hn0]
        have hif : (if n - 1 = 100 then (100 : Nat) else 0) =
            if n = 101 then 100 else 0 := by
          by_cases h : n = 101
          · rw [if_pos (by omega), if_pos h]
          · rw [if_neg (by omega), if_neg h]
        rw [hif]
      · have hnout : n ∉ (get_subs (dFan 301) 0).take (100 + 1) := by
          intro hmem
          rw [hsubs, range'_take 1 (100 + 1) 301 (by omega)] at hmem
          have hcb := List.mem_range'_1.mp hmem
          omega
        rw [hu n hnout]
        unfold fanInfo
        rw [if_neg hn0, if_neg hnB]
        show (if n = 0 then some ({ depth := 0, expandable := true } : NodeInfo) else none) = none
        rw [if_neg hn0]

/-- Activating the placeholder on child `B` (for `B + 100 ≤ 301`)
materializes the next `100` children and flags child `B + 100`. -/
theorem fanMoreStep (B : Nat) (h1 : 101 ≤ B) (h2 : B + 100 ≤ 301) (st : Hier)
    (he : st.entries = 0 :: List.range' 1 B)
    (hi : st.info = fanInfo B (B - 1))
    (hline : st.line_idx = B) :
    (toggleExpand (dFan 301) 100 1 st).entries =
      0 :: List.range' 1 (B + 100) ∧
    (toggleExpand (dFan 301) 100 1 st).info = fanInfo (B + 100) (B + 99) ∧
    (toggleExpand (dFan 301) 100 1 st).line_idx = st.line_idx := by
  have hlen : st.line_idx < st.entries.length := by
    rw [he, hline]
    simp only [List.length_cons, List.length_range']
    omega
  have hget : st.entries.get ⟨st.line_idx, hlen⟩ = B := by
    have hq : st.entries.get? st.line_idx = some B := by
      rw [he, hline]
      rw [show B = B - 1 + 1 from by omega]
      rw [List.get?_cons_succ]
      rw [range'_get? 1 (B - 1 + 1) (B - 1) (by omega)]
      exact congrArg some (by omega)
    rw [List.get?_eq_get hlen] at hq
    exact Option.some.inj hq
  have hi0 : st.info B = some { depth := 1, expandable := false, expanded := false, more_idx := B - 1, parent := 0 } := by
    rw [hi]
    unfold fanInfo
    rw [if_neg (by omega), if_pos (Nat.le_refl B), if_pos rfl]
  rw [toggleExpand_more_eq (dFan 301) 100 1 st hlen B hget
    ({ depth := 1, expandable := false, expanded := false, more_idx := B - 1, parent := 0 }) hi0 (by show B - 1 ≠ 0; omega)]
  have hdropsubs : (get_subs (dFan 301) 0).drop (B - 1 + 1) =
      List.range' (B + 1) (301 - B) := by
    rw [dFan_subs0, show B - 1 + 1 = B from by omega,
      range'_drop 1 B 301 (by omega)]
    rw [show 1 + B = B + 1 from by omega]
  have hm1eq := fanClear B (B - 1) (by omega) st hi
  have hfreshL : ∀ c ∈ List.range' (B + 1) (301 - B), fanInfo B 0 c = none := by
    intro c hc
    have hcb := List.mem_range'_1.mp hc
    unfold fanInfo
    rw [if_neg (by omega), if_neg (by omega)]
  obtain ⟨ho, hu, hv⟩ := moreLoop_fresh (dFan 301) 100 1 0 (B - 1)
    (List.range' (B + 1) (301 - B)) (B - 1 + 1) (fanInfo B 0)
    (Nat.le_refl _) (by omega) hfreshL (List.nodup_range' _ _)
  have htk : B - 1 + 100 + 1 - (B - 1 + 1) = 100 := by omega
  rw [htk] at ho hu hv
  have houteq : (List.range' (B + 1) (301 - B)).take 100 =
      List.range' (B + 1) 100 := range'_take (B + 1) 100 (301 - B) (by omega)
  rw [houteq] at ho hu
  refine ⟨?_, ?_, rfl⟩
  · show spliceAfter st.entries st.line_idx
      (moreLoop (dFan 301) 100 1 0 (B - 1)
        ((get_subs (dFan 301) 0).drop (B - 1 + 1)) (B - 1 + 1)
        (setInfo st.info B
          { ({ depth := 1, expandable := false, expanded := false, more_idx := B - 1, parent := 0 } : NodeInfo) with more_idx := 0 })).1 = 0 :: List.range' 1 (B + 100)
    dsimp only
    rw [hdropsubs, hm1eq, ho, he, hline]
    show (0 :: List.range' 1 B).take (B + 1) ++ List.range' (B + 1) 100 ++
      (0 :: List.range' 1 B).drop (B + 1) = 0 :: List.range' 1 (B + 100)
    rw [List.take_of_length_le (by simp),
      List.drop_eq_nil_of_le (by simp), List.append_nil, List.cons_append]
    have happ : List.range' 1 B ++ List.range' (B + 1) 100 =
        List.range' 1 (B + 100) := by
      have h := List.range'_append_1 1 B 100
      rw [show 1 + B = B + 1 from by omega] at h
      rw [show 100 + B = B + 100 from by omega] at h
      exact h
    rw [happ]
  · dsimp only
    rw [hdropsubs, hm1eq]
    funext n
    by_cases hmem : B + 1 ≤ n ∧ n ≤ B + 100
    · have hjl : n - (B + 1) < (List.range' (B + 1) (301 - B)).length := by
        simp only [List.length_range']
        omega
      have hjk : n - (B + 1) < 100 := by omega
      have hgn : (List.range' (B + 1) (301 - B)).get ⟨n - (B + 1), hjl⟩ = n := by
        have hq := range'_get? (B + 1) (301 - B) (n - (B + 1)) (by omega)
        rw [List.get?_eq_get hjl] at hq
        have hg2 := Option.some.inj hq
        rw [hg2]
        omega
      have hval := hv (n - (B + 1)) hjl hjk
      rw [hgn] at hval
      rw [hval]
      unfold fanInfo
      rw [if_neg (show ¬n = 0 from by omega),
        if_pos (show n ≤ B + 100 from hmem.2)]
      rw [dFan_noexp 301 n (show n ≠ 0 from by omega)]
      have hif : (if B - 1 + 1 + (n - (B + 1)) = B - 1 + 100
          then B - 1 + 1 + (n - (B + 1)) else 0) =
          if n = B + 100 then B + 99 else 0 := by
        by_cases h : n = B + 100
        · rw [if_pos (show B - 1 + 1 + (n - (B + 1)) = B - 1 + 100 from by omega),
            if_pos h]
          omega
        · rw [if_neg (show ¬B - 1 + 1 + (n - (B + 1)) = B - 1 + 100 from by omega),
            if_neg h]
      rw [hif]
    · have hnot : n ∉ List.range' (B + 1) 100 := by
        intro hc
        have hcb := List.mem_range'_1.mp hc
        omega
      rw [hu n hnot]
      unfold fanInfo
      by_cases hn0 : n = 0
      · rw [if_pos hn0, if_pos hn0]
      · rw [if_neg hn0, if_neg hn0]
        by_cases hnB : n ≤ B
        · rw [if_pos hnB, if_pos (show n ≤ B + 100 from by omega), ite_self,
            if_neg (show ¬n = B + 100 from by omega)]
        · rw [if_neg hnB, if_neg (show ¬n ≤ B + 100 from by omega)]

/-- Activating the placeholder on child `301` only clears its pagination
cursor: there are no pending children left. -/
theorem fanMoreLast (st : Hier)
    (he : st.entries = 0 :: List.range' 1 301)
    (hi : st.info = fanInfo 301 300)
    (hline : st.line_idx = 301) :
    (toggleExpand (dFan 301) 100 1 st).entries = 0 :: List.range' 1 301 ∧
    (toggleExpand (dFan 301) 100 1 st).info = fanInfo 301 0 := by
  have hlen : st.line_idx < st.entries.length := by
    rw [he, hline]
    simp only [List.length_cons, List.length_range']
    omega
  have hget : st.entries.get ⟨st.line_idx, hlen⟩ = 301 := by
    have hq : st.entries.get? st.line_idx = some 301 := by
      rw [he, hline]
      show (List.range' 1 301).get? 300 = some 301
      rw [range'_get? 1 301 300 (by omega)]
    rw [List.get?_eq_get hlen] at hq
    exact Option.some.inj hq
  have hi0 : st.info 301 = some { depth := 1, expandable := false, expanded := false, more_idx := 300, parent := 0 } := by
    rw [hi]
    unfold fanInfo
    rw [if_neg (by omega), if_pos (Nat.le_refl _), if_pos rfl]
  rw [toggleExpand_more_eq (dFan 301) 100 1 st hlen 301 hget
    ({ depth := 1, expandable := false, expanded := false, more_idx := 300, parent := 0 }) hi0 (by show (300 : Nat) ≠ 0; omega)]
  have hdropnil : (get_subs (dFan 301) 0).drop (300 + 1) = [] := by
    rw [dFan_subs0]
    apply List.drop_eq_nil_of_le
    simp
  have hm1eq := fanClear 301 300 (by omega) st hi
  refine ⟨?_, ?_⟩
  · show spliceAfter st.entries st.line_idx
      (moreLoop (dFan 301) 100 1 0 300
        ((get_subs (dFan 301) 0).drop (300 + 1)) (300 + 1)
        (setInfo st.info 301
          { ({ depth := 1, expandable := false, expanded := false, more_idx := 300, parent := 0 } : NodeInfo) with more_idx := 0 })).1 = 0 :: List.range' 1 301
    rw [hdropnil]
    show spliceAfter st.entries st.line_idx [] = 0 :: List.range' 1 301
    rw [he, hline]
    show (0 :: List.range' 1 301).take (301 + 1) ++ [] ++
      (0 :: List.range' 1 301).drop (301 + 1) = 0 :: List.range' 1 301
    rw [List.append_nil, List.take_of_length_le (by simp),
      List.drop_eq_nil_of_le (by simp), List.append_nil]
  · dsimp only
    rw [hdropnil]
    show setInfo st.info 301
      { depth := 1, expandable := false, expanded := false, more_idx := 0, parent := 0 } = fanInfo 301 0
    exact hm1eq

theorem setLine_entries (st : Hier) (i : Nat) : (setLine st i).entries = st.entries := rfl

theorem setLine_info (st : Hier) (i : Nat) : (setLine st i).info = st.info := rfl

theorem setLine_line (st : Hier) (i : Nat) : (setLine st i).line_idx = i := rfl

/-- The Visible List and cache of the fan browser at each pagination
stage. -/
theorem fanStages :
    (stPag1.entries = 0 :: List.range' 1 101 ∧ stPag1.info = fanInfo 101 100) ∧
    (stPag2.entries = 0 :: List.range' 1 201 ∧ stPag2.info = fanInfo 201 200) ∧
    (stPag3.entries = 0 :: List.range' 1 301 ∧ stPag3.info = fanInfo 301 300) ∧
    (stPag4.entries = 0 :: List.range' 1 301 ∧ stPag4.info = fanInfo 301 0) := by
  obtain ⟨h1e, h1i, h1l⟩ := fanExpand
  obtain ⟨h2e, h2i, h2l⟩ := fanMoreStep 101 (by omega) (by omega)
    (setLine stPag1 101) ((setLine_entries stPag1 101).trans h1e)
    ((setLine_info stPag1 101).trans h1i) (setLine_line stPag1 101)
  have h2e' : stPag2.entries = 0 :: List.range' 1 201 := h2e
  have h2i' : stPag2.info = fanInfo 201 200 := h2i
  obtain ⟨h3e, h3i, h3l⟩ := fanMoreStep 201 (by omega) (by omega)
    (setLine stPag2 201) ((setLine_entries stPag2 201).trans h2e')
    ((setLine_info stPag2 201).trans h2i') (setLine_line stPag2 201)
  have h3e' : stPag3.entries = 0 :: List.range' 1 301 := h3e
  have h3i' : stPag3.info = fanInfo 301 300 := h3i
  obtain ⟨h4e, h4i⟩ := fanMoreLast (setLine stPag3 301)
    ((setLine_entries stPag3 301).trans h3e')
    ((setLine_info stPag3 301).trans h3i') (setLine_line stPag3 301)
  exact ⟨⟨h1e, h1i⟩, ⟨h2e', h2i'⟩, ⟨h3e', h3i'⟩, ⟨h4e, h4i⟩⟩

/-- C1 counterexample: over the fan design with `3K + 1 = 301` children and
the source's limit `K = kMaxExpandInstances = 100`, expanding the root
yields the first `101` children (rows `1 … 100` plain, child `101` a
placeholder), and after activating that placeholder and then the resulting
placeholder once more (two activations in total) all `301` children are
present but child `301` still carries a pagination cursor
(`more_idx = 300 ≠ 0`), i.e. it renders as a `MoreRow`.  This contradicts
the claim that two activations leave all `3K + 1` children as `NodeRow`s
with no `MoreRow` remaining. -/
theorem pagination_two_activations_counterexample :
    stPag1.entries = 0 :: List.range' 1 101 ∧
    (stPag1.info 101).map (fun i => i.more_idx) = some 100 ∧
    stPag3.entries = 0 :: List.range' 1 301 ∧
    (stPag3.info 301).map (fun i => i.more_idx) = some 300 := by
  obtain ⟨⟨h1e, h1i⟩, _, ⟨h3e, h3i⟩, _⟩ := fanStages
  refine ⟨h1e, ?_, h3e, ?_⟩
  · rw [h1i]
    decide
  · rw [h3i]
    decide

/-- C1 (amended): with limit `K = kMaxExpandInstances = 100` and `3K + 1 =
301` children, toggle-expand yields exactly `K` `NodeRow`s followed by one
`MoreRow`; activating that `MoreRow` and the resulting one (two
activations) yields `3K` `NodeRow`s still followed by one `MoreRow`; a
*third* activation yields all `3K + 1` children as `NodeRow`s in
Data-Source order with no `MoreRow` remaining; and placeholder activation
never changes any existing node's `expanded` flag (nor its depth or
expandability). -/
theorem pagination_resume_behaviour :
    (stPag1.entries = 0 :: List.range' 1 101 ∧
      (∀ c ∈ List.range' 1 100, (stPag1.info c).map (fun i => i.more_idx) = some 0) ∧
      (stPag1.info 101).map (fun i => i.more_idx) = some 100) ∧
    (stPag2.entries = 0 :: List.range' 1 201 ∧
      (∀ c ∈ List.range' 1 200, (stPag2.info c).map (fun i => i.more_idx) = some 0) ∧
      (stPag2.info 201).map (fun i => i.more_idx) = some 200) ∧
    (stPag3.entries = 0 :: List.range' 1 301 ∧
      (∀ c ∈ List.range' 1 300, (stPag3.info c).map (fun i => i.more_idx) = some 0) ∧
      (stPag3.info 301).map (fun i => i.more_idx) = some 300) ∧
    (stPag4.entries = 0 :: List.range' 1 301 ∧
      (∀ c ∈ List.range' 1 301, (stPag4.info c).map (fun i => i.more_idx) = some 0)) ∧
    (∀ n i, stPag1.info n = some i →
      ∃ i2, stPag2.info n = some i2 ∧ i2.expanded = i.expanded ∧
        i2.depth = i.depth ∧ i2.expandable = i.expandable) ∧
    (∀ n i, stPag2.info n = some i →
      ∃ i2, stPag3.info n = some i2 ∧ i2.expanded = i.expanded ∧
        i2.depth = i.depth ∧ i2.expandable = i.expandable) ∧
    (∀ n i, stPag3.info n = some i →
      ∃ i2, stPag4.info n = some i2 ∧ i2.expanded = i.expanded ∧
        i2.depth = i.depth ∧ i2.expandable = i.expandable) := by
  obtain ⟨⟨h1e, h1i⟩, ⟨h2e, h2i⟩, ⟨h3e, h3i⟩, ⟨h4e, h4i⟩⟩ := fanStages
  have hplain : ∀ (B f : Nat), ∀ c, 1 ≤ c → c < B →
      (fanInfo B f c).map (fun i => i.more_idx) = some 0 := by
    intro B f c hc1 hc2
    unfold fanInfo
    rw [if_neg (by omega), if_pos (by omega), if_neg (by omega)]
    rfl
  refine ⟨⟨h1e, ?_, ?_⟩, ⟨h2e, ?_, ?_⟩, ⟨h3e, ?_, ?_⟩, ⟨h4e, ?_⟩, ?_, ?_, ?_⟩
  · intro c hc
    have hcb := List.mem_range'_1.mp hc
    rw [h1i]
    exact hplain 101 100 c (by omega) (by omega)
  · rw [h1i]
    decide
  · intro c hc
    have hcb := List.mem_range'_1.mp hc
    rw [h2i]
    exact hplain 201 200 c (by omega) (by omega)
  · rw [h2i]
    decide
  · intro c hc
    have hcb := List.mem_range'_1.mp hc
    rw [h3i]
    exact hplain 301 300 c (by omega) (by omega)
  · rw [h3i]
    decide
  · intro c hc
    have hcb := List.mem_range'_1.mp hc
    rw [h4i]
    unfold fanInfo
    rw [if_neg (by omega), if_pos (by omega), ite_self]
    rfl
  · intro n i hni
    rw [h1i] at hni
    rw [h2i]
    exact fanInfo_mono 101 100 201 200 (by omega) n i hni
  · intro n i hni
    rw [h2i] at hni
    rw [h3i]
    exact fanInfo_mono 201 200 301 300 (by omega) n i hni
  · intro n i hni
    rw [h3i] at hni
    rw [h4i]
    exact fanInfo_mono 301 300 301 0 (by omega) n i hni

end SimView
